import Mathlib

/-!
Verification of the multi-adaptive time-slab core
(`dolfin/ode/MultiAdaptiveTimeSlab.cpp`) against its specification.

The C++ class is shallowly embedded: the member arrays become total
functions `ℕ → _` together with the `size_*.next` / `size_*.size`
counters, `real` becomes `ℚ` (exact arithmetic; `real_epsilon()` is the
parameter `eps`), and the `-1` sentinels of the signed `int` arrays are
kept as `Int` values.  The external collaborators (ODE, Method,
Partition, Adaptivity) are records of the interfaces the core consumes.
Recursive slab construction is modelled with explicit fuel; running out
of fuel clears the `ok` flag of the state, so theorems about a completed
build can require `ok = true` of the result.
-/

namespace MultiAdaptiveTS

/-- Reals of the source are modelled as exact rationals. -/
abbrev R := ℚ

/-- Opaque quadrature/basis descriptor (the `Method` contract, spec §4.1).
`cG = true` is the continuous variant. -/
structure Method where
  cG : Bool
  nsize : ℕ
  qsize : ℕ
  qpoint : ℕ → R
  npoint : ℕ → R
  ueval : R → (ℕ → R) → R → R

/-- The ODE contract consumed by the core (spec §6): dimension, forward and
transpose dependency pattern, right-hand side and the user update hook. -/
structure Ode where
  N : ℕ
  deps : ℕ → List ℕ
  transp : ℕ → List ℕ
  f : (ℕ → R) → R → ℕ → R
  update : (ℕ → R) → R → Bool → Bool
  endtime : R

/-- Deterministic partition contract (spec §4.2): `update offset K`
returns the cutoff `K'` and the end `end` of the head range. -/
structure Partition where
  size : ℕ
  index : ℕ → ℕ
  update : ℕ → R → R × ℕ

/-- Adaptivity contract (spec §4.3): step bound, threshold and the stored
per-component residuals. -/
structure Adaptivity where
  kmax : R
  threshold : R
  residual : ℕ → R

/-- Ambient context of a `MultiAdaptiveTimeSlab`: the collaborators plus
the machine epsilon and the `save final solution` option. -/
structure Ctx where
  ode : Ode
  method : Method
  adapt : Adaptivity
  part : Partition
  eps : R
  saveFinal : Bool

/-- The mutable state of `MultiAdaptiveTimeSlab`: the arena arrays
`sa sb ei es ee ed jx de`, the dry-run totals `ns ne nj nd`, the
`size_*.next` and `size_*.size` counters of the four `Alloc` structs,
`elast`, the scratch vectors `u u0 f0`, the interval `[ta, tb]`
(members `_a`, `_b`), the coverage cursor `emax` and `kmin`.
`ok` records that no fuel exhaustion occurred while building. -/
structure Slab where
  sa : ℕ → R
  sb : ℕ → R
  ei : ℕ → ℕ
  es : ℕ → ℕ
  ee : ℕ → Int
  ed : ℕ → ℕ
  jx : ℕ → R
  de : ℕ → Int
  ns : ℕ
  ne : ℕ
  nj : ℕ
  nd : ℕ
  sNext : ℕ
  eNext : ℕ
  jNext : ℕ
  dNext : ℕ
  sSize : ℕ
  eSize : ℕ
  jSize : ℕ
  dSize : ℕ
  elast : ℕ → Int
  u : ℕ → R
  u0 : ℕ → R
  f0 : ℕ → R
  ta : R
  tb : R
  emax : ℕ
  kmin : R
  ok : Bool

/-- Log events produced by the core: diagnostic messages (`message`,
`error`) and solution writes (`write`). -/
inductive Ev where
  | msg (s : String)
  | wrote (n : ℕ)
deriving DecidableEq

/-- `within(t, a, b)`: `t` lies in the epsilon-tolerant, left-open
right-closed interval `(a + eps, b + eps]`. -/
def within (C : Ctx) (t a b : R) : Bool :=
  decide (a + C.eps < t) && decide (t ≤ b + C.eps)

/-- `within(a0, b0, a1, b1)`: `[a0, b0]` is contained in `[a1, b1]` up to
epsilon. -/
def within2 (C : Ctx) (a0 b0 a1 b1 : R) : Bool :=
  decide (a1 ≤ a0 + C.eps) && decide (b0 - C.eps ≤ b1)

/-- `alloc_s`: reset `size_s.next`, keep the allocation if it is large
enough, otherwise grow it to the requested size. -/
def alloc_s (st : Slab) (newsize : ℕ) : Slab :=
  if newsize ≤ st.sSize then { st with sNext := 0 }
  else { st with sNext := 0, sSize := newsize }

/-- `alloc_e`: reset `size_e.next`, keep or grow the element arrays. -/
def alloc_e (st : Slab) (newsize : ℕ) : Slab :=
  if newsize ≤ st.eSize then { st with eNext := 0 }
  else { st with eNext := 0, eSize := newsize }

/-- `alloc_j`: reset `size_j.next`, keep or grow the dof array. -/
def alloc_j (st : Slab) (newsize : ℕ) : Slab :=
  if newsize ≤ st.jSize then { st with jNext := 0 }
  else { st with jNext := 0, jSize := newsize }

/-- `alloc_d`: reset `size_d.next`, keep or grow the dependency array. -/
def alloc_d (st : Slab) (newsize : ℕ) : Slab :=
  if newsize ≤ st.dSize then { st with dNext := 0 }
  else { st with dNext := 0, dSize := newsize }

/-- The two solver variants the core can construct. -/
inductive SolverKind where
  | fixedPoint
  | newton
deriving DecidableEq

/-- The message of the fatal error raised for implicit ODEs. -/
def implicitErr : String :=
  "Multi-adaptive solver cannot solver implicit ODEs. Use cG(q) or dG(q) instead."

/-- `chooseSolver`: reject implicit ODEs with a fatal error, then
dispatch on the `ODE nonlinear solver` string.  `error(...)` in the
source throws, which is modelled by `Except.error`; the returned
messages mirror the `message(...)` calls. -/
def chooseSolver (implicit : Bool) (solver : String) :
    Except String (SolverKind × List Ev) :=
  if implicit then
    .error implicitErr
  else if solver = "fixed-point" then
    .ok (.fixedPoint, [.msg ("Using multi-adaptive fixed-point solver.")])
  else if solver = "newton" then
    .ok (.newton, [.msg ("Using multi-adaptive Newton solver.")])
  else if solver = "default" then
    .ok (.fixedPoint,
      [.msg ("Using multi-adaptive fixed-point solver (default for mc/dG(q)).")])
  else
    .error ("Uknown solver type: " ++ solver ++ ".")

/-- `ksample(i, t)`: the step size of the sub-slab of `elast[i]`.  The
returned state is the unmodified input, mirroring that the source method
performs no mutation and no coverage sweep. -/
def ksample (C : Ctx) (st : Slab) (i : ℕ) (t : R) : R × Slab :=
  let e := (st.elast i).toNat
  let s := st.es e
  (st.sb s - st.sa s, st)

/-- `rsample(i, t)`: the previously computed maximum residual of
component `i` stored in the adaptivity object (the live recomputation in
the source is commented out).  No mutation, no coverage sweep. -/
def rsample (C : Ctx) (st : Slab) (i : ℕ) (t : R) : R × Slab :=
  (C.adapt.residual i, st)

/-- `usample(i, t)`: evaluate the element polynomial of `elast[i]` at the
normalized coordinate `(t - a) / k`, feeding the end value of the
previous element (or `u0[i]`) as initial value. -/
def usample (C : Ctx) (st : Slab) (i : ℕ) (t : R) : R :=
  let e := (st.elast i).toNat
  let s := st.es e
  let j := e * C.method.nsize
  let a := st.sa s
  let b := st.sb s
  let k := b - a
  let ep := st.ee e
  let x0 := if ep ≠ -1 then st.jx (ep.toNat * C.method.nsize + C.method.nsize - 1)
            else st.u0 i
  let tau := (t - a) / k
  C.method.ueval x0 (fun n => st.jx (j + n)) tau

/-- The quick check of `coverTime`: the first component (if any) whose
`elast` element does not epsilon-cover `t`. -/
def coverViolation (C : Ctx) (st : Slab) (t : R) : Option ℕ :=
  (List.range C.ode.N).find? (fun i =>
    decide (st.elast i = -1) ||
    decide (t < st.sa (st.es (st.elast i).toNat) + C.eps) ||
    decide (st.sb (st.es (st.elast i).toNat) + C.eps < t))

/-- `coverTime(t)`: ensure `elast[i]` points at the element of component
`i` containing `t`.  Quick-accept when every component already covers
`t`; otherwise rewind `emax` if needed and sweep forward, covering
elements until one starts at or beyond `t` (excluding starts at `_a`). -/
def coverTime (C : Ctx) (st : Slab) (t : R) : Slab :=
  match coverViolation C st t with
  | none => st
  | some i =>
    let emax0 :=
      if st.elast i = -1 ∨ t < st.sa (st.es (st.elast i).toNat) + C.eps then 0
      else st.emax
    let emax1 :=
      if st.ne ≤ emax0 then 0
      else if t < st.sa (st.es emax0) + C.eps then 0
      else emax0
    let sweep := (List.range' emax1 (st.ne - emax1)).takeWhile (fun e =>
      !(decide (t < st.sa (st.es e) + C.eps) && decide (st.ta < st.sa (st.es e) - C.eps)))
    let elast2 := sweep.foldl (fun el e => Function.update el (st.ei e) (Int.ofNat e)) st.elast
    let emax2 := match sweep.getLast? with
      | some e => e
      | none => emax1
    { st with elast := elast2, emax := emax2 }

/-- `create_j`: append `nsize` dofs for a new element, initialized to
`u0[index]`. -/
def create_j (C : Ctx) (st : Slab) (index : ℕ) : Slab :=
  let pos := st.jNext
  { st with
    jNext := pos + C.method.nsize,
    jx := fun j => if pos ≤ j ∧ j < pos + C.method.nsize then st.u0 index else st.jx j }

/-- First free (`-1`) slot of `de` in the half-open range `[lo, hi)`. -/
def findSlot (de : ℕ → Int) (lo hi : ℕ) : Option ℕ :=
  (List.range' lo (hi - lo)).find? (fun d => decide (de d = -1))

/-- One nodal point of the inner loop of `create_d`: if the nodal point
`n` of the larger element `e1` lands inside the new element `[a0, b0]`,
write `e0` into the first free slot of `e1`'s dependency range. -/
def depStep (C : Ctx) (st : Slab) (e0 e1 : ℕ) (a0 b0 a1 k1 : R)
    (de : ℕ → Int) (n : ℕ) : ℕ → Int :=
  if within C (a1 + k1 * C.method.npoint n) a0 b0 then
    match findSlot de (st.ed e1) (st.ed (e1 + 1)) with
    | some d => Function.update de d (Int.ofNat e0)
    | none => de
  else de

/-- Inner loop of `create_d` over the nodal points of `e1`. -/
def depWrite (C : Ctx) (st : Slab) (e0 e1 : ℕ) (a0 b0 a1 k1 : R)
    (de : ℕ → Int) : ℕ → Int :=
  (List.range C.method.nsize).foldl (depStep C st e0 e1 a0 b0 a1 k1) de

/-- One dependency of the outer loop of `create_d`: skip components
without an element or without epsilon-containment of `[a0, b0]` in the
peer's sub-slab, or in the same sub-slab; otherwise run the nodal
loop. -/
def transpStep (C : Ctx) (st : Slab) (e0 s0 : ℕ) (a0 b0 : R)
    (de : ℕ → Int) (i1 : ℕ) : ℕ → Int :=
  if st.elast i1 = -1 then de
  else if within2 C a0 b0 (st.sa (st.es (st.elast i1).toNat))
        (st.sb (st.es (st.elast i1).toNat)) &&
      decide (s0 ≠ st.es (st.elast i1).toNat) then
    depWrite C st e0 (st.elast i1).toNat a0 b0
      (st.sa (st.es (st.elast i1).toNat))
      (st.sb (st.es (st.elast i1).toNat) - st.sa (st.es (st.elast i1).toNat)) de
  else de

/-- `create_d`: enter the new element `e0` of component `i0` into the
dependency ranges of the already created larger-step elements that
depend on it (via the transpose graph).  Only the `de` array changes. -/
def create_d (C : Ctx) (st : Slab) (i0 e0 s0 : ℕ) (a0 b0 : R) : Slab :=
  { st with de := (C.ode.transp i0).foldl (transpStep C st e0 s0 a0 b0) st.de }

/-- `create_e`: append an element for `index` in `subslab`, record its
predecessor in `ee`, create its dofs and its dependencies, and advance
`elast[index]`. -/
def create_e (C : Ctx) (st : Slab) (index subslab : ℕ) (a b : R) : Slab :=
  let pos := st.eNext
  let st := { st with
    eNext := pos + 1,
    ei := Function.update st.ei pos index,
    es := Function.update st.es pos subslab,
    ee := Function.update st.ee pos (st.elast index) }
  let st := create_j C st index
  let st := create_d C st index pos subslab a b
  { st with elast := Function.update st.elast index (Int.ofNat pos) }

/-- Dry-run `countDependencies(i0)`: count `nsize` per dependency whose
scratch time `u[i1]` lags `u[i0]` by more than epsilon. -/
def countDepDry (C : Ctx) (st : Slab) (i0 : ℕ) : ℕ :=
  (C.ode.deps i0).foldl (fun n i1 =>
    if st.u i1 + C.eps < st.u i0 then n + C.method.nsize else n) 0

/-- Creation-time `countDependencies(i0, b0)`: count `nsize` per
dependency whose latest element is missing or ends before `b0 - eps`. -/
def countDepCreate (C : Ctx) (st : Slab) (i0 : ℕ) (b0 : R) : ℕ :=
  (C.ode.deps i0).foldl (fun n i1 =>
    let e1 := st.elast i1
    if e1 = -1 then n + C.method.nsize
    else if st.sb (st.es e1.toNat) < b0 - C.eps then n + C.method.nsize
    else n) 0

/-- One step of the second loop of `create_s`: account the creation-time
dependency count of the head component at position `n` into
`size_d.next` and extend the prefix-sum mapping `ed`. -/
def edLoopStep (C : Ctx) (b0 : R) (st : Slab) (n : ℕ) : Slab :=
  let index := C.part.index n
  let element := st.elast index
  let st := { st with dNext := st.dNext + countDepCreate C st index b0 }
  let st := if element = 0 then { st with ed := Function.update st.ed 0 0 } else st
  if element < (st.ne : Int) - 1 then
    { st with ed := Function.update st.ed (element + 1).toNat st.dNext }
  else st

/-- One head position of the first loop of `create_s`: create the
element of the component at position `n` in sub-slab `pos`. -/
def headStep (C : Ctx) (pos : ℕ) (a0 b0 : R) (st : Slab) (n : ℕ) : Slab :=
  create_e C st (C.part.index n) pos a0 b0

/-- `create_s`: allocate a sub-slab `[a0, b0]`, create an element for
every head position in `[offset, endp)`, then build the `ed` ranges from
the creation-time dependency counts. -/
def create_s (C : Ctx) (st : Slab) (a0 b0 : R) (offset endp : ℕ) : Slab :=
  let pos := st.sNext
  let st := { st with
    sNext := pos + 1,
    sa := Function.update st.sa pos a0,
    sb := Function.update st.sb pos b0 }
  let st := (List.range' offset (endp - offset)).foldl (headStep C pos a0 b0) st
  (List.range' offset (endp - offset)).foldl (edLoopStep C b0) st

/-- `computeEndTime`: consult adaptivity and partition for the largest
step `K'` tolerated by the head `[offset, end)`; shorten the sub-slab
when `K'` is below the threshold fraction of the remaining interval;
track `kmin`. -/
def computeEndTime (C : Ctx) (st : Slab) (a b : R) (offset : ℕ) : R × ℕ × Slab :=
  let K := min C.adapt.kmax (b - a)
  let r := C.part.update offset K
  let b2 := if r.1 < C.adapt.threshold * (b - a) then a + r.1 else b
  (b2, r.2, { st with kmin := min st.kmin (b2 - a) })

mutual

/-- `createTimeSlab(a, b, offset)`: compute the end time of this
sub-slab, create it, then recursively tile the tail components up to the
computed end time.  Fuel exhaustion clears `ok`. -/
def createTimeSlab (C : Ctx) (fuel : ℕ) (st : Slab) (a b : R) (offset : ℕ) :
    R × Slab :=
  match fuel with
  | 0 => (b, { st with ok := false })
  | Nat.succ f =>
    let r := computeEndTime C st a b offset
    let b2 := r.1
    let endp := r.2.1
    let st := r.2.2
    let st := create_s C st a b2 offset endp
    let r2 := ctsLoop C f st a b2 endp
    (b2, r2.2)

/-- The `while (t < b && end < partition.size())` loop of
`createTimeSlab`, with the running time `t` threaded explicitly. -/
def ctsLoop (C : Ctx) (fuel : ℕ) (st : Slab) (t b : R) (endp : ℕ) : R × Slab :=
  match fuel with
  | 0 =>
    if t < b ∧ endp < C.part.size then (t, { st with ok := false }) else (t, st)
  | Nat.succ f =>
    if t < b ∧ endp < C.part.size then
      let r := createTimeSlab C f st t b endp
      ctsLoop C f r.2 r.1 b endp
    else (t, st)

end

/-- One head position of the scratch-time loop of `computeDataSize`:
mark the component at position `n` as having reached `b2`. -/
def uStep (C : Ctx) (b2 : R) (st : Slab) (n : ℕ) : Slab :=
  { st with u := Function.update st.u (C.part.index n) b2 }

/-- One head position of the dependency-counting loop of
`computeDataSize`: account the dry-run count of the component at
position `n`. -/
def ndStep (C : Ctx) (st : Slab) (n : ℕ) : Slab :=
  { st with nd := st.nd + countDepDry C st (C.part.index n) }

mutual

/-- `computeDataSize(a, b, offset)`: the dry run mirroring
`createTimeSlab`, accumulating the totals `ns ne nj nd` and tracking the
latest time of each component in the scratch vector `u`. -/
def computeDataSize (C : Ctx) (fuel : ℕ) (st : Slab) (a b : R) (offset : ℕ) :
    R × Slab :=
  match fuel with
  | 0 => (b, { st with ok := false })
  | Nat.succ f =>
    let r := computeEndTime C st a b offset
    let b2 := r.1
    let endp := r.2.1
    let st := r.2.2
    let st := (List.range' offset (endp - offset)).foldl (uStep C b2) st
    let st := { st with
      ns := st.ns + 1,
      ne := st.ne + (endp - offset),
      nj := st.nj + C.method.nsize * (endp - offset) }
    let st := (List.range' offset (endp - offset)).foldl (ndStep C) st
    let r2 := cdsLoop C f st a b2 endp
    (b2, r2.2)

/-- The tail loop of `computeDataSize`, mirroring `ctsLoop`. -/
def cdsLoop (C : Ctx) (fuel : ℕ) (st : Slab) (t b : R) (endp : ℕ) : R × Slab :=
  match fuel with
  | 0 =>
    if t < b ∧ endp < C.part.size then (t, { st with ok := false }) else (t, st)
  | Nat.succ f =>
    if t < b ∧ endp < C.part.size then
      let r := computeDataSize C f st t b endp
      cdsLoop C f r.2 r.1 b endp
    else (t, st)

end

/-- The initialization performed first by `allocData`: scratch times set
to the slab start for every component, totals zeroed. -/
def dryStart (C : Ctx) (st : Slab) (a : R) : Slab :=
  { st with
    u := fun i => if i < C.ode.N then a else st.u i,
    ns := 0, ne := 0, nj := 0, nd := 0 }

/-- The arena sizing performed by `allocData` after the dry pass: run the
four `alloc_*` calls on the recorded totals and reset the populated
prefix of `de` to the `-1` sentinel. -/
def postAlloc (d : Slab) : Slab :=
  let st := alloc_s d d.ns
  let st := alloc_e st st.ne
  let st := alloc_j st st.nj
  let st := alloc_d st st.nd
  { st with de := fun j => if j < st.nd then -1 else st.de j }

/-- `allocData(a, b)`: initialize the scratch times, zero the totals, run
the dry pass, size the four arenas and reset `de` to all `-1`. -/
def allocData (C : Ctx) (fuel : ℕ) (st : Slab) (a b : R) : Slab :=
  postAlloc (computeDataSize C fuel (dryStart C st a) a b 0).2

/-- The state handed by `build` to `createTimeSlab`: the allocated state
with `elast` cleared for every component and `kmin` primed with the end
time of the ODE. -/
def buildStart (C : Ctx) (fuel : ℕ) (st : Slab) (a b : R) : Slab :=
  let st1 := allocData C fuel st a b
  { st1 with
    elast := fun i => if i < C.ode.N then -1 else st1.elast i,
    kmin := C.ode.endtime }

/-- `build(a, b)`: allocate via the dry run, reset `elast`, create the
slab recursively and record `[_a, _b]`.  The user callback fired at
`t ≈ 0` returns no state in this model (the hook is pure) and is
therefore not recorded. -/
def build (C : Ctx) (fuel : ℕ) (st : Slab) (a b : R) : R × Slab :=
  let r := createTimeSlab C fuel (buildStart C fuel st a b) a b 0
  (r.1, { r.2 with ta := a, tb := r.1 })

/-- Latest time reached by component `i` in a creation state: the end of
its latest element's sub-slab, or the slab start `A` when it has no
element yet. -/
def reach (A : R) (st : Slab) (i : ℕ) : R :=
  if st.elast i = -1 then A else st.sb (st.es (st.elast i).toNat)

/-- Coupling between a dry-run state and a creation state over a slab
starting at `A`: the dry scratch times equal the creation-side reached
times, and the dry totals equal the creation `next` counters. -/
def Cpl (C : Ctx) (A : R) (std stc : Slab) : Prop :=
  (∀ i, i < C.ode.N → std.u i = reach A stc i) ∧
  std.ns = stc.sNext ∧ std.ne = stc.eNext ∧
  std.nj = stc.jNext ∧ std.nd = stc.dNext

/-- `elast` tracks the most recent element of every component: either no
element of the component exists, or `elast` names the last one, with its
indices inside the allocated prefix. -/
def InvL (C : Ctx) (stc : Slab) : Prop :=
  ∀ i, i < C.ode.N →
    (stc.elast i = -1 ∧ ∀ e, e < stc.eNext → stc.ei e ≠ i) ∨
    (∃ e1n : ℕ, stc.elast i = Int.ofNat e1n ∧ e1n < stc.eNext ∧
      stc.ei e1n = i ∧ stc.es e1n < stc.sNext ∧
      ∀ e2, e1n < e2 → e2 < stc.eNext → stc.ei e2 ≠ i)

/-- The element invariants of the data model: component and sub-slab
indices in range, predecessor links pointing strictly backwards within
the same component, exact time contiguity, and `-1` exactly on each
component's first element. -/
def InvE (C : Ctx) (stc : Slab) : Prop :=
  ∀ e, e < stc.eNext →
    stc.ei e < C.ode.N ∧ stc.es e < stc.sNext ∧
    (stc.ee e = -1 ∨ (0 ≤ stc.ee e ∧ stc.ee e < (e : Int))) ∧
    (stc.ee e ≠ -1 →
      stc.ei (stc.ee e).toNat = stc.ei e ∧
      stc.sb (stc.es (stc.ee e).toNat) = stc.sa (stc.es e)) ∧
    (stc.ee e = -1 ↔ ∀ e2, e2 < e → stc.ei e2 ≠ stc.ei e)

/-- All components at positions `offset ..` of the partition have
reached exactly time `a`. -/
def ReachAt (C : Ctx) (A a : R) (stc : Slab) (offset : ℕ) : Prop :=
  ∀ n, offset ≤ n → n < C.part.size → reach A stc (C.part.index n) = a

/-- Regularity of the collaborators assumed for the build analysis:
non-negative epsilon; a deterministic partition whose cutoff is positive
for positive bounds, exceeds epsilon whenever the bound does, and never
exceeds the bound (`K' ≤ K`); head ranges that move forward and stay
inside the permutation; an injective permutation into the component
range; dependency lists inside the component range; and a maximum step
above epsilon. -/
structure Sane (C : Ctx) : Prop where
  eps0 : 0 ≤ C.eps
  kpos : ∀ o K, 0 < K → 0 < (C.part.update o K).1
  keps : ∀ o K, C.eps < K → C.eps < (C.part.update o K).1
  kle : ∀ o K, (C.part.update o K).1 ≤ K
  kmx : C.eps < C.adapt.kmax
  hend : ∀ o K, (C.part.update o K).2 ≤ C.part.size
  hoff : ∀ o K, o < C.part.size → o ≤ (C.part.update o K).2
  hidx : ∀ n, n < C.part.size → C.part.index n < C.ode.N
  hinj : ∀ n m, n < C.part.size → m < C.part.size →
    C.part.index n = C.part.index m → n = m
  hdep : ∀ i, i < C.ode.N → ∀ j ∈ C.ode.deps i, j < C.ode.N

/-- Common conclusions of the lockstep simulation between a dry-run
step `rd` and a creation step `rc` issued from creation state `stc` at
partition position `offset`: equal adjusted end times, coupling of the
result states, preservation of `elast` tracking, stickiness of the
completion flag, untouched dry totals, monotone counters, preserved
prefixes of the sub-slab and element arrays, untouched components, and
(on completion) the element invariants together with all components at
`offset ..` having reached the returned end time. -/
def StepConc (C : Ctx) (A : R) (stc : Slab) (offset : ℕ)
    (rd rc : R × Slab) : Prop :=
  rd.1 = rc.1 ∧
  Cpl C A rd.2 rc.2 ∧ InvL C rc.2 ∧
  (rc.2.ok = true → stc.ok = true) ∧
  rc.2.ns = stc.ns ∧ rc.2.ne = stc.ne ∧ rc.2.nj = stc.nj ∧
  rc.2.nd = stc.nd ∧
  stc.sNext ≤ rc.2.sNext ∧ stc.eNext ≤ rc.2.eNext ∧
  (∀ s, s < stc.sNext → rc.2.sa s = stc.sa s ∧ rc.2.sb s = stc.sb s) ∧
  (∀ e, e < stc.eNext →
    rc.2.ei e = stc.ei e ∧ rc.2.es e = stc.es e ∧ rc.2.ee e = stc.ee e) ∧
  (∀ i, i < C.ode.N →
    (∀ n, offset ≤ n → n < C.part.size → C.part.index n ≠ i) →
    rc.2.elast i = stc.elast i ∧ reach A rc.2 i = reach A stc i) ∧
  (rc.2.ok = true → InvE C rc.2 ∧ ReachAt C A rc.1 rc.2 offset)

/-- The head phase of one `computeDataSize` node: the scratch-time loop,
the counter increments and the dependency-counting loop, bundled. -/
def dryPhase (C : Ctx) (b2 : R) (offset endp : ℕ) (std : Slab) : Slab :=
  let L := List.range' offset (endp - offset)
  let stdU := L.foldl (uStep C b2) std
  L.foldl (ndStep C)
    { stdU with
      ns := stdU.ns + 1,
      ne := stdU.ne + (endp - offset),
      nj := stdU.nj + C.method.nsize * (endp - offset) }

/-- Lockstep statement for the recursion nodes at a given fuel:
`computeDataSize` and `createTimeSlab` stay coupled, and the adjusted
end time lies in `(a, b]`, more than epsilon past the slab start. -/
def NodeP (C : Ctx) (A : R) (fuel : ℕ) : Prop :=
  ∀ a b : R, ∀ offset : ℕ, ∀ std stc : Slab,
    Cpl C A std stc → InvL C stc →
    A ≤ a → A + C.eps < b → a < b → (C.eps < b - a ∨ A + C.eps < a) →
    (offset = 0 ∨ offset < C.part.size) →
    (stc.ok = true → InvE C stc ∧ ReachAt C A a stc offset) →
    StepConc C A stc offset (computeDataSize C fuel std a b offset)
      (createTimeSlab C fuel stc a b offset) ∧
    a < (createTimeSlab C fuel stc a b offset).1 ∧
    (createTimeSlab C fuel stc a b offset).1 ≤ b ∧
    A + C.eps < (createTimeSlab C fuel stc a b offset).1

/-- Lockstep statement for the tail loops at a given fuel: `cdsLoop` and
`ctsLoop` stay coupled, the running time does not decrease nor pass `b`,
and on completion the loop stopped at `b` or exhausted the partition. -/
def LoopP (C : Ctx) (A : R) (fuel : ℕ) : Prop :=
  ∀ t b : R, ∀ endp : ℕ, ∀ std stc : Slab,
    Cpl C A std stc → InvL C stc →
    A ≤ t → t ≤ b → A + C.eps < b → (C.eps < b - t ∨ A + C.eps < t) →
    (stc.ok = true → InvE C stc ∧ ReachAt C A t stc endp) →
    StepConc C A stc endp (cdsLoop C fuel std t b endp)
      (ctsLoop C fuel stc t b endp) ∧
    t ≤ (ctsLoop C fuel stc t b endp).1 ∧
    (ctsLoop C fuel stc t b endp).1 ≤ b ∧
    ((ctsLoop C fuel stc t b endp).2.ok = true →
      (ctsLoop C fuel stc t b endp).1 = b ∨ C.part.size ≤ endp)

/-- Dependency update of `cg_feval` at the left end-point pass (`m = 0`):
take the predecessor's end value inside the same sub-slab, the end value
of a smaller-step peer, or interpolate from a larger-step peer. -/
def cgDep0 (C : Ctx) (st : Slab) (s0 : ℕ) (a0 : R) (u : ℕ → R) (i1 : ℕ) :
    ℕ → R :=
  let nn := C.method.nsize
  let e1 := st.elast i1
  if e1 = -1 then Function.update u i1 (st.u0 i1)
  else
    let e1n := e1.toNat
    let s1 := st.es e1n
    if s1 = s0 then
      let ep := st.ee e1n
      Function.update u i1
        (if ep ≠ -1 then st.jx (ep.toNat * nn + (nn - 1)) else st.u0 i1)
    else
      let b1 := st.sb s1
      if b1 < a0 + C.eps then Function.update u i1 (st.jx (e1n * nn + (nn - 1)))
      else
        let a1 := st.sa s1
        let k1 := b1 - a1
        let tau := (a0 - a1) / k1
        let ep := st.ee e1n
        let x0 := if ep ≠ -1 then st.jx (ep.toNat * nn + (nn - 1)) else st.u0 i1
        Function.update u i1 (C.method.ueval x0 (fun n => st.jx (e1n * nn + n)) tau)

/-- Dependency update of `cg_feval` at quadrature point `m ≥ 1`: within
the same sub-slab the dof `m - 1` is read directly (quadrature omits the
left end-point); smaller-step peers are skipped (served by `de`);
larger-step peers are interpolated. -/
def cgDep (C : Ctx) (st : Slab) (s0 : ℕ) (a0 t : R) (m : ℕ) (u : ℕ → R)
    (i1 : ℕ) : ℕ → R :=
  let nn := C.method.nsize
  let e1 := st.elast i1
  if e1 = -1 then u
  else
    let e1n := e1.toNat
    let s1 := st.es e1n
    let j1 := e1n * nn
    if s0 = s1 then Function.update u i1 (st.jx (j1 + m - 1))
    else
      let b1 := st.sb s1
      if b1 < a0 + C.eps then u
      else
        let a1 := st.sa s1
        let k1 := b1 - a1
        let tau := (t - a1) / k1
        let ep := st.ee e1n
        let x0 := if ep ≠ -1 then st.jx (ep.toNat * nn + (nn - 1)) else st.u0 i1
        Function.update u i1 (C.method.ueval x0 (fun n => st.jx (j1 + n)) tau)

/-- Dependency update of `dg_feval` at quadrature point `m`: within the
same sub-slab the dof `m` is read directly; smaller-step peers are
skipped; larger-step peers are interpolated with `x0 = 0`. -/
def dgDep (C : Ctx) (st : Slab) (s0 : ℕ) (a0 t : R) (m : ℕ) (u : ℕ → R)
    (i1 : ℕ) : ℕ → R :=
  let nn := C.method.nsize
  let e1 := st.elast i1
  if e1 = -1 then u
  else
    let e1n := e1.toNat
    let s1 := st.es e1n
    let j1 := e1n * nn
    if s0 = s1 then Function.update u i1 (st.jx (j1 + m))
    else
      let b1 := st.sb s1
      if b1 < a0 + C.eps then u
      else
        let a1 := st.sa s1
        let k1 := b1 - a1
        let tau := (t - a1) / k1
        Function.update u i1 (C.method.ueval 0 (fun n => st.jx (j1 + n)) tau)

/-- Small-step dependent update of `cg_feval`: interpolate the cached
element `e1n` at time `t`, with `x0` from its predecessor or `u0`. -/
def cgSmall (C : Ctx) (st : Slab) (t : R) (u : ℕ → R) (e1n : ℕ) : ℕ → R :=
  let nn := C.method.nsize
  let ep := st.ee e1n
  let i1 := st.ei e1n
  let x0 := if ep ≠ -1 then st.jx (ep.toNat * nn + (nn - 1)) else st.u0 i1
  let s1 := st.es e1n
  let a1 := st.sa s1
  let b1 := st.sb s1
  let k1 := b1 - a1
  let tau := (t - a1) / k1
  Function.update u i1 (C.method.ueval x0 (fun n => st.jx (e1n * nn + n)) tau)

/-- Small-step dependent update of `dg_feval`: interpolate with
`x0 = 0`. -/
def dgSmall (C : Ctx) (st : Slab) (t : R) (u : ℕ → R) (e1n : ℕ) : ℕ → R :=
  let nn := C.method.nsize
  let i1 := st.ei e1n
  let s1 := st.es e1n
  let a1 := st.sa s1
  let b1 := st.sb s1
  let k1 := b1 - a1
  let tau := (t - a1) / k1
  Function.update u i1 (C.method.ueval 0 (fun n => st.jx (e1n * nn + n)) tau)

/-- Upper end of the dependency range of element `e0`, mirroring the
unsigned comparison `e0 < ne - 1 ? ed[e0 + 1] : nd` of the source. -/
def depEnd (st : Slab) (e0 : ℕ) : ℕ :=
  if st.ne = 0 ∨ e0 + 1 < st.ne then st.ed (e0 + 1) else st.nd

/-- `cg_feval`: evaluate the right-hand side of element
`(s0, e0, i0, a0, b0, k0)` at all quadrature points.  Returns the final
scratch vector `u` and the list `f[0], ..., f[qsize-1]`. -/
def cg_feval (C : Ctx) (st : Slab) (s0 e0 i0 : ℕ) (a0 b0 k0 : R) :
    (ℕ → R) × List R :=
  let nn := C.method.nsize
  let deps := C.ode.deps i0
  let start :=
    if a0 < st.ta + C.eps then (st.u, [st.f0 i0])
    else
      let u1 := deps.foldl (cgDep0 C st s0 a0) st.u
      (u1, [C.ode.f u1 a0 i0])
  let dStart := st.ed e0
  let ndep := (depEnd st e0 - dStart) / nn
  let r := (List.range' 1 (C.method.qsize - 1)).foldl (fun acc m =>
    let t := a0 + k0 * C.method.qpoint m
    let u := deps.foldl (cgDep C st s0 a0 t m) acc.1
    let ud := (List.range ndep).foldl
      (fun ud _ => (cgSmall C st t ud.1 (st.de ud.2).toNat, ud.2 + 1))
      (u, acc.2.1)
    (ud.1, ud.2, acc.2.2 ++ [C.ode.f ud.1 t i0]))
    (start.1, dStart, start.2)
  (r.1, r.2.2)

/-- `dg_feval`: evaluate the right-hand side at all quadrature points of
the discontinuous method (no left end-point special case). -/
def dg_feval (C : Ctx) (st : Slab) (s0 e0 i0 : ℕ) (a0 b0 k0 : R) :
    (ℕ → R) × List R :=
  let nn := C.method.nsize
  let deps := C.ode.deps i0
  let dStart := st.ed e0
  let ndep := (depEnd st e0 - dStart) / nn
  let r := (List.range C.method.qsize).foldl (fun acc m =>
    let t := a0 + k0 * C.method.qpoint m
    let u := deps.foldl (dgDep C st s0 a0 t m) acc.1
    let ud := (List.range ndep).foldl
      (fun ud _ => (dgSmall C st t ud.1 (st.de ud.2).toNat, ud.2 + 1))
      (u, acc.2.1)
    (ud.1, ud.2, acc.2.2 ++ [C.ode.f ud.1 t i0]))
    (st.u, dStart, ([] : List R))
  (r.1, r.2.2)

/-- First half of `shift(end)`: cover the end time and collect the
end-time value of every component into `u`. -/
def shiftCovered (C : Ctx) (st : Slab) : Slab :=
  let st := coverTime C st st.tb
  { st with u := fun i =>
      if i < C.ode.N then
        st.jx ((st.elast i).toNat * C.method.nsize + C.method.nsize - 1)
      else st.u i }

/-- `shift(end)`: cover the end time, collect the end values of all
components into `u`, optionally write the solution, consult the user
hook `ode.update`, and only on acceptance copy `u` into `u0`.  Returns
the success flag, the new state and the emitted events. -/
def shift (C : Ctx) (st : Slab) (endb : Bool) : Bool × Slab × List Ev :=
  let st := shiftCovered C st
  let evs := if C.saveFinal && endb then [Ev.wrote C.ode.N] else []
  if C.ode.update st.u st.tb endb = false then
    (false, st, evs)
  else
    (true, { st with u0 := fun i => if i < C.ode.N then st.u i else st.u0 i }, evs)

/-! ### Concrete instances used by the witnesses -/

/-- Witness method: a cG(1)-style method with one dof at the right
end-point of the element. -/
def wMethod : Method :=
  { cG := true, nsize := 1, qsize := 2,
    qpoint := fun m => if m = 0 then 0 else 1,
    npoint := fun _ => 1,
    ueval := fun x0 d t => x0 + (d 0 - x0) * t }

/-- Witness ODE: two mutually dependent components. -/
def wOde : Ode :=
  { N := 2,
    deps := fun i => if i = 0 then [1] else [0],
    transp := fun i => if i = 0 then [1] else [0],
    f := fun _ _ _ => 0,
    update := fun _ _ _ => true,
    endtime := 1 }

/-- Witness partition: component 1 first with desired step `1`, then
component 0 with desired step `1/2`. -/
def wPart : Partition :=
  { size := 2,
    index := fun n => if n = 0 then 1 else 0,
    update := fun o K => (min K (if o = 0 then 1 else 1/2), if o = 0 then 1 else 2) }

/-- Witness context with exact arithmetic (`eps = 0`). -/
def wCtx : Ctx :=
  { ode := wOde, method := wMethod,
    adapt := { kmax := 1, threshold := 3/4, residual := fun _ => 0 },
    part := wPart, eps := 0, saveFinal := false }

/-- Blank initial slab state for the witnesses. -/
def wSlab : Slab :=
  { sa := fun _ => 0, sb := fun _ => 0, ei := fun _ => 0, es := fun _ => 0,
    ee := fun _ => 0, ed := fun _ => 0, jx := fun _ => 0, de := fun _ => 0,
    ns := 0, ne := 0, nj := 0, nd := 0,
    sNext := 0, eNext := 0, jNext := 0, dNext := 0,
    sSize := 0, eSize := 0, jSize := 0, dSize := 0,
    elast := fun _ => 0, u := fun _ => 0,
    u0 := fun i => if i = 0 then 1 else 2, f0 := fun _ => 0,
    ta := 0, tb := 0, emax := 0, kmin := 0, ok := true }

/-- The slab built over `[0, 1]` in the witness context: component 1
gets one element on `[0, 1]`, component 0 two elements on `[0, 1/2]`
and `[1/2, 1]`. -/
def wBuilt : Slab := (build wCtx 10 wSlab 0 1).2

/-- Witness context whose user hook vetoes every shift. -/
def wCtxStop : Ctx :=
  { wCtx with ode := { wOde with update := fun _ _ _ => false } }

/-- Tiny state for the `feval` fast-path witness: every component is
covered by element `0`, which lives in sub-slab `5`. -/
def w8 : Slab := { wSlab with elast := fun _ => Int.ofNat 0, es := fun _ => 5 }

/-- Mid-build state for the `create_d` witness: component 1 owns element
`0` on sub-slab `0 = [0, 1]` with dependency range `de[0 .. 1)`, still
free; component 0 has no element yet. -/
def w3 : Slab :=
  { wSlab with
    elast := fun i => if i = 1 then 0 else -1,
    es := fun _ => 0,
    sa := fun _ => 0,
    sb := fun _ => 1,
    ed := fun e => if e = 0 then 0 else 1,
    de := fun _ => -1 }

/-- Witness ODE for the build-level claims: a single self-contained
component. -/
def c1Ode : Ode :=
  { N := 1, deps := fun _ => [], transp := fun _ => [],
    f := fun _ _ _ => 0, update := fun _ _ _ => true, endtime := 1 }

/-- Witness partition for the build-level claims: one position whose
head range always covers the whole partition. -/
def c1Part : Partition :=
  { size := 1, index := fun _ => 0, update := fun _ K => (K, 1) }

/-- Witness context for the build-level claims. -/
def c1Ctx : Ctx :=
  { ode := c1Ode, method := wMethod,
    adapt := { kmax := 1, threshold := 3/4, residual := fun _ => 0 },
    part := c1Part, eps := 0, saveFinal := false }

/-- Input slab for the dependency-fill witness: blank state with a fresh
(`-1`-filled) dependency arena. -/
def c2Slab : Slab := { wSlab with de := fun _ => -1 }

/-- Well-formedness of a fully built slab as assumed for the sampling
analysis: every component's `elast` names its last element, which ends
at `_b`; element creation order has non-decreasing sub-slab starts;
every tile is wider than epsilon and starts no earlier than `_a`; a
first element starts exactly at `_a`; and a predecessor link names the
immediately preceding element of the same component, ending exactly
where the element begins. -/
structure Sampleable (C : Ctx) (st : Slab) : Prop where
  eps0 : 0 ≤ C.eps
  hlast : ∀ i, i < C.ode.N → ∃ en, en < st.ne ∧
    st.elast i = Int.ofNat en ∧ st.ei en = i ∧
    st.sb (st.es en) = st.tb ∧
    ∀ e2, en < e2 → e2 < st.ne → st.ei e2 ≠ i
  hmono : ∀ e1 e2, e1 ≤ e2 → e2 < st.ne →
    st.sa (st.es e1) ≤ st.sa (st.es e2)
  hwid : ∀ e, e < st.ne → st.sa (st.es e) + C.eps < st.sb (st.es e)
  hta : ∀ e, e < st.ne → st.ta ≤ st.sa (st.es e)
  hfirst : ∀ e, e < st.ne → st.ee e = -1 →
    st.sa (st.es e) = st.ta ∧ ∀ e2, e2 < e → st.ei e2 ≠ st.ei e
  hlink : ∀ e, e < st.ne → st.ee e ≠ -1 →
    (st.ee e).toNat < e ∧ st.ei (st.ee e).toNat = st.ei e ∧
    st.sb (st.es (st.ee e).toNat) = st.sa (st.es e) ∧
    ∀ e2, (st.ee e).toNat < e2 → e2 < e → st.ei e2 ≠ st.ei e

/-- Built two-element slab for the sampling witness: one component whose
two elements tile `[0, 1/2]` and `[1/2, 1]`. -/
def w4 : Slab :=
  { wSlab with
    ne := 2,
    sa := fun s => if s = 1 then 1/2 else 0,
    sb := fun s => if s = 1 then 1 else 1/2,
    ei := fun _ => 0,
    es := fun e => if e = 1 then 1 else 0,
    ee := fun e => if e = 1 then Int.ofNat 0 else -1,
    elast := fun _ => Int.ofNat 1,
    ta := 0, tb := 1 }

/-- Sum of a function over a list, in the fold form used by the
dependency counters. -/
def sumL (l : List ℕ) (g : ℕ → ℕ) : ℕ :=
  l.foldl (fun s i => s + g i) 0

/-- Number of nodal points of an element starting at `a1` with step `k1`
lying epsilon-inside `(a0, b0]`: the number of slots `depWrite` tries to
fill for one dependency pair. -/
def nodalHits (C : Ctx) (a1 k1 a0 b0 : R) : ℕ :=
  (List.range C.method.nsize).countP
    (fun n => within C (a1 + k1 * C.method.npoint n) a0 b0)

/-- Number of nodal points of an element starting at `a1` with step `k1`
strictly beyond time `r`: the hits still expected from a dependency
whose coverage has reached `r` (exact arithmetic). -/
def futureHits (C : Ctx) (a1 k1 r : R) : ℕ :=
  (List.range C.method.nsize).countP
    (fun n => decide (r < a1 + k1 * C.method.npoint n))

/-- Hits still expected by element `e1` from all its dependencies, given
the current coverage of every component. -/
def remHits (C : Ctx) (A : R) (stc : Slab) (e1 : ℕ) : ℕ :=
  sumL (C.ode.deps (stc.ei e1))
    (fun i0 => futureHits C (stc.sa (stc.es e1))
      (stc.sb (stc.es e1) - stc.sa (stc.es e1)) (reach A stc i0))

/-- End of the dependency range of element `e1`: the recorded prefix sum
`ed[e1+1]`, or the current `size_d.next` for the final element (whose
`ed` entry is never written). -/
def rangeHi (stc : Slab) (e1 : ℕ) : ℕ :=
  if e1 + 1 < stc.ne then stc.ed (e1 + 1) else stc.dNext

/-- Dependency-range invariant of one element: a positive tile, a
well-formed range below `size_d.next`, enough free room for the expected
hits, and the range split into a written prefix and a `-1` suffix whose
length is exactly the number of still-expected hits. -/
def DeInvE (C : Ctx) (A : R) (stc : Slab) (e1 : ℕ) : Prop :=
  stc.sa (stc.es e1) < stc.sb (stc.es e1) ∧
  stc.ed e1 ≤ rangeHi stc e1 ∧
  rangeHi stc e1 ≤ stc.dNext ∧
  remHits C A stc e1 ≤ rangeHi stc e1 - stc.ed e1 ∧
  (∀ d, stc.ed e1 ≤ d → d < rangeHi stc e1 - remHits C A stc e1 →
    stc.de d ≠ -1) ∧
  (∀ d, rangeHi stc e1 - remHits C A stc e1 ≤ d → d < rangeHi stc e1 →
    stc.de d = -1)

/-- Dependency-range invariant for the first `m` elements, with pairwise
ordered (hence disjoint) ranges. -/
def DeInvUpTo (C : Ctx) (A : R) (stc : Slab) (m : ℕ) : Prop :=
  (∀ e1, e1 < m → DeInvE C A stc e1) ∧
  (∀ e1 e2, e1 < e2 → e2 < m → rangeHi stc e1 ≤ stc.ed e2)

/-- Dependency-range invariant for all created elements. -/
def DeInv (C : Ctx) (A : R) (stc : Slab) : Prop :=
  DeInvUpTo C A stc stc.eNext

/-- Every superseded element (one no longer named by `elast` of its
component) has all its dependencies covered past its end: no hits are
expected for it any more. -/
def Superseded (C : Ctx) (A : R) (stc : Slab) : Prop :=
  ∀ e1, e1 < stc.eNext → stc.elast (stc.ei e1) ≠ Int.ofNat e1 →
    ∀ i0 ∈ C.ode.deps (stc.ei e1), stc.sb (stc.es e1) ≤ reach A stc i0

/-- The dependency bookkeeping invariant at a recursion point with
running time `t`, bound `b` and head boundary `endp`: components at
positions below the boundary are covered at least to `b`; any component
covered to `b` has a current tile starting no later than `t`; everything
at or past `size_d.next` is free; the prefix-sum chain is primed at the
next element; and the per-element range invariants hold, with no hits
expected by superseded elements. -/
def Dpack (C : Ctx) (A t b : R) (stc : Slab) (endp : ℕ) : Prop :=
  (∀ n, n < endp → n < C.part.size → b ≤ reach A stc (C.part.index n)) ∧
  (∀ i, i < C.ode.N → b ≤ reach A stc i →
    stc.elast i ≠ -1 ∧ stc.sa (stc.es (stc.elast i).toNat) ≤ t) ∧
  (∀ d, stc.dNext ≤ d → stc.de d = -1) ∧
  ((0 < stc.eNext ∧ stc.eNext < stc.ne) → stc.ed stc.eNext = stc.dNext) ∧
  (stc.eNext = 0 → stc.dNext = 0) ∧
  DeInv C A stc ∧ Superseded C A stc

/-- Regularity of the dependency structure assumed for the fill
analysis: exact arithmetic, a method with nodal points in `(0, 1]`,
dependency and transpose lists that are dual and duplicate-free over
in-range components, and a partition covering every component. -/
structure DepSane (C : Ctx) : Prop where
  heps0 : C.eps = 0
  hnsz : 0 < C.method.nsize
  hnp1 : ∀ n, n < C.method.nsize → 0 < C.method.npoint n
  hnp2 : ∀ n, n < C.method.nsize → C.method.npoint n ≤ 1
  hdual : ∀ i j, i < C.ode.N → j < C.ode.N →
    (j ∈ C.ode.transp i ↔ i ∈ C.ode.deps j)
  htrn : ∀ i, i < C.ode.N → ∀ j ∈ C.ode.transp i, j < C.ode.N
  hsurj : ∀ i, i < C.ode.N → ∃ n, n < C.part.size ∧ C.part.index n = i
  hndd : ∀ i, i < C.ode.N → (C.ode.deps i).Nodup
  hndt : ∀ i, i < C.ode.N → (C.ode.transp i).Nodup

/-- Lockstep statement of the dependency bookkeeping for the recursion
nodes at a given fuel: under the coupling hypotheses and a dry total
bounding the stored `ne`, a completing node carries `Dpack` through. -/
def NodeD (C : Ctx) (A : R) (fuel : ℕ) : Prop :=
  ∀ a b : R, ∀ offset : ℕ, ∀ std stc : Slab,
    Cpl C A std stc → InvL C stc →
    A ≤ a → A + C.eps < b → a < b → (C.eps < b - a ∨ A + C.eps < a) →
    (offset = 0 ∨ offset < C.part.size) →
    (stc.ok = true → InvE C stc ∧ ReachAt C A a stc offset) →
    (computeDataSize C fuel std a b offset).2.ne ≤ stc.ne →
    stc.eNext ≤ stc.ne →
    (stc.ok = true → Dpack C A a b stc offset) →
    (createTimeSlab C fuel stc a b offset).2.ok = true →
      Dpack C A (createTimeSlab C fuel stc a b offset).1 b
        (createTimeSlab C fuel stc a b offset).2 offset

/-- Lockstep statement of the dependency bookkeeping for the tail loops
at a given fuel. -/
def LoopD (C : Ctx) (A : R) (fuel : ℕ) : Prop :=
  ∀ t b : R, ∀ endp : ℕ, ∀ std stc : Slab,
    Cpl C A std stc → InvL C stc →
    A ≤ t → t ≤ b → A + C.eps < b → (C.eps < b - t ∨ A + C.eps < t) →
    (stc.ok = true → InvE C stc ∧ ReachAt C A t stc endp) →
    (cdsLoop C fuel std t b endp).2.ne ≤ stc.ne →
    stc.eNext ≤ stc.ne →
    (stc.ok = true → Dpack C A t b stc endp) →
    (ctsLoop C fuel stc t b endp).2.ok = true →
      Dpack C A (ctsLoop C fuel stc t b endp).1 b
        (ctsLoop C fuel stc t b endp).2 endp

/-- Trichotomy of the creation states seen while building one sub-slab
`[a0, b0]` at position `pos`: every component is either covered at most
to the sub-slab start, or its live element's tile contains the sub-slab
from an earlier, larger sub-slab, or its live element lies in the
current sub-slab itself. -/
def TriInv (C : Ctx) (A : R) (stc : Slab) (pos : ℕ) (a0 b0 : R) : Prop :=
  ∀ i, i < C.ode.N →
    reach A stc i ≤ a0 ∨
    (∃ en, en < stc.eNext ∧ stc.elast i = Int.ofNat en ∧
      stc.sa (stc.es en) ≤ a0 ∧ b0 ≤ stc.sb (stc.es en) ∧ stc.es en ≠ pos) ∨
    (∃ en, en < stc.eNext ∧ stc.elast i = Int.ofNat en ∧ stc.es en = pos)

/-- One term of the creation-time dependency count: `nsize` for a
dependency whose latest element is missing or ends before `b0 - eps`,
and `0` otherwise. -/
def cdcTerm (C : Ctx) (st : Slab) (b0 : R) (i1 : ℕ) : ℕ :=
  if st.elast i1 = -1 then C.method.nsize
  else if st.sb (st.es (st.elast i1).toNat) < b0 - C.eps then C.method.nsize
  else 0

/-! ### Simple preservation lemmas -/

/-- `coverTime` only moves `elast` and `emax`. -/
theorem coverTime_u0 (C : Ctx) (st : Slab) (t : R) :
    (coverTime C st t).u0 = st.u0 := by
  unfold coverTime
  cases coverViolation C st t <;> rfl

/-- `shiftCovered` does not touch `u0`. -/
theorem shiftCovered_u0 (C : Ctx) (st : Slab) :
    (shiftCovered C st).u0 = st.u0 := by
  unfold shiftCovered
  exact coverTime_u0 C st st.tb

/-! ### Field lemmas for the creation functions -/

/-- All fields of `create_e` in terms of the input state (the dof and
dependency arrays are left unconstrained here). -/
theorem create_e_fields (C : Ctx) (st : Slab) (i s : ℕ) (a b : R) :
    (create_e C st i s a b).eNext = st.eNext + 1 ∧
    (create_e C st i s a b).jNext = st.jNext + C.method.nsize ∧
    (create_e C st i s a b).sNext = st.sNext ∧
    (create_e C st i s a b).dNext = st.dNext ∧
    (create_e C st i s a b).sa = st.sa ∧
    (create_e C st i s a b).sb = st.sb ∧
    (create_e C st i s a b).ed = st.ed ∧
    (create_e C st i s a b).ns = st.ns ∧
    (create_e C st i s a b).ne = st.ne ∧
    (create_e C st i s a b).nj = st.nj ∧
    (create_e C st i s a b).nd = st.nd ∧
    (create_e C st i s a b).u = st.u ∧
    (create_e C st i s a b).u0 = st.u0 ∧
    (create_e C st i s a b).ok = st.ok ∧
    (create_e C st i s a b).ei = Function.update st.ei st.eNext i ∧
    (create_e C st i s a b).es = Function.update st.es st.eNext s ∧
    (create_e C st i s a b).ee = Function.update st.ee st.eNext (st.elast i) ∧
    (create_e C st i s a b).elast =
      Function.update st.elast i (Int.ofNat st.eNext) :=
  ⟨rfl, rfl, rfl, rfl, rfl, rfl, rfl, rfl, rfl, rfl, rfl, rfl, rfl, rfl,
    rfl, rfl, rfl, rfl⟩

/-- `edLoopStep` only changes `dNext` and `ed`; its `dNext` increment is
the creation-time dependency count of the processed component. -/
theorem edLoopStep_fields (C : Ctx) (b0 : R) (st : Slab) (n : ℕ) :
    (edLoopStep C b0 st n).dNext =
      st.dNext + countDepCreate C st (C.part.index n) b0 ∧
    (edLoopStep C b0 st n).eNext = st.eNext ∧
    (edLoopStep C b0 st n).jNext = st.jNext ∧
    (edLoopStep C b0 st n).sNext = st.sNext ∧
    (edLoopStep C b0 st n).sa = st.sa ∧
    (edLoopStep C b0 st n).sb = st.sb ∧
    (edLoopStep C b0 st n).ei = st.ei ∧
    (edLoopStep C b0 st n).es = st.es ∧
    (edLoopStep C b0 st n).ee = st.ee ∧
    (edLoopStep C b0 st n).elast = st.elast ∧
    (edLoopStep C b0 st n).ns = st.ns ∧
    (edLoopStep C b0 st n).ne = st.ne ∧
    (edLoopStep C b0 st n).nj = st.nj ∧
    (edLoopStep C b0 st n).nd = st.nd ∧
    (edLoopStep C b0 st n).u = st.u ∧
    (edLoopStep C b0 st n).u0 = st.u0 ∧
    (edLoopStep C b0 st n).ok = st.ok := by
  unfold edLoopStep
  dsimp only
  split <;> split <;>
    exact ⟨rfl, rfl, rfl, rfl, rfl, rfl, rfl, rfl, rfl, rfl, rfl, rfl, rfl,
      rfl, rfl, rfl, rfl⟩

/-- `countDepDry` only depends on the scratch vector `u`. -/
theorem countDepDry_congr (C : Ctx) (st st2 : Slab) (i0 : ℕ)
    (h : st.u = st2.u) : countDepDry C st i0 = countDepDry C st2 i0 := by
  unfold countDepDry
  rw [h]

/-- `countDepCreate` only depends on `elast`, `es` and `sb`. -/
theorem countDepCreate_congr (C : Ctx) (st st2 : Slab) (i0 : ℕ) (b0 : R)
    (h1 : st.elast = st2.elast) (h2 : st.es = st2.es) (h3 : st.sb = st2.sb) :
    countDepCreate C st i0 b0 = countDepCreate C st2 i0 b0 := by
  unfold countDepCreate
  rw [h1, h2, h3]

/-- `Int.toNat` inverts `Int.ofNat`, in the `ofNat` spelling used by the
embedding. -/
theorem toNatOfNat (n : ℕ) : (Int.ofNat n).toNat = n := rfl

/-- Projection lemmas for `create_e`, stated individually for
rewriting. -/
theorem create_e_eNext (C : Ctx) (st : Slab) (i s : ℕ) (a b : R) :
    (create_e C st i s a b).eNext = st.eNext + 1 := rfl

/-- `create_e` advances `jNext` by `nsize`. -/
theorem create_e_jNext (C : Ctx) (st : Slab) (i s : ℕ) (a b : R) :
    (create_e C st i s a b).jNext = st.jNext + C.method.nsize := rfl

/-- `create_e` leaves the sub-slab counter unchanged. -/
theorem create_e_sNext (C : Ctx) (st : Slab) (i s : ℕ) (a b : R) :
    (create_e C st i s a b).sNext = st.sNext := rfl

/-- `create_e` leaves the dependency counter unchanged. -/
theorem create_e_dNext (C : Ctx) (st : Slab) (i s : ℕ) (a b : R) :
    (create_e C st i s a b).dNext = st.dNext := rfl

/-- `create_e` leaves the sub-slab left end-points unchanged. -/
theorem create_e_sa (C : Ctx) (st : Slab) (i s : ℕ) (a b : R) :
    (create_e C st i s a b).sa = st.sa := rfl

/-- `create_e` leaves the sub-slab right end-points unchanged. -/
theorem create_e_sb (C : Ctx) (st : Slab) (i s : ℕ) (a b : R) :
    (create_e C st i s a b).sb = st.sb := rfl

/-- `create_e` leaves the `ed` mapping unchanged. -/
theorem create_e_ed (C : Ctx) (st : Slab) (i s : ℕ) (a b : R) :
    (create_e C st i s a b).ed = st.ed := rfl

/-- `create_e` leaves the dry totals unchanged. -/
theorem create_e_ns (C : Ctx) (st : Slab) (i s : ℕ) (a b : R) :
    (create_e C st i s a b).ns = st.ns := rfl

/-- `create_e` leaves the dry element total unchanged. -/
theorem create_e_ne (C : Ctx) (st : Slab) (i s : ℕ) (a b : R) :
    (create_e C st i s a b).ne = st.ne := rfl

/-- `create_e` leaves the dry dof total unchanged. -/
theorem create_e_nj (C : Ctx) (st : Slab) (i s : ℕ) (a b : R) :
    (create_e C st i s a b).nj = st.nj := rfl

/-- `create_e` leaves the dry dependency total unchanged. -/
theorem create_e_nd (C : Ctx) (st : Slab) (i s : ℕ) (a b : R) :
    (create_e C st i s a b).nd = st.nd := rfl

/-- `create_e` leaves the scratch vector unchanged. -/
theorem create_e_u (C : Ctx) (st : Slab) (i s : ℕ) (a b : R) :
    (create_e C st i s a b).u = st.u := rfl

/-- `create_e` leaves the initial values unchanged. -/
theorem create_e_u0 (C : Ctx) (st : Slab) (i s : ℕ) (a b : R) :
    (create_e C st i s a b).u0 = st.u0 := rfl

/-- `create_e` leaves the completion flag unchanged. -/
theorem create_e_ok (C : Ctx) (st : Slab) (i s : ℕ) (a b : R) :
    (create_e C st i s a b).ok = st.ok := rfl

/-- `create_e` appends the component index at the fresh position. -/
theorem create_e_ei (C : Ctx) (st : Slab) (i s : ℕ) (a b : R) :
    (create_e C st i s a b).ei = Function.update st.ei st.eNext i := rfl

/-- `create_e` appends the sub-slab index at the fresh position. -/
theorem create_e_es (C : Ctx) (st : Slab) (i s : ℕ) (a b : R) :
    (create_e C st i s a b).es = Function.update st.es st.eNext s := rfl

/-- `create_e` records the predecessor at the fresh position. -/
theorem create_e_ee (C : Ctx) (st : Slab) (i s : ℕ) (a b : R) :
    (create_e C st i s a b).ee = Function.update st.ee st.eNext (st.elast i) :=
  rfl

/-- `create_e` points `elast` of its component at the fresh position. -/
theorem create_e_elast (C : Ctx) (st : Slab) (i s : ℕ) (a b : R) :
    (create_e C st i s a b).elast =
      Function.update st.elast i (Int.ofNat st.eNext) := rfl

/-- `create_e` preserves `InvL`, registering the new element as the
latest of its component. -/
theorem create_e_InvL (C : Ctx) (st : Slab) (i s : ℕ) (a b : R)
    (hiN : i < C.ode.N) (hs : s < st.sNext) (hL : InvL C st) :
    InvL C (create_e C st i s a b) := by
  intro j hj
  simp only [create_e_elast, create_e_eNext, create_e_ei, create_e_es,
    create_e_sNext]
  by_cases hji : j = i
  · subst hji
    right
    refine ⟨st.eNext, Function.update_same j (Int.ofNat st.eNext) st.elast,
      Nat.lt_succ_self _, ?_, ?_, ?_⟩
    · exact Function.update_same st.eNext j st.ei
    · rw [Function.update_same st.eNext s st.es]
      exact hs
    · intro e2 h1 h2
      omega
  · rw [Function.update_noteq hji]
    rcases hL j hj with ⟨h1, h2⟩ | ⟨e1n, p1, p2, p3, p4, p5⟩
    · left
      refine ⟨h1, ?_⟩
      intro e he
      by_cases hee : e = st.eNext
      · subst hee
        rw [Function.update_same st.eNext i st.ei]
        exact fun hcon => hji hcon.symm
      · rw [Function.update_noteq hee]
        exact h2 e (by omega)
    · right
      refine ⟨e1n, p1, by omega, ?_, ?_, ?_⟩
      · rw [Function.update_noteq (Nat.ne_of_lt p2)]
        exact p3
      · rw [Function.update_noteq (Nat.ne_of_lt p2)]
        exact p4
      · intro e2 h1 h2
        by_cases hee : e2 = st.eNext
        · subst hee
          rw [Function.update_same st.eNext i st.ei]
          exact fun hcon => hji hcon.symm
        · rw [Function.update_noteq hee]
          exact p5 e2 h1 (by omega)

/-- The reach of the created component becomes the end of sub-slab
`s`. -/
theorem create_e_reach_self (C : Ctx) (A : R) (st : Slab) (i s : ℕ)
    (a b : R) : reach A (create_e C st i s a b) i = st.sb s := by
  unfold reach
  rw [create_e_elast, Function.update_same i (Int.ofNat st.eNext) st.elast]
  rw [if_neg (by rw [Int.ofNat_eq_natCast]; omega)]
  rw [create_e_sb, create_e_es]
  rw [toNatOfNat]
  rw [Function.update_same st.eNext s st.es]

/-- The reach of every other component is untouched by `create_e`. -/
theorem create_e_reach_other (C : Ctx) (A : R) (st : Slab) (i s : ℕ)
    (a b : R) (j : ℕ) (hj : j ≠ i) (hjN : j < C.ode.N) (hL : InvL C st) :
    reach A (create_e C st i s a b) j = reach A st j := by
  unfold reach
  rw [create_e_elast, Function.update_noteq hj]
  by_cases h1 : st.elast j = -1
  · rw [if_pos h1, if_pos h1]
  · rw [if_neg h1, if_neg h1, create_e_sb, create_e_es]
    rcases hL j hjN with ⟨h2, -⟩ | ⟨e1n, p1, p2, -⟩
    · exact absurd h2 h1
    · rw [p1, toNatOfNat, Function.update_noteq (Nat.ne_of_lt p2)]

/-- `create_e` preserves the element invariants: the fresh element gets
its component and sub-slab indices in range, a predecessor that is the
component's previous element (with exact time contiguity, supplied by
the `hre` hypothesis), and `-1` exactly when the component had no
element. -/
theorem create_e_InvE (C : Ctx) (st : Slab) (i s : ℕ) (a b : R)
    (hiN : i < C.ode.N) (hs : s < st.sNext)
    (hre : st.elast i ≠ -1 → st.sb (st.es (st.elast i).toNat) = st.sa s)
    (hL : InvL C st) (hE : InvE C st) :
    InvE C (create_e C st i s a b) := by
  intro e he
  rw [create_e_eNext] at he
  simp only [create_e_ei, create_e_es, create_e_ee, create_e_sNext,
    create_e_sa, create_e_sb]
  by_cases hee : e = st.eNext
  · subst hee
    rw [Function.update_same st.eNext i st.ei,
      Function.update_same st.eNext s st.es,
      Function.update_same st.eNext (st.elast i) st.ee]
    rcases hL i hiN with ⟨h1, h2⟩ | ⟨e1n, p1, p2, p3, p4, p5⟩
    · rw [h1]
      refine ⟨hiN, hs, Or.inl rfl, fun hcon => absurd rfl hcon, ?_⟩
      constructor
      · intro _ e2 he2
        rw [Function.update_noteq (Nat.ne_of_lt he2)]
        exact h2 e2 he2
      · intro _
        rfl
    · rw [p1]
      have hne1 : Int.ofNat e1n ≠ -1 := by
        rw [Int.ofNat_eq_natCast]; omega
      refine ⟨hiN, hs, ?_, ?_, ?_⟩
      · right
        constructor
        · rw [Int.ofNat_eq_natCast]; omega
        · rw [Int.ofNat_eq_natCast]
          exact_mod_cast p2
      · intro _
        rw [toNatOfNat, Function.update_noteq (Nat.ne_of_lt p2) i st.ei,
          Function.update_noteq (Nat.ne_of_lt p2) s st.es]
        refine ⟨p3, ?_⟩
        have := hre (by rw [p1]; exact hne1)
        rw [p1, toNatOfNat] at this
        exact this
      · constructor
        · intro hcon
          exact absurd hcon hne1
        · intro hall
          exfalso
          have := hall e1n p2
          rw [Function.update_noteq (Nat.ne_of_lt p2)] at this
          exact this p3
  · have he2 : e < st.eNext := by omega
    rw [Function.update_noteq hee, Function.update_noteq hee,
      Function.update_noteq hee]
    obtain ⟨q1, q2, q3, q4, q5⟩ := hE e he2
    refine ⟨q1, q2, q3, ?_, ?_⟩
    · intro hne
      obtain ⟨r1, r2⟩ := q4 hne
      have htn : (st.ee e).toNat < e := by
        rcases q3 with h | ⟨h1, h2⟩
        · exact absurd h hne
        · omega
      rw [Function.update_noteq (Nat.ne_of_lt (by omega : (st.ee e).toNat < st.eNext)),
        Function.update_noteq (Nat.ne_of_lt (by omega : (st.ee e).toNat < st.eNext))]
      exact ⟨r1, r2⟩
    · constructor
      · intro h1 e2 he2e
        rw [Function.update_noteq (Nat.ne_of_lt (by omega : e2 < st.eNext))]
        exact q5.mp h1 e2 he2e
      · intro hall
        apply q5.mpr
        intro e2 he2e
        have := hall e2 he2e
        rw [Function.update_noteq (Nat.ne_of_lt (by omega : e2 < st.eNext))] at this
        exact this

/-- The scratch-time loop of the dry run: only `u` changes; components
hit by the list are set to `b2`, the others keep their value. -/
theorem uFold_spec (C : Ctx) (b2 : R) :
    ∀ (l : List ℕ) (st : Slab),
      l.foldl (uStep C b2) st = { st with u := (l.foldl (uStep C b2) st).u } ∧
      (∀ i, (∀ n ∈ l, C.part.index n ≠ i) →
        (l.foldl (uStep C b2) st).u i = st.u i) ∧
      (∀ i, ((∃ n ∈ l, C.part.index n = i) ∨ st.u i = b2) →
        (l.foldl (uStep C b2) st).u i = b2) := by
  intro l
  induction l with
  | nil =>
    intro st
    refine ⟨rfl, fun i _ => rfl, fun i h => ?_⟩
    rcases h with ⟨n, hn, _⟩ | h
    · exact absurd hn (List.not_mem_nil n)
    · exact h
  | cons n l ih =>
    intro st
    rw [List.foldl_cons]
    obtain ⟨ih1, ih2, ih3⟩ := ih (uStep C b2 st n)
    refine ⟨ih1.trans rfl, ?_, ?_⟩
    · intro i hi
      rw [ih2 i (fun m hm => hi m (List.mem_cons_of_mem n hm))]
      show Function.update st.u (C.part.index n) b2 i = st.u i
      exact Function.update_noteq (Ne.symm (hi n (List.mem_cons_self n l))) b2 st.u
    · intro i hi
      rcases hi with ⟨m, hm, hmi⟩ | hi
      · rcases List.mem_cons.mp hm with hm | hm
        · subst hm
          apply ih3
          right
          show Function.update st.u (C.part.index m) b2 i = b2
          rw [← hmi]
          exact Function.update_same (C.part.index m) b2 st.u
        · exact ih3 i (Or.inl ⟨m, hm, hmi⟩)
      · apply ih3
        right
        show Function.update st.u (C.part.index n) b2 i = b2
        by_cases hni : i = C.part.index n
        · subst hni
          exact Function.update_same (C.part.index n) b2 st.u
        · rw [Function.update_noteq hni b2 st.u]
          exact hi

/-- The element-creation loop of `create_s` over the head positions: the
effect on counters, the untouched arrays, the preserved prefix of the
element arrays, the reach of head and non-head components, and the
preservation of the `elast` and element invariants. -/
theorem headFold_spec (C : Ctx) (A : R) (S : Sane C) (pos : ℕ) (a0 b0 : R) :
    ∀ (l : List ℕ) (st : Slab),
      l.Nodup → (∀ n ∈ l, n < C.part.size) →
      pos < st.sNext → st.sb pos = b0 →
      InvL C st →
      (l.foldl (headStep C pos a0 b0) st).eNext = st.eNext + l.length ∧
      (l.foldl (headStep C pos a0 b0) st).jNext =
        st.jNext + C.method.nsize * l.length ∧
      (l.foldl (headStep C pos a0 b0) st).sNext = st.sNext ∧
      (l.foldl (headStep C pos a0 b0) st).dNext = st.dNext ∧
      (l.foldl (headStep C pos a0 b0) st).sa = st.sa ∧
      (l.foldl (headStep C pos a0 b0) st).sb = st.sb ∧
      (l.foldl (headStep C pos a0 b0) st).ed = st.ed ∧
      (l.foldl (headStep C pos a0 b0) st).ns = st.ns ∧
      (l.foldl (headStep C pos a0 b0) st).ne = st.ne ∧
      (l.foldl (headStep C pos a0 b0) st).nj = st.nj ∧
      (l.foldl (headStep C pos a0 b0) st).nd = st.nd ∧
      (l.foldl (headStep C pos a0 b0) st).u = st.u ∧
      (l.foldl (headStep C pos a0 b0) st).u0 = st.u0 ∧
      (l.foldl (headStep C pos a0 b0) st).ok = st.ok ∧
      (∀ e, e < st.eNext →
        (l.foldl (headStep C pos a0 b0) st).ei e = st.ei e ∧
        (l.foldl (headStep C pos a0 b0) st).es e = st.es e ∧
        (l.foldl (headStep C pos a0 b0) st).ee e = st.ee e) ∧
      (∀ i, (∀ n ∈ l, C.part.index n ≠ i) →
        (l.foldl (headStep C pos a0 b0) st).elast i = st.elast i) ∧
      (∀ i, i < C.ode.N → (∀ n ∈ l, C.part.index n ≠ i) →
        reach A (l.foldl (headStep C pos a0 b0) st) i = reach A st i) ∧
      (∀ i, i < C.ode.N →
        ((∃ n ∈ l, C.part.index n = i) ∨ reach A st i = b0) →
        reach A (l.foldl (headStep C pos a0 b0) st) i = b0) ∧
      InvL C (l.foldl (headStep C pos a0 b0) st) ∧
      ((st.sa pos = a0 ∧ (∀ n ∈ l, reach A st (C.part.index n) = a0) ∧
          InvE C st) →
        InvE C (l.foldl (headStep C pos a0 b0) st)) := by
  intro l
  induction l with
  | nil =>
    intro st _ _ _ _ hL
    refine ⟨by simp, by simp, rfl, rfl, rfl, rfl, rfl, rfl, rfl, rfl, rfl,
      rfl, rfl, rfl, fun e _ => ⟨rfl, rfl, rfl⟩, fun i _ => rfl,
      fun i _ _ => rfl, ?_, hL, fun h => h.2.2⟩
    intro i _ hi
    rcases hi with ⟨n, hn, _⟩ | hi
    · exact absurd hn (List.not_mem_nil n)
    · exact hi
  | cons n l ih =>
    intro st hnd hsz hpos hsb hL
    rw [List.foldl_cons]
    have hnN : C.part.index n < C.ode.N :=
      S.hidx n (hsz n (List.mem_cons_self n l))
    have hstep : headStep C pos a0 b0 st n =
        create_e C st (C.part.index n) pos a0 b0 := rfl
    have hL1 : InvL C (headStep C pos a0 b0 st n) := by
      rw [hstep]
      exact create_e_InvL C st (C.part.index n) pos a0 b0 hnN hpos hL
    have hdistinct : ∀ m ∈ l, C.part.index m ≠ C.part.index n := by
      intro m hm hcon
      have := S.hinj m n (hsz m (List.mem_cons_of_mem n hm))
        (hsz n (List.mem_cons_self n l)) hcon
      subst this
      exact (List.nodup_cons.mp hnd).1 hm
    obtain ⟨g1, g2, g3, g4, g5, g6, g7, g8, g9, g10, g11, g12, g13, g14,
      g15, g16, g17, g18, g19, g20⟩ :=
      ih (headStep C pos a0 b0 st n) (List.nodup_cons.mp hnd).2
        (fun m hm => hsz m (List.mem_cons_of_mem n hm))
        (by rw [hstep, create_e_sNext]; exact hpos)
        (by rw [hstep, create_e_sb]; exact hsb)
        hL1
    have hsN : (headStep C pos a0 b0 st n).eNext = st.eNext + 1 := by
      rw [hstep, create_e_eNext]
    refine ⟨?_, ?_, ?_, ?_, ?_, ?_, ?_, ?_, ?_, ?_, ?_, ?_, ?_, ?_,
      ?_, ?_, ?_, ?_, ?_, ?_⟩
    · rw [g1, hsN, List.length_cons]; omega
    · rw [g2, hstep, create_e_jNext, List.length_cons]; ring
    · rw [g3, hstep, create_e_sNext]
    · rw [g4, hstep, create_e_dNext]
    · rw [g5, hstep, create_e_sa]
    · rw [g6, hstep, create_e_sb]
    · rw [g7, hstep, create_e_ed]
    · rw [g8, hstep, create_e_ns]
    · rw [g9, hstep, create_e_ne]
    · rw [g10, hstep, create_e_nj]
    · rw [g11, hstep, create_e_nd]
    · rw [g12, hstep, create_e_u]
    · rw [g13, hstep, create_e_u0]
    · rw [g14, hstep, create_e_ok]
    · intro e he
      obtain ⟨k1, k2, k3⟩ := g15 e (by omega)
      rw [k1, k2, k3, hstep, create_e_ei, create_e_es, create_e_ee,
        Function.update_noteq (Nat.ne_of_lt he),
        Function.update_noteq (Nat.ne_of_lt he),
        Function.update_noteq (Nat.ne_of_lt he)]
      exact ⟨rfl, rfl, rfl⟩
    · intro i hi
      rw [g16 i (fun m hm => hi m (List.mem_cons_of_mem n hm)), hstep,
        create_e_elast,
        Function.update_noteq (Ne.symm (hi n (List.mem_cons_self n l)))]
    · intro i hiN hi
      rw [g17 i hiN (fun m hm => hi m (List.mem_cons_of_mem n hm)), hstep]
      exact create_e_reach_other C A st (C.part.index n) pos a0 b0 i
        (Ne.symm (hi n (List.mem_cons_self n l))) hiN hL
    · intro i hiN hi
      rcases hi with ⟨m, hm, hmi⟩ | hi
      · rcases List.mem_cons.mp hm with hm | hm
        · subst hm
          apply g18 i hiN
          right
          rw [← hmi, hstep, create_e_reach_self]
          exact hsb
        · exact g18 i hiN (Or.inl ⟨m, hm, hmi⟩)
      · apply g18 i hiN
        right
        by_cases hin : i = C.part.index n
        · subst hin
          rw [hstep, create_e_reach_self]
          exact hsb
        · rw [hstep, create_e_reach_other C A st (C.part.index n) pos a0 b0 i
            hin hiN hL]
          exact hi
    · exact g19
    · intro ⟨hsa, hreach, hE⟩
      apply g20
      refine ⟨by rw [hstep, create_e_sa]; exact hsa, ?_, ?_⟩
      · intro m hm
        rw [hstep, create_e_reach_other C A st (C.part.index n) pos a0 b0
          (C.part.index m) (hdistinct m hm)
          (S.hidx m (hsz m (List.mem_cons_of_mem n hm))) hL]
        exact hreach m (List.mem_cons_of_mem n hm)
      · rw [hstep]
        apply create_e_InvE C st (C.part.index n) pos a0 b0 hnN hpos ?_ hL hE
        intro hne
        have := hreach n (List.mem_cons_self n l)
        unfold reach at this
        rw [if_neg hne] at this
        rw [this, hsa]

/-- The dry-run dependency loop: only `nd` changes, by the sum of the
dry counts taken in the initial state. -/
theorem ndFold_spec (C : Ctx) :
    ∀ (l : List ℕ) (st : Slab),
      l.foldl (ndStep C) st = { st with nd := (l.foldl (ndStep C) st).nd } ∧
      (l.foldl (ndStep C) st).nd =
        st.nd + (l.map (fun n => countDepDry C st (C.part.index n))).sum := by
  intro l
  induction l with
  | nil => intro st; exact ⟨rfl, by simp⟩
  | cons n l ih =>
    intro st
    rw [List.foldl_cons]
    obtain ⟨ih1, ih2⟩ := ih (ndStep C st n)
    refine ⟨ih1.trans rfl, ?_⟩
    rw [ih2]
    have hcongr : ∀ m : ℕ,
        countDepDry C (ndStep C st n) (C.part.index m) =
          countDepDry C st (C.part.index m) :=
      fun m => countDepDry_congr C _ st _ rfl
    have hmap : l.map (fun m => countDepDry C (ndStep C st n) (C.part.index m)) =
        l.map (fun m => countDepDry C st (C.part.index m)) :=
      List.map_congr_left (fun m _ => hcongr m)
    rw [hmap]
    show st.nd + countDepDry C st (C.part.index n) + _ = _
    rw [List.map_cons, List.sum_cons]
    ring

/-- The second loop of `create_s`: `dNext` grows by the sum of the
creation-time counts taken in the initial state, and the element,
sub-slab and scratch data are untouched. -/
theorem edFold_spec (C : Ctx) (b0 : R) :
    ∀ (l : List ℕ) (st : Slab),
      (l.foldl (edLoopStep C b0) st).dNext =
        st.dNext + (l.map (fun n => countDepCreate C st (C.part.index n) b0)).sum ∧
      (l.foldl (edLoopStep C b0) st).eNext = st.eNext ∧
      (l.foldl (edLoopStep C b0) st).jNext = st.jNext ∧
      (l.foldl (edLoopStep C b0) st).sNext = st.sNext ∧
      (l.foldl (edLoopStep C b0) st).sa = st.sa ∧
      (l.foldl (edLoopStep C b0) st).sb = st.sb ∧
      (l.foldl (edLoopStep C b0) st).ei = st.ei ∧
      (l.foldl (edLoopStep C b0) st).es = st.es ∧
      (l.foldl (edLoopStep C b0) st).ee = st.ee ∧
      (l.foldl (edLoopStep C b0) st).elast = st.elast ∧
      (l.foldl (edLoopStep C b0) st).ns = st.ns ∧
      (l.foldl (edLoopStep C b0) st).ne = st.ne ∧
      (l.foldl (edLoopStep C b0) st).nj = st.nj ∧
      (l.foldl (edLoopStep C b0) st).nd = st.nd ∧
      (l.foldl (edLoopStep C b0) st).u = st.u ∧
      (l.foldl (edLoopStep C b0) st).u0 = st.u0 ∧
      (l.foldl (edLoopStep C b0) st).ok = st.ok := by
  intro l
  induction l with
  | nil =>
    intro st
    exact ⟨by simp, rfl, rfl, rfl, rfl, rfl, rfl, rfl, rfl, rfl, rfl, rfl,
      rfl, rfl, rfl, rfl, rfl⟩
  | cons n l ih =>
    intro st
    rw [List.foldl_cons]
    obtain ⟨f1, f2, f3, f4, f5, f6, f7, f8, f9, f10, f11, f12, f13, f14, f15,
      f16, f17⟩ := edLoopStep_fields C b0 st n
    obtain ⟨g1, g2, g3, g4, g5, g6, g7, g8, g9, g10, g11, g12, g13, g14, g15,
      g16, g17⟩ := ih (edLoopStep C b0 st n)
    have hcongr : ∀ m : ℕ,
        countDepCreate C (edLoopStep C b0 st n) (C.part.index m) b0 =
          countDepCreate C st (C.part.index m) b0 :=
      fun m => countDepCreate_congr C _ st _ b0 f10 f8 f6
    refine ⟨?_, g2.trans f2, g3.trans f3, g4.trans f4, g5.trans f5,
      g6.trans f6, g7.trans f7, g8.trans f8, g9.trans f9, g10.trans f10,
      g11.trans f11, g12.trans f12, g13.trans f13, g14.trans f14,
      g15.trans f15, g16.trans f16, g17.trans f17⟩
    rw [g1, List.map_congr_left (fun m _ => hcongr m), f1, List.map_cons,
      List.sum_cons]
    ring

/-- `reach` only depends on `elast`, `es` and `sb`. -/
theorem reach_congr (A : R) (st st2 : Slab) (i : ℕ)
    (h1 : st2.elast = st.elast) (h2 : st2.es = st.es) (h3 : st2.sb = st.sb) :
    reach A st2 i = reach A st i := by
  unfold reach
  rw [h1, h2, h3]

/-- `InvL` only depends on `elast`, `eNext`, `ei`, `es` and `sNext`. -/
theorem InvL_congr (C : Ctx) (st st2 : Slab)
    (h1 : st2.elast = st.elast) (h2 : st2.eNext = st.eNext)
    (h3 : st2.ei = st.ei) (h4 : st2.es = st.es) (h5 : st2.sNext = st.sNext)
    (h : InvL C st) : InvL C st2 := by
  unfold InvL at h ⊢
  rw [h1, h2, h3, h4, h5]
  exact h

/-- `InvE` only depends on `eNext`, `ei`, `es`, `ee`, `sNext`, `sa` and
`sb`. -/
theorem InvE_congr (C : Ctx) (st st2 : Slab)
    (h1 : st2.eNext = st.eNext) (h2 : st2.ei = st.ei) (h3 : st2.es = st.es)
    (h4 : st2.ee = st.ee) (h5 : st2.sNext = st.sNext) (h6 : st2.sa = st.sa)
    (h7 : st2.sb = st.sb) (h : InvE C st) : InvE C st2 := by
  unfold InvE at h ⊢
  rw [h1, h2, h3, h4, h5, h6, h7]
  exact h

/-- Appending a fresh sub-slab does not change any component's reach. -/
theorem append_reach (C : Ctx) (A : R) (st : Slab) (a0 b0 : R) (i : ℕ)
    (hiN : i < C.ode.N) (hL : InvL C st) :
    reach A
      { st with
        sNext := st.sNext + 1,
        sa := Function.update st.sa st.sNext a0,
        sb := Function.update st.sb st.sNext b0 } i = reach A st i := by
  unfold reach
  by_cases h1 : st.elast i = -1
  · rw [if_pos h1, if_pos h1]
  · rw [if_neg h1, if_neg h1]
    rcases hL i hiN with ⟨h2, -⟩ | ⟨e1n, p1, p2, p3, p4, -⟩
    · exact absurd h2 h1
    · show Function.update st.sb st.sNext b0 (st.es (st.elast i).toNat) = _
      rw [p1, toNatOfNat, Function.update_noteq (Nat.ne_of_lt p4)]

/-- Appending a fresh sub-slab preserves `InvL`. -/
theorem append_InvL (C : Ctx) (st : Slab) (a0 b0 : R) (hL : InvL C st) :
    InvL C
      { st with
        sNext := st.sNext + 1,
        sa := Function.update st.sa st.sNext a0,
        sb := Function.update st.sb st.sNext b0 } := by
  intro j hj
  dsimp only at hj ⊢
  rcases hL j hj with h | ⟨e1n, p1, p2, p3, p4, p5⟩
  · exact Or.inl h
  · exact Or.inr ⟨e1n, p1, p2, p3, by omega, p5⟩

/-- Appending a fresh sub-slab preserves `InvE`. -/
theorem append_InvE (C : Ctx) (st : Slab) (a0 b0 : R) (hE : InvE C st) :
    InvE C
      { st with
        sNext := st.sNext + 1,
        sa := Function.update st.sa st.sNext a0,
        sb := Function.update st.sb st.sNext b0 } := by
  intro e he
  dsimp only at he ⊢
  obtain ⟨q1, q2, q3, q4, q5⟩ := hE e he
  refine ⟨q1, by omega, q3, ?_, q5⟩
  intro hne
  obtain ⟨r1, r2⟩ := q4 hne
  have htn : (st.ee e).toNat < e := by
    rcases q3 with h | ⟨hh1, hh2⟩
    · exact absurd h hne
    · omega
  have hlt1 : st.es (st.ee e).toNat < st.sNext := (hE _ (by omega)).2.1
  rw [Function.update_noteq (Nat.ne_of_lt hlt1),
    Function.update_noteq (Nat.ne_of_lt q2)]
  exact ⟨r1, r2⟩

/-- Unfolding of `create_s` into the slab append and the two loops. -/
theorem create_s_eq (C : Ctx) (st : Slab) (a0 b0 : R) (offset endp : ℕ) :
    create_s C st a0 b0 offset endp =
      (List.range' offset (endp - offset)).foldl (edLoopStep C b0)
        ((List.range' offset (endp - offset)).foldl (headStep C st.sNext a0 b0)
          { st with
            sNext := st.sNext + 1,
            sa := Function.update st.sa st.sNext a0,
            sb := Function.update st.sb st.sNext b0 }) := rfl

/-- One-step unfolding of `computeDataSize` at positive fuel. -/
theorem computeDataSize_succ (C : Ctx) (f : ℕ) (st : Slab) (a b : R)
    (offset : ℕ) :
    computeDataSize C (f + 1) st a b offset =
      ((computeEndTime C st a b offset).1,
        (cdsLoop C f
          ((List.range' offset ((computeEndTime C st a b offset).2.1 - offset)).foldl
            (ndStep C)
            { (List.range' offset
                  ((computeEndTime C st a b offset).2.1 - offset)).foldl
                (uStep C (computeEndTime C st a b offset).1)
                (computeEndTime C st a b offset).2.2 with
              ns := ((List.range' offset
                  ((computeEndTime C st a b offset).2.1 - offset)).foldl
                (uStep C (computeEndTime C st a b offset).1)
                (computeEndTime C st a b offset).2.2).ns + 1,
              ne := ((List.range' offset
                  ((computeEndTime C st a b offset).2.1 - offset)).foldl
                (uStep C (computeEndTime C st a b offset).1)
                (computeEndTime C st a b offset).2.2).ne +
                ((computeEndTime C st a b offset).2.1 - offset),
              nj := ((List.range' offset
                  ((computeEndTime C st a b offset).2.1 - offset)).foldl
                (uStep C (computeEndTime C st a b offset).1)
                (computeEndTime C st a b offset).2.2).nj +
                C.method.nsize * ((computeEndTime C st a b offset).2.1 - offset) })
          a (computeEndTime C st a b offset).1
          (computeEndTime C st a b offset).2.1).2) := rfl

/-- One-step unfolding of `createTimeSlab` at positive fuel. -/
theorem createTimeSlab_succ (C : Ctx) (f : ℕ) (st : Slab) (a b : R)
    (offset : ℕ) :
    createTimeSlab C (f + 1) st a b offset =
      ((computeEndTime C st a b offset).1,
        (ctsLoop C f
          (create_s C (computeEndTime C st a b offset).2.2 a
            (computeEndTime C st a b offset).1 offset
            (computeEndTime C st a b offset).2.1)
          a (computeEndTime C st a b offset).1
          (computeEndTime C st a b offset).2.1).2) := rfl

/-- Unfolding of `cdsLoop` at positive fuel. -/
theorem cdsLoop_succ (C : Ctx) (f : ℕ) (st : Slab) (t b : R) (endp : ℕ) :
    cdsLoop C (f + 1) st t b endp =
      if t < b ∧ endp < C.part.size then
        cdsLoop C f (computeDataSize C f st t b endp).2
          (computeDataSize C f st t b endp).1 b endp
      else (t, st) := rfl

/-- Unfolding of `ctsLoop` at positive fuel. -/
theorem ctsLoop_succ (C : Ctx) (f : ℕ) (st : Slab) (t b : R) (endp : ℕ) :
    ctsLoop C (f + 1) st t b endp =
      if t < b ∧ endp < C.part.size then
        ctsLoop C f (createTimeSlab C f st t b endp).2
          (createTimeSlab C f st t b endp).1 b endp
      else (t, st) := rfl

/-- `computeDataSize` at zero fuel truncates, clearing `ok`. -/
theorem computeDataSize_zero (C : Ctx) (st : Slab) (a b : R) (offset : ℕ) :
    computeDataSize C 0 st a b offset = (b, { st with ok := false }) := rfl

/-- `createTimeSlab` at zero fuel truncates, clearing `ok`. -/
theorem createTimeSlab_zero (C : Ctx) (st : Slab) (a b : R) (offset : ℕ) :
    createTimeSlab C 0 st a b offset = (b, { st with ok := false }) := rfl

/-- `cdsLoop` at zero fuel truncates if it would iterate. -/
theorem cdsLoop_zero (C : Ctx) (st : Slab) (t b : R) (endp : ℕ) :
    cdsLoop C 0 st t b endp =
      if t < b ∧ endp < C.part.size then (t, { st with ok := false })
      else (t, st) := rfl

/-- `ctsLoop` at zero fuel truncates if it would iterate. -/
theorem ctsLoop_zero (C : Ctx) (st : Slab) (t b : R) (endp : ℕ) :
    ctsLoop C 0 st t b endp =
      if t < b ∧ endp < C.part.size then (t, { st with ok := false })
      else (t, st) := rfl

/-- Arithmetic facts about the adjusted sub-slab end time computed by
`computeEndTime` under the collaborator assumptions. -/
theorem endTime_facts (C : Ctx) (S : Sane C) (A a b b2 : R) (offset : ℕ)
    (h1 : A ≤ a) (h2 : A + C.eps < b) (h3 : a < b)
    (h4 : C.eps < b - a ∨ A + C.eps < a)
    (hb2 : b2 = if (C.part.update offset (min C.adapt.kmax (b - a))).1 <
        C.adapt.threshold * (b - a) then
        a + (C.part.update offset (min C.adapt.kmax (b - a))).1 else b) :
    a < b2 ∧ b2 ≤ b ∧ A + C.eps < b2 ∧ (C.eps < b2 - a ∨ A + C.eps < a) := by
  have hK : 0 < min C.adapt.kmax (b - a) :=
    lt_min (by linarith [S.eps0, S.kmx]) (by linarith)
  have hKp : 0 < (C.part.update offset (min C.adapt.kmax (b - a))).1 :=
    S.kpos offset _ hK
  have hKple : (C.part.update offset (min C.adapt.kmax (b - a))).1 ≤
      min C.adapt.kmax (b - a) := S.kle offset _
  have hKba : min C.adapt.kmax (b - a) ≤ b - a := min_le_right _ _
  by_cases hsh : (C.part.update offset (min C.adapt.kmax (b - a))).1 <
      C.adapt.threshold * (b - a)
  · rw [if_pos hsh] at hb2
    rcases h4 with h4 | h4
    · have hKe : C.eps < min C.adapt.kmax (b - a) := lt_min S.kmx (by linarith)
      have hKpe : C.eps < (C.part.update offset (min C.adapt.kmax (b - a))).1 :=
        S.keps offset _ hKe
      exact ⟨by linarith, by linarith, by linarith, Or.inl (by linarith)⟩
    · exact ⟨by linarith, by linarith, by linarith, Or.inr h4⟩
  · rw [if_neg hsh] at hb2
    exact ⟨by linarith, by linarith, by linarith,
      by rcases h4 with h4 | h4; exact Or.inl (by linarith); exact Or.inr h4⟩

/-- The dry-run and creation-time dependency counts of a head component
agree, given the coupling of scratch times with reached times and that
the sub-slab end lies more than epsilon past the slab start. -/
theorem countDep_match (C : Ctx) (A : R) (std stc : Slab) (i0 : ℕ) (b2 : R)
    (heps : 0 ≤ C.eps) (hb : A + C.eps < b2)
    (hu0 : std.u i0 = b2)
    (hc : ∀ i1 ∈ C.ode.deps i0, std.u i1 = reach A stc i1) :
    countDepDry C std i0 = countDepCreate C stc i0 b2 := by
  unfold countDepDry countDepCreate
  apply List.foldl_ext
  intro acc i1 hi1
  have hcc := hc i1 hi1
  by_cases h1 : stc.elast i1 = -1
  · rw [if_pos h1]
    have hA : std.u i1 = A := by rw [hcc]; unfold reach; rw [if_pos h1]
    rw [hA, hu0, if_pos (by linarith)]
  · rw [if_neg h1]
    have hr : std.u i1 = stc.sb (stc.es (stc.elast i1).toNat) := by
      rw [hcc]; unfold reach; rw [if_neg h1]
    rw [hr, hu0]
    by_cases h2 : stc.sb (stc.es (stc.elast i1).toNat) < b2 - C.eps
    · rw [if_pos h2, if_pos (by linarith)]
    · rw [if_neg h2, if_neg (by intro hcon; exact h2 (by linarith))]

/-! ### The lockstep simulation between dry run and creation -/

/-- `computeDataSize` at positive fuel, via `dryPhase`. -/
theorem computeDataSize_succ2 (C : Ctx) (f : ℕ) (st : Slab) (a b : R)
    (offset : ℕ) :
    computeDataSize C (f + 1) st a b offset =
      ((computeEndTime C st a b offset).1,
        (cdsLoop C f
          (dryPhase C (computeEndTime C st a b offset).1 offset
            (computeEndTime C st a b offset).2.1
            (computeEndTime C st a b offset).2.2)
          a (computeEndTime C st a b offset).1
          (computeEndTime C st a b offset).2.1).2) := rfl

/-- The end time and head range of `computeEndTime` do not depend on the
state. -/
theorem computeEndTime_state_free (C : Ctx) (st st2 : Slab) (a b : R)
    (offset : ℕ) :
    (computeEndTime C st a b offset).1 = (computeEndTime C st2 a b offset).1 ∧
    (computeEndTime C st a b offset).2.1 =
      (computeEndTime C st2 a b offset).2.1 := ⟨rfl, rfl⟩

/-- `computeEndTime` only updates `kmin`. -/
theorem computeEndTime_state (C : Ctx) (st : Slab) (a b : R) (offset : ℕ) :
    (computeEndTime C st a b offset).2.2 =
      { st with kmin := min st.kmin ((computeEndTime C st a b offset).1 - a) } :=
  rfl

/-- The head phase of the dry run simulates `create_s`: the coupling is
re-established with the head components advanced to `b2`, the
invariants are preserved, untouched data is untouched, and under the
entry conditions the element invariants and the reach of the remaining
tail components carry over. -/
theorem phase_spec (C : Ctx) (A : R) (S : Sane C) (a b2 : R)
    (offset endp : ℕ) (std stc : Slab)
    (hCpl : Cpl C A std stc) (hL : InvL C stc)
    (hb2A : A + C.eps < b2)
    (hendp : endp ≤ C.part.size) (hooe : offset ≤ endp) :
    Cpl C A (dryPhase C b2 offset endp std) (create_s C stc a b2 offset endp) ∧
    InvL C (create_s C stc a b2 offset endp) ∧
    (create_s C stc a b2 offset endp).ok = stc.ok ∧
    (create_s C stc a b2 offset endp).ns = stc.ns ∧
    (create_s C stc a b2 offset endp).ne = stc.ne ∧
    (create_s C stc a b2 offset endp).nj = stc.nj ∧
    (create_s C stc a b2 offset endp).nd = stc.nd ∧
    stc.sNext ≤ (create_s C stc a b2 offset endp).sNext ∧
    stc.eNext ≤ (create_s C stc a b2 offset endp).eNext ∧
    (∀ s, s < stc.sNext →
      (create_s C stc a b2 offset endp).sa s = stc.sa s ∧
      (create_s C stc a b2 offset endp).sb s = stc.sb s) ∧
    (∀ e, e < stc.eNext →
      (create_s C stc a b2 offset endp).ei e = stc.ei e ∧
      (create_s C stc a b2 offset endp).es e = stc.es e ∧
      (create_s C stc a b2 offset endp).ee e = stc.ee e) ∧
    (∀ i, i < C.ode.N →
      (∀ n, offset ≤ n → n < C.part.size → C.part.index n ≠ i) →
      (create_s C stc a b2 offset endp).elast i = stc.elast i ∧
      reach A (create_s C stc a b2 offset endp) i = reach A stc i) ∧
    (∀ n, offset ≤ n → n < endp →
      reach A (create_s C stc a b2 offset endp) (C.part.index n) = b2) ∧
    ((InvE C stc ∧ ReachAt C A a stc offset) →
      InvE C (create_s C stc a b2 offset endp) ∧
      ReachAt C A a (create_s C stc a b2 offset endp) endp) := by
  have heps := S.eps0
  rw [create_s_eq]
  rw [show dryPhase C b2 offset endp std =
      (List.range' offset (endp - offset)).foldl (ndStep C)
        { (List.range' offset (endp - offset)).foldl (uStep C b2) std with
          ns := ((List.range' offset (endp - offset)).foldl (uStep C b2) std).ns + 1,
          ne := ((List.range' offset (endp - offset)).foldl (uStep C b2) std).ne +
            (endp - offset),
          nj := ((List.range' offset (endp - offset)).foldl (uStep C b2) std).nj +
            C.method.nsize * (endp - offset) } from rfl]
  have hmemL : ∀ n ∈ List.range' offset (endp - offset),
      offset ≤ n ∧ n < endp := by
    intro n hn
    rw [List.mem_range'_1] at hn
    omega
  have hmemL2 : ∀ n, offset ≤ n → n < endp →
      n ∈ List.range' offset (endp - offset) := by
    intro n h1 h2
    rw [List.mem_range'_1]
    omega
  have hszL : ∀ n ∈ List.range' offset (endp - offset), n < C.part.size := by
    intro n hn
    have := hmemL n hn
    omega
  have hidxL : ∀ n ∈ List.range' offset (endp - offset),
      C.part.index n < C.ode.N := by
    intro n hn
    exact S.hidx n (hszL n hn)
  obtain ⟨u1, u2, u3⟩ := uFold_spec C b2 (List.range' offset (endp - offset)) std
  have hLA : InvL C
      { stc with
        sNext := stc.sNext + 1,
        sa := Function.update stc.sa stc.sNext a,
        sb := Function.update stc.sb stc.sNext b2 } := append_InvL C stc a b2 hL
  obtain ⟨g1, g2, g3, g4, g5, g6, g7, g8, g9, g10, g11, g12, g13, g14, g15,
    g16, g17, g18, g19, g20⟩ :=
    headFold_spec C A S stc.sNext a b2 (List.range' offset (endp - offset))
      { stc with
        sNext := stc.sNext + 1,
        sa := Function.update stc.sa stc.sNext a,
        sb := Function.update stc.sb stc.sNext b2 }
      (List.nodup_range' offset (endp - offset)) hszL
      (Nat.lt_succ_self stc.sNext)
      (Function.update_same stc.sNext b2 stc.sb)
      hLA
  obtain ⟨d1, d2, d3, d4, d5, d6, d7, d8, d9, d10, d11, d12, d13, d14, d15,
    d16, d17⟩ :=
    edFold_spec C b2 (List.range' offset (endp - offset))
      ((List.range' offset (endp - offset)).foldl (headStep C stc.sNext a b2)
        { stc with
          sNext := stc.sNext + 1,
          sa := Function.update stc.sa stc.sNext a,
          sb := Function.update stc.sb stc.sNext b2 })
  obtain ⟨n1, n2⟩ := ndFold_spec C (List.range' offset (endp - offset))
    { (List.range' offset (endp - offset)).foldl (uStep C b2) std with
      ns := ((List.range' offset (endp - offset)).foldl (uStep C b2) std).ns + 1,
      ne := ((List.range' offset (endp - offset)).foldl (uStep C b2) std).ne +
        (endp - offset),
      nj := ((List.range' offset (endp - offset)).foldl (uStep C b2) std).nj +
        C.method.nsize * (endp - offset) }
  -- abbreviations via generalized names would hide defeq; keep terms explicit
  -- coupling of scratch times with reached times after the head phase
  have hcoup : ∀ i, i < C.ode.N →
      ((List.range' offset (endp - offset)).foldl (uStep C b2) std).u i =
      reach A ((List.range' offset (endp - offset)).foldl
        (headStep C stc.sNext a b2)
        { stc with
          sNext := stc.sNext + 1,
          sa := Function.update stc.sa stc.sNext a,
          sb := Function.update stc.sb stc.sNext b2 }) i := by
    intro i hiN
    by_cases hh : ∃ n ∈ List.range' offset (endp - offset), C.part.index n = i
    · rw [u3 i (Or.inl hh), g18 i hiN (Or.inl hh)]
    · push_neg at hh
      rw [u2 i hh, g17 i hiN hh, append_reach C A stc a b2 i hiN hL]
      exact hCpl.1 i hiN
  have hreachE : ∀ i, reach A ((List.range' offset (endp - offset)).foldl
      (edLoopStep C b2)
      ((List.range' offset (endp - offset)).foldl (headStep C stc.sNext a b2)
        { stc with
          sNext := stc.sNext + 1,
          sa := Function.update stc.sa stc.sNext a,
          sb := Function.update stc.sb stc.sNext b2 })) i =
      reach A ((List.range' offset (endp - offset)).foldl
        (headStep C stc.sNext a b2)
        { stc with
          sNext := stc.sNext + 1,
          sa := Function.update stc.sa stc.sNext a,
          sb := Function.update stc.sb stc.sNext b2 }) i := by
    intro i
    exact reach_congr A _ _ i d10 d8 d6
  refine ⟨?_, ?_, ?_, ?_, ?_, ?_, ?_, ?_, ?_, ?_, ?_, ?_, ?_, ?_⟩
  · -- coupling
    refine ⟨?_, ?_, ?_, ?_, ?_⟩
    · intro i hiN
      rw [congrArg Slab.u n1]
      show ((List.range' offset (endp - offset)).foldl (uStep C b2) std).u i = _
      rw [hreachE i]
      exact hcoup i hiN
    · -- ns / sNext
      rw [congrArg Slab.ns n1]
      show ((List.range' offset (endp - offset)).foldl (uStep C b2) std).ns + 1
        = _
      rw [congrArg Slab.ns u1]
      rw [d4, g3]
      show std.ns + 1 = stc.sNext + 1
      rw [hCpl.2.1]
    · -- ne / eNext
      rw [congrArg Slab.ne n1]
      show ((List.range' offset (endp - offset)).foldl (uStep C b2) std).ne +
        (endp - offset) = _
      rw [congrArg Slab.ne u1]
      rw [d2, g1, List.length_range']
      show std.ne + (endp - offset) = stc.eNext + (endp - offset)
      rw [hCpl.2.2.1]
    · -- nj / jNext
      rw [congrArg Slab.nj n1]
      show ((List.range' offset (endp - offset)).foldl (uStep C b2) std).nj +
        C.method.nsize * (endp - offset) = _
      rw [congrArg Slab.nj u1]
      rw [d3, g2, List.length_range']
      show std.nj + C.method.nsize * (endp - offset) =
        stc.jNext + C.method.nsize * (endp - offset)
      rw [hCpl.2.2.2.1]
    · -- nd / dNext
      rw [n2, d1, g4]
      show _ = stc.dNext + _
      have hns : ({ (List.range' offset (endp - offset)).foldl (uStep C b2) std with
          ns := ((List.range' offset (endp - offset)).foldl (uStep C b2) std).ns + 1,
          ne := ((List.range' offset (endp - offset)).foldl (uStep C b2) std).ne +
            (endp - offset),
          nj := ((List.range' offset (endp - offset)).foldl (uStep C b2) std).nj +
            C.method.nsize * (endp - offset) } : Slab).nd = std.nd := by
        show ((List.range' offset (endp - offset)).foldl (uStep C b2) std).nd = std.nd
        rw [congrArg Slab.nd u1]
      rw [hns, hCpl.2.2.2.2]
      congr 1
      apply congrArg
      apply List.map_congr_left
      intro n hn
      apply countDep_match C A _ _ (C.part.index n) b2 heps hb2A
      · show ((List.range' offset (endp - offset)).foldl (uStep C b2) std).u
          (C.part.index n) = b2
        exact u3 (C.part.index n) (Or.inl ⟨n, hn, rfl⟩)
      · intro i1 hi1
        have hi1N : i1 < C.ode.N := S.hdep _ (hidxL n hn) i1 hi1
        show ((List.range' offset (endp - offset)).foldl (uStep C b2) std).u i1 = _
        exact hcoup i1 hi1N
  · -- InvL
    exact InvL_congr C _ _ d10 d2 d7 d8 d4 g19
  · rw [d17, g14]
  · rw [d11, g8]
  · rw [d12, g9]
  · rw [d13, g10]
  · rw [d14, g11]
  · rw [d4, g3]
    show stc.sNext ≤ stc.sNext + 1
    omega
  · rw [d2, g1]
    show stc.eNext ≤ stc.eNext + _
    omega
  · intro s hs
    rw [congrFun d5 s, congrFun d6 s, congrFun g5 s, congrFun g6 s]
    show Function.update stc.sa stc.sNext a s = stc.sa s ∧
      Function.update stc.sb stc.sNext b2 s = stc.sb s
    rw [Function.update_noteq (Nat.ne_of_lt hs),
      Function.update_noteq (Nat.ne_of_lt hs)]
    exact ⟨rfl, rfl⟩
  · intro e he
    have he2 : e < ({ stc with
        sNext := stc.sNext + 1,
        sa := Function.update stc.sa stc.sNext a,
        sb := Function.update stc.sb stc.sNext b2 } : Slab).eNext := he
    obtain ⟨k1, k2, k3⟩ := g15 e he2
    rw [congrFun d7 e, congrFun d8 e, congrFun d9 e, k1, k2, k3]
    exact ⟨rfl, rfl, rfl⟩
  · intro i hiN hi
    have hi2 : ∀ n ∈ List.range' offset (endp - offset),
        C.part.index n ≠ i := by
      intro n hn
      have := hmemL n hn
      exact hi n this.1 (hszL n hn)
    constructor
    · rw [congrFun d10 i, g16 i hi2]
    · rw [hreachE i, g17 i hiN hi2, append_reach C A stc a b2 i hiN hL]
  · intro n h1 h2
    rw [hreachE (C.part.index n)]
    exact g18 (C.part.index n) (S.hidx n (by omega))
      (Or.inl ⟨n, hmemL2 n h1 h2, rfl⟩)
  · intro ⟨hE, hRa⟩
    have hEA : InvE C { stc with
        sNext := stc.sNext + 1,
        sa := Function.update stc.sa stc.sNext a,
        sb := Function.update stc.sb stc.sNext b2 } := append_InvE C stc a b2 hE
    have hreachA : ∀ n ∈ List.range' offset (endp - offset),
        reach A { stc with
          sNext := stc.sNext + 1,
          sa := Function.update stc.sa stc.sNext a,
          sb := Function.update stc.sb stc.sNext b2 } (C.part.index n) = a := by
      intro n hn
      rw [append_reach C A stc a b2 _ (hidxL n hn) hL]
      exact hRa n (hmemL n hn).1 (hszL n hn)
    have hEH := g20 ⟨Function.update_same stc.sNext a stc.sa, hreachA, hEA⟩
    constructor
    · exact InvE_congr C _ _ d2 d7 d8 d9 d4 d5 d6 hEH
    · intro m hm1 hm2
      have hm3 : ∀ n ∈ List.range' offset (endp - offset),
          C.part.index n ≠ C.part.index m := by
        intro n hn hcon
        have h5 := hmemL n hn
        have := S.hinj n m (hszL n hn) hm2 hcon
        omega
      rw [hreachE (C.part.index m), g17 (C.part.index m) (S.hidx m hm2) hm3,
        append_reach C A stc a b2 _ (S.hidx m hm2) hL]
      exact hRa m (by omega) hm2

/-- Node lockstep at zero fuel: both sides truncate identically. -/
theorem node_zero (C : Ctx) (A : R) : NodeP C A 0 := by
  intro a b offset std stc hCpl hL h1 h2 h3 h4 hoffp hok
  rw [computeDataSize_zero, createTimeSlab_zero]
  refine ⟨⟨rfl, hCpl, hL, ?_, rfl, rfl, rfl, rfl, le_refl _, le_refl _,
    fun s _ => ⟨rfl, rfl⟩, fun e _ => ⟨rfl, rfl, rfl⟩,
    fun i _ _ => ⟨rfl, rfl⟩, ?_⟩, h3, le_refl b, h2⟩
  · intro hcon
    exact absurd hcon (by simp)
  · intro hcon
    exact absurd hcon (by simp)

/-- Loop lockstep at zero fuel. -/
theorem loop_zero (C : Ctx) (A : R) : LoopP C A 0 := by
  intro t b endp std stc hCpl hL h1 h2 h3 h4 hok
  rw [cdsLoop_zero, ctsLoop_zero]
  by_cases hg : t < b ∧ endp < C.part.size
  · rw [if_pos hg, if_pos hg]
    refine ⟨⟨rfl, hCpl, hL, ?_, rfl, rfl, rfl, rfl, le_refl _, le_refl _,
      fun s _ => ⟨rfl, rfl⟩, fun e _ => ⟨rfl, rfl, rfl⟩,
      fun i _ _ => ⟨rfl, rfl⟩, ?_⟩, le_refl t, h2, ?_⟩
    · intro hcon
      exact absurd hcon (by simp)
    · intro hcon
      exact absurd hcon (by simp)
    · intro hcon
      exact absurd hcon (by simp)
  · rw [if_neg hg, if_neg hg]
    rw [not_and_or, not_lt, not_lt] at hg
    refine ⟨⟨rfl, hCpl, hL, fun h => h, rfl, rfl, rfl, rfl, le_refl _,
      le_refl _, fun s _ => ⟨rfl, rfl⟩, fun e _ => ⟨rfl, rfl, rfl⟩,
      fun i _ _ => ⟨rfl, rfl⟩, hok⟩, le_refl t, h2, ?_⟩
    intro _
    rcases hg with hg | hg
    · exact Or.inl (le_antisymm h2 hg)
    · exact Or.inr hg

/-- Loop lockstep at positive fuel, given both statements at the next
smaller fuel. -/
theorem loop_succ (C : Ctx) (A : R) (f : ℕ)
    (ihN : NodeP C A f) (ihL : LoopP C A f) : LoopP C A (f + 1) := by
  intro t b endp std stc hCpl hL h1 h2 h3 h4 hok
  rw [cdsLoop_succ, ctsLoop_succ]
  by_cases hg : t < b ∧ endp < C.part.size
  · rw [if_pos hg, if_pos hg]
    obtain ⟨⟨e1, e2, e3, e4, e5, e6, e7, e8, e9, e10, e11, e12, e13, e14⟩,
      hlt, hle, hAe⟩ :=
      ihN t b endp std stc hCpl hL h1 h3 hg.1 h4 (Or.inr hg.2) hok
    rw [e1]
    obtain ⟨⟨f1, f2, f3, f4, f5, f6, f7, f8, f9, f10, f11, f12, f13, f14⟩,
      hlt2, hle2, hexit2⟩ :=
      ihL (createTimeSlab C f stc t b endp).1 b endp
        (computeDataSize C f std t b endp).2
        (createTimeSlab C f stc t b endp).2
        e2 e3 (le_trans h1 (le_of_lt hlt)) hle h3 (Or.inr hAe) e14
    refine ⟨⟨f1, f2, f3, fun h => e4 (f4 h), f5.trans e5, f6.trans e6,
      f7.trans e7, f8.trans e8, le_trans e9 f9, le_trans e10 f10,
      ?_, ?_, ?_, f14⟩, le_trans (le_of_lt hlt) hlt2, hle2, hexit2⟩
    · intro s hs
      obtain ⟨k1, k2⟩ := f11 s (by omega)
      obtain ⟨k3, k4⟩ := e11 s hs
      exact ⟨k1.trans k3, k2.trans k4⟩
    · intro e he
      obtain ⟨k1, k2, k3⟩ := f12 e (by omega)
      obtain ⟨k4, k5, k6⟩ := e12 e he
      exact ⟨k1.trans k4, k2.trans k5, k3.trans k6⟩
    · intro i hiN hi
      obtain ⟨k1, k2⟩ := f13 i hiN hi
      obtain ⟨k3, k4⟩ := e13 i hiN hi
      exact ⟨k1.trans k3, k2.trans k4⟩
  · rw [if_neg hg, if_neg hg]
    rw [not_and_or, not_lt, not_lt] at hg
    refine ⟨⟨rfl, hCpl, hL, fun h => h, rfl, rfl, rfl, rfl, le_refl _,
      le_refl _, fun s _ => ⟨rfl, rfl⟩, fun e _ => ⟨rfl, rfl, rfl⟩,
      fun i _ _ => ⟨rfl, rfl⟩, hok⟩, le_refl t, h2, ?_⟩
    intro _
    rcases hg with hg | hg
    · exact Or.inl (le_antisymm h2 hg)
    · exact Or.inr hg

/-- Node lockstep at positive fuel, given the loop statement at the next
smaller fuel: one `computeDataSize` node simulates one `createTimeSlab`
node. -/
theorem node_succ (C : Ctx) (A : R) (S : Sane C) (f : ℕ)
    (ihL : LoopP C A f) : NodeP C A (f + 1) := by
  intro a b offset std stc hCpl hL h1 h2 h3 h4 hoffp hok
  rw [computeDataSize_succ2, createTimeSlab_succ]
  rw [show (computeEndTime C std a b offset).1 =
    (computeEndTime C stc a b offset).1 from rfl]
  rw [show (computeEndTime C std a b offset).2.1 =
    (computeEndTime C stc a b offset).2.1 from rfl]
  obtain ⟨hb2a, hb2le, hb2A, hQ⟩ :=
    endTime_facts C S A a b (computeEndTime C stc a b offset).1 offset
      h1 h2 h3 h4 rfl
  have hendp : (computeEndTime C stc a b offset).2.1 ≤ C.part.size :=
    S.hend offset _
  have hooe : offset ≤ (computeEndTime C stc a b offset).2.1 := by
    rcases hoffp with h | h
    · omega
    · exact S.hoff offset _ h
  obtain ⟨p1, p2, p3, p4, p5, p6, p7, p8, p9, p10, p11, p12, p13, p14⟩ :=
    phase_spec C A S a (computeEndTime C stc a b offset).1 offset
      (computeEndTime C stc a b offset).2.1
      (computeEndTime C std a b offset).2.2
      (computeEndTime C stc a b offset).2.2
      hCpl hL hb2A hendp hooe
  have q3 : (create_s C (computeEndTime C stc a b offset).2.2 a
      (computeEndTime C stc a b offset).1 offset
      (computeEndTime C stc a b offset).2.1).ok = stc.ok := p3
  have q4 : (create_s C (computeEndTime C stc a b offset).2.2 a
      (computeEndTime C stc a b offset).1 offset
      (computeEndTime C stc a b offset).2.1).ns = stc.ns := p4
  have q5 : (create_s C (computeEndTime C stc a b offset).2.2 a
      (computeEndTime C stc a b offset).1 offset
      (computeEndTime C stc a b offset).2.1).ne = stc.ne := p5
  have q6 : (create_s C (computeEndTime C stc a b offset).2.2 a
      (computeEndTime C stc a b offset).1 offset
      (computeEndTime C stc a b offset).2.1).nj = stc.nj := p6
  have q7 : (create_s C (computeEndTime C stc a b offset).2.2 a
      (computeEndTime C stc a b offset).1 offset
      (computeEndTime C stc a b offset).2.1).nd = stc.nd := p7
  have q8 : stc.sNext ≤ (create_s C (computeEndTime C stc a b offset).2.2 a
      (computeEndTime C stc a b offset).1 offset
      (computeEndTime C stc a b offset).2.1).sNext := p8
  have q9 : stc.eNext ≤ (create_s C (computeEndTime C stc a b offset).2.2 a
      (computeEndTime C stc a b offset).1 offset
      (computeEndTime C stc a b offset).2.1).eNext := p9
  have q10 : ∀ s, s < stc.sNext →
      (create_s C (computeEndTime C stc a b offset).2.2 a
        (computeEndTime C stc a b offset).1 offset
        (computeEndTime C stc a b offset).2.1).sa s = stc.sa s ∧
      (create_s C (computeEndTime C stc a b offset).2.2 a
        (computeEndTime C stc a b offset).1 offset
        (computeEndTime C stc a b offset).2.1).sb s = stc.sb s := p10
  have q11 : ∀ e, e < stc.eNext →
      (create_s C (computeEndTime C stc a b offset).2.2 a
        (computeEndTime C stc a b offset).1 offset
        (computeEndTime C stc a b offset).2.1).ei e = stc.ei e ∧
      (create_s C (computeEndTime C stc a b offset).2.2 a
        (computeEndTime C stc a b offset).1 offset
        (computeEndTime C stc a b offset).2.1).es e = stc.es e ∧
      (create_s C (computeEndTime C stc a b offset).2.2 a
        (computeEndTime C stc a b offset).1 offset
        (computeEndTime C stc a b offset).2.1).ee e = stc.ee e := p11
  have q12 : ∀ i, i < C.ode.N →
      (∀ n, offset ≤ n → n < C.part.size → C.part.index n ≠ i) →
      (create_s C (computeEndTime C stc a b offset).2.2 a
        (computeEndTime C stc a b offset).1 offset
        (computeEndTime C stc a b offset).2.1).elast i = stc.elast i ∧
      reach A (create_s C (computeEndTime C stc a b offset).2.2 a
        (computeEndTime C stc a b offset).1 offset
        (computeEndTime C stc a b offset).2.1) i = reach A stc i := p12
  have hokE : (create_s C (computeEndTime C stc a b offset).2.2 a
        (computeEndTime C stc a b offset).1 offset
        (computeEndTime C stc a b offset).2.1).ok = true →
      InvE C (create_s C (computeEndTime C stc a b offset).2.2 a
        (computeEndTime C stc a b offset).1 offset
        (computeEndTime C stc a b offset).2.1) ∧
      ReachAt C A a (create_s C (computeEndTime C stc a b offset).2.2 a
        (computeEndTime C stc a b offset).1 offset
        (computeEndTime C stc a b offset).2.1)
        (computeEndTime C stc a b offset).2.1 := by
    intro hOk
    have hOk2 : stc.ok = true := by
      rw [← show (computeEndTime C stc a b offset).2.2.ok = stc.ok from rfl]
      rw [← p3]
      exact hOk
    obtain ⟨hE, hRa⟩ := hok hOk2
    exact p14 ⟨hE, hRa⟩
  obtain ⟨⟨l1, l2, l3, l4, l5, l6, l7, l8, l9, l10, l11, l12, l13, l14⟩,
    hlt2, hle2, hexit⟩ :=
    ihL a (computeEndTime C stc a b offset).1
      (computeEndTime C stc a b offset).2.1
      (dryPhase C (computeEndTime C stc a b offset).1 offset
        (computeEndTime C stc a b offset).2.1
        (computeEndTime C std a b offset).2.2)
      (create_s C (computeEndTime C stc a b offset).2.2 a
        (computeEndTime C stc a b offset).1 offset
        (computeEndTime C stc a b offset).2.1)
      p1 p2 h1 (le_of_lt hb2a) hb2A hQ hokE
  refine ⟨⟨rfl, l2, l3, ?_, ?_, ?_, ?_, ?_, ?_, ?_, ?_, ?_, ?_, ?_⟩,
    hb2a, hb2le, hb2A⟩
  · intro h
    have := l4 h
    rw [q3] at this
    exact this
  · exact l5.trans q4
  · exact l6.trans q5
  · exact l7.trans q6
  · exact l8.trans q7
  · exact le_trans q8 l9
  · exact le_trans q9 l10
  · intro s hs
    obtain ⟨k1, k2⟩ := l11 s (by omega)
    obtain ⟨k3, k4⟩ := q10 s hs
    exact ⟨k1.trans k3, k2.trans k4⟩
  · intro e he
    obtain ⟨k1, k2, k3⟩ := l12 e (by omega)
    obtain ⟨k4, k5, k6⟩ := q11 e he
    exact ⟨k1.trans k4, k2.trans k5, k3.trans k6⟩
  · intro i hiN hi
    have hi2 : ∀ n, (computeEndTime C stc a b offset).2.1 ≤ n →
        n < C.part.size → C.part.index n ≠ i := by
      intro n hn1 hn2
      exact hi n (by omega) hn2
    obtain ⟨k1, k2⟩ := l13 i hiN hi2
    obtain ⟨k3, k4⟩ := q12 i hiN hi
    exact ⟨k1.trans k3, k2.trans k4⟩
  · intro hOk
    obtain ⟨hEfin, hRfin⟩ := l14 hOk
    refine ⟨hEfin, ?_⟩
    intro n hn1 hn2
    by_cases hcase : (computeEndTime C stc a b offset).2.1 ≤ n
    · rw [hRfin n hcase hn2]
      rcases hexit hOk with h | h
      · exact h
      · omega
    · push_neg at hcase
      have hn3 : ∀ m, (computeEndTime C stc a b offset).2.1 ≤ m →
          m < C.part.size → C.part.index m ≠ C.part.index n := by
        intro m hm1 hm2 hcon
        have := S.hinj m n hm2 hn2 hcon
        omega
      obtain ⟨-, k2⟩ := l13 (C.part.index n) (S.hidx n hn2) hn3
      rw [k2]
      exact p13 n hn1 hcase

/-- The lockstep simulation at every fuel. -/
theorem lockstep (C : Ctx) (A : R) (S : Sane C) :
    ∀ fuel : ℕ, NodeP C A fuel ∧ LoopP C A fuel := by
  intro fuel
  induction fuel with
  | zero => exact ⟨node_zero C A, loop_zero C A⟩
  | succ f ih =>
    exact ⟨node_succ C A S f ih.2, loop_succ C A f ih.1 ih.2⟩

/-! ### Claim C7: implicit ODEs are rejected fatally -/

/-- C7: whenever the option `ODE implicit` is true, `chooseSolver`
reports the fixed fatal error with a non-empty human-readable message,
regardless of the `ODE nonlinear solver` setting, and constructs no
solver. -/
theorem chooseSolver_implicit_fatal (solver : String) :
    chooseSolver true solver = .error implicitErr ∧ implicitErr ≠ "" :=
  ⟨rfl, by decide⟩

/-! ### Claim C9: arena allocation never shrinks -/

/-- C9: each `alloc_*` resets its `next` counter to `0` and sets the
capacity to the maximum of the old capacity and the requested size: the
allocation is untouched (arrays and capacity alike) when the request
fits, and otherwise grows monotonically; capacities never shrink. -/
theorem alloc_never_shrinks (st : Slab) (n : ℕ) :
    (alloc_s st n).sNext = 0 ∧ (alloc_s st n).sSize = max st.sSize n ∧
    (alloc_s st n).sa = st.sa ∧ (alloc_s st n).sb = st.sb ∧
    (alloc_e st n).eNext = 0 ∧ (alloc_e st n).eSize = max st.eSize n ∧
    (alloc_e st n).ei = st.ei ∧ (alloc_e st n).es = st.es ∧
    (alloc_e st n).ee = st.ee ∧ (alloc_e st n).ed = st.ed ∧
    (alloc_j st n).jNext = 0 ∧ (alloc_j st n).jSize = max st.jSize n ∧
    (alloc_j st n).jx = st.jx ∧
    (alloc_d st n).dNext = 0 ∧ (alloc_d st n).dSize = max st.dSize n ∧
    (alloc_d st n).de = st.de := by
  unfold alloc_s alloc_e alloc_j alloc_d
  refine ⟨?_, ?_, ?_, ?_, ?_, ?_, ?_, ?_, ?_, ?_, ?_, ?_, ?_, ?_, ?_, ?_⟩ <;>
    (split <;> simp_all <;> omega)

/-! ### Claim C10: `ksample` and `rsample` ignore their time argument -/

/-- C10: for any two times, `ksample` and `rsample` return identical
values (the current step size of `elast[i]`'s sub-slab, and the stored
residual), and both leave the slab state untouched (no coverage
sweep). -/
theorem ksample_rsample_ignore_time (C : Ctx) (st : Slab) (i : ℕ) (t1 t2 : R) :
    ksample C st i t1 = ksample C st i t2 ∧ (ksample C st i t1).2 = st ∧
    rsample C st i t1 = rsample C st i t2 ∧ (rsample C st i t1).2 = st :=
  ⟨rfl, rfl, rfl, rfl⟩

/-! ### Claim C5: a vetoed shift leaves `u0` unchanged and prints nothing -/

/-- C5: if the user hook `ode.update` returns false during `shift(end)`,
then `shift` returns false, the copy `u → u0` does not happen (`u0`
keeps its pre-shift values), and no message event is emitted. -/
theorem shift_veto_keeps_u0 (C : Ctx) (st : Slab) (endb : Bool)
    (h : C.ode.update (shiftCovered C st).u (shiftCovered C st).tb endb = false) :
    (shift C st endb).1 = false ∧ (shift C st endb).2.1.u0 = st.u0 ∧
    ∀ s, Ev.msg s ∉ (shift C st endb).2.2 := by
  unfold shift
  rw [if_pos h]
  refine ⟨rfl, ?_, ?_⟩
  · exact shiftCovered_u0 C st
  · intro s
    split <;> simp

/-- Witness for C5 at the stopping context: the hook indeed returns
false, and the conclusions hold at that concrete input. -/
theorem shift_veto_keeps_u0_witness :
    (wCtxStop.ode.update (shiftCovered wCtxStop wSlab).u
        (shiftCovered wCtxStop wSlab).tb true = false) ∧
    ((shift wCtxStop wSlab true).1 = false ∧
      (shift wCtxStop wSlab true).2.1.u0 = wSlab.u0 ∧
      ∀ s, Ev.msg s ∉ (shift wCtxStop wSlab true).2.2) :=
  ⟨rfl, shift_veto_keeps_u0 wCtxStop wSlab true rfl⟩

/-! ### Claim C8: same-sub-slab peers are read directly in `feval` -/

/-- C8: at a quadrature point `m ≥ 1`, a dependency whose latest element
`e1` lies in the sub-slab of the current element is served directly from
the dof array: `u[i1] = jx[e1·nsize + m - 1]` for the continuous method
and `u[i1] = jx[e1·nsize + m]` for the discontinuous one — a plain array
read, with no interpolation. -/
theorem feval_same_subslab_direct (C : Ctx) (st : Slab) (s0 : ℕ) (a0 t : R)
    (m : ℕ) (u : ℕ → R) (i1 e1n : ℕ) (hm : 1 ≤ m)
    (h1 : st.elast i1 = Int.ofNat e1n) (h2 : st.es e1n = s0) :
    cgDep C st s0 a0 t m u i1 =
      Function.update u i1 (st.jx (e1n * C.method.nsize + m - 1)) ∧
    dgDep C st s0 a0 t m u i1 =
      Function.update u i1 (st.jx (e1n * C.method.nsize + m)) := by
  have hne : (Int.ofNat e1n) ≠ -1 := by
    rw [Int.ofNat_eq_natCast]
    omega
  unfold cgDep dgDep
  rw [h1, if_neg hne, if_neg hne]
  simp [h2]

/-- Witness for C8 on the tiny covered state `w8`. -/
theorem feval_same_subslab_direct_witness :
    (1 ≤ 1) ∧
    (cgDep wCtx w8 5 0 0 1 (fun _ => 0) 1 =
        Function.update (fun _ => 0) 1 (w8.jx (0 * wCtx.method.nsize + 1 - 1)) ∧
      dgDep wCtx w8 5 0 0 1 (fun _ => 0) 1 =
        Function.update (fun _ => 0) 1 (w8.jx (0 * wCtx.method.nsize + 1))) :=
  ⟨by decide, feval_same_subslab_direct wCtx w8 5 0 0 1 (fun _ => 0) 1 0
    (by decide) rfl rfl⟩

/-! ### Claim C3: `create_d` writes only guarded dependencies -/

/-- A successful slot search returns a free slot inside the requested
range. -/
theorem findSlot_eq_some (de : ℕ → Int) (lo hi d : ℕ)
    (h : findSlot de lo hi = some d) : lo ≤ d ∧ d < hi ∧ de d = -1 := by
  unfold findSlot at h
  have hmem := List.mem_of_find?_eq_some h
  have hp := List.find?_some h
  rw [List.mem_range'_1] at hmem
  refine ⟨hmem.1, by omega, by simpa using hp⟩

/-- A change made by one nodal-point step lands in `e1`'s range, writes
`e0` over a free slot, and only happens when the nodal point is inside
`(a0, b0]` up to epsilon. -/
theorem depStep_spec (C : Ctx) (st : Slab) (e0 e1 : ℕ) (a0 b0 a1 k1 : R)
    (de : ℕ → Int) (n d : ℕ)
    (h : depStep C st e0 e1 a0 b0 a1 k1 de n d ≠ de d) :
    depStep C st e0 e1 a0 b0 a1 k1 de n d = Int.ofNat e0 ∧
    st.ed e1 ≤ d ∧ d < st.ed (e1 + 1) ∧ de d = -1 ∧
    within C (a1 + k1 * C.method.npoint n) a0 b0 = true := by
  unfold depStep at h ⊢
  by_cases hw : within C (a1 + k1 * C.method.npoint n) a0 b0 = true
  · rw [if_pos hw] at h ⊢
    cases hfind : findSlot de (st.ed e1) (st.ed (e1 + 1)) with
    | none =>
      rw [hfind] at h
      exact absurd rfl h
    | some d' =>
      rw [hfind] at h
      dsimp only at h ⊢
      have hs := findSlot_eq_some de (st.ed e1) (st.ed (e1 + 1)) d' hfind
      by_cases hd : d = d'
      · subst hd
        rw [Function.update_same]
        exact ⟨rfl, hs.1, hs.2.1, hs.2.2, hw⟩
      · rw [Function.update_noteq hd] at h
        exact absurd rfl h
  · rw [if_neg hw] at h
    exact absurd rfl h

/-- Fold version of `depStep_spec` over a list of nodal points. -/
theorem depFold_spec (C : Ctx) (st : Slab) (e0 e1 : ℕ) (a0 b0 a1 k1 : R) :
    ∀ (l : List ℕ) (de : ℕ → Int) (d : ℕ),
      (l.foldl (depStep C st e0 e1 a0 b0 a1 k1) de) d ≠ de d →
      (l.foldl (depStep C st e0 e1 a0 b0 a1 k1) de) d = Int.ofNat e0 ∧
      st.ed e1 ≤ d ∧ d < st.ed (e1 + 1) ∧
      ∃ n ∈ l, within C (a1 + k1 * C.method.npoint n) a0 b0 = true := by
  intro l
  induction l with
  | nil => intro de d h; exact absurd rfl h
  | cons n l ih =>
    intro de d h
    rw [List.foldl_cons] at h ⊢
    by_cases h1 : depStep C st e0 e1 a0 b0 a1 k1 de n d = de d
    · rw [← h1] at h
      obtain ⟨hv, hlo, hhi, n', hn', hw⟩ := ih _ d h
      exact ⟨hv, hlo, hhi, n', List.mem_cons_of_mem n hn', hw⟩
    · obtain ⟨hv, hlo, hhi, _, hw⟩ := depStep_spec C st e0 e1 a0 b0 a1 k1 de n d h1
      by_cases h2 :
          (l.foldl (depStep C st e0 e1 a0 b0 a1 k1)
            (depStep C st e0 e1 a0 b0 a1 k1 de n)) d =
          depStep C st e0 e1 a0 b0 a1 k1 de n d
      · rw [h2, hv]
        exact ⟨rfl, hlo, hhi, n, List.mem_cons_self n l, hw⟩
      · obtain ⟨hv2, hlo2, hhi2, n', hn', hw2⟩ := ih _ d h2
        exact ⟨hv2, hlo2, hhi2, n', List.mem_cons_of_mem n hn', hw2⟩

/-- A change made while processing dependency `i1` satisfies all the
guards of `create_d`: an existing peer element, epsilon-containment,
distinct sub-slabs, range membership and a contained nodal point. -/
theorem transpStep_spec (C : Ctx) (st : Slab) (e0 s0 : ℕ) (a0 b0 : R)
    (de : ℕ → Int) (i1 d : ℕ)
    (hel : st.elast i1 = -1 ∨ 0 ≤ st.elast i1)
    (h : transpStep C st e0 s0 a0 b0 de i1 d ≠ de d) :
    transpStep C st e0 s0 a0 b0 de i1 d = Int.ofNat e0 ∧
    ∃ e1n : ℕ, st.elast i1 = Int.ofNat e1n ∧
      within2 C a0 b0 (st.sa (st.es e1n)) (st.sb (st.es e1n)) = true ∧
      s0 ≠ st.es e1n ∧ st.ed e1n ≤ d ∧ d < st.ed (e1n + 1) ∧
      ∃ n, n < C.method.nsize ∧
        within C (st.sa (st.es e1n) +
          (st.sb (st.es e1n) - st.sa (st.es e1n)) * C.method.npoint n) a0 b0
          = true := by
  unfold transpStep at h ⊢
  by_cases hne : st.elast i1 = -1
  · rw [if_pos hne] at h
    exact absurd rfl h
  · rw [if_neg hne] at h ⊢
    have h0 : 0 ≤ st.elast i1 := hel.resolve_left hne
    have hofn : st.elast i1 = Int.ofNat (st.elast i1).toNat := by
      rw [Int.ofNat_eq_natCast, Int.toNat_of_nonneg h0]
    by_cases hg :
        (within2 C a0 b0 (st.sa (st.es (st.elast i1).toNat))
            (st.sb (st.es (st.elast i1).toNat)) &&
          decide (s0 ≠ st.es (st.elast i1).toNat)) = true
    · rw [if_pos hg] at h ⊢
      rw [Bool.and_eq_true, decide_eq_true_eq] at hg
      unfold depWrite at h ⊢
      obtain ⟨hv, hlo, hhi, n, hn, hw⟩ :=
        depFold_spec C st e0 (st.elast i1).toNat a0 b0
          (st.sa (st.es (st.elast i1).toNat))
          (st.sb (st.es (st.elast i1).toNat) - st.sa (st.es (st.elast i1).toNat))
          (List.range C.method.nsize) de d h
      rw [List.mem_range] at hn
      exact ⟨hv, (st.elast i1).toNat, hofn, hg.1, hg.2, hlo, hhi, n, hn, hw⟩
    · rw [if_neg hg] at h
      exact absurd rfl h

/-- C3: every element index written by `create_d` into the `de` range of
another element `e1` is the new element `e0`, whose sub-slab interval
`[a0, b0]` is epsilon-contained (as decided by `within`) in `e1`'s
sub-slab interval; the two elements lie in different sub-slabs, and the
slot is written only for a nodal point `t = a1 + k1·npoint(n)` of `e1`
satisfying `a0 + eps < t ≤ b0 + eps`. -/
theorem create_d_writes_guarded (C : Ctx) (st : Slab) (i0 e0 s0 : ℕ)
    (a0 b0 : R) (d : ℕ)
    (Hel : ∀ i, st.elast i = -1 ∨ 0 ≤ st.elast i)
    (h : (create_d C st i0 e0 s0 a0 b0).de d ≠ st.de d) :
    (create_d C st i0 e0 s0 a0 b0).de d = Int.ofNat e0 ∧
    ∃ i1 ∈ C.ode.transp i0, ∃ e1n : ℕ, st.elast i1 = Int.ofNat e1n ∧
      within2 C a0 b0 (st.sa (st.es e1n)) (st.sb (st.es e1n)) = true ∧
      s0 ≠ st.es e1n ∧ st.ed e1n ≤ d ∧ d < st.ed (e1n + 1) ∧
      ∃ n, n < C.method.nsize ∧
        within C (st.sa (st.es e1n) +
          (st.sb (st.es e1n) - st.sa (st.es e1n)) * C.method.npoint n) a0 b0
          = true := by
  have main : ∀ (l : List ℕ) (de : ℕ → Int) (d : ℕ),
      (l.foldl (transpStep C st e0 s0 a0 b0) de) d ≠ de d →
      (l.foldl (transpStep C st e0 s0 a0 b0) de) d = Int.ofNat e0 ∧
      ∃ i1 ∈ l, ∃ e1n : ℕ, st.elast i1 = Int.ofNat e1n ∧
        within2 C a0 b0 (st.sa (st.es e1n)) (st.sb (st.es e1n)) = true ∧
        s0 ≠ st.es e1n ∧ st.ed e1n ≤ d ∧ d < st.ed (e1n + 1) ∧
        ∃ n, n < C.method.nsize ∧
          within C (st.sa (st.es e1n) +
            (st.sb (st.es e1n) - st.sa (st.es e1n)) * C.method.npoint n) a0 b0
            = true := by
    intro l
    induction l with
    | nil => intro de d h; exact absurd rfl h
    | cons i1 l ih =>
      intro de d h
      rw [List.foldl_cons] at h ⊢
      by_cases h1 : transpStep C st e0 s0 a0 b0 de i1 d = de d
      · rw [← h1] at h
        obtain ⟨hv, i1', hi1', rest⟩ := ih _ d h
        exact ⟨hv, i1', List.mem_cons_of_mem i1 hi1', rest⟩
      · obtain ⟨hv, rest⟩ := transpStep_spec C st e0 s0 a0 b0 de i1 d (Hel i1) h1
        by_cases h2 :
            (l.foldl (transpStep C st e0 s0 a0 b0)
              (transpStep C st e0 s0 a0 b0 de i1)) d =
            transpStep C st e0 s0 a0 b0 de i1 d
        · rw [h2, hv]
          exact ⟨rfl, i1, List.mem_cons_self i1 l, rest⟩
        · obtain ⟨hv2, i1', hi1', rest2⟩ := ih _ d h2
          exact ⟨hv2, i1', List.mem_cons_of_mem i1 hi1', rest2⟩
  unfold create_d at h ⊢
  exact main (C.ode.transp i0) st.de d h

/-- Witness for C3: with component 1 owning element 0 on `[0, 1]`,
creating element 5 of component 0 on `[1/2, 1]` writes slot 0. -/
theorem create_d_writes_guarded_witness :
    (∀ i, w3.elast i = -1 ∨ 0 ≤ w3.elast i) ∧
    ((create_d wCtx w3 0 5 1 (1/2) 1).de 0 ≠ w3.de 0) ∧
    ((create_d wCtx w3 0 5 1 (1/2) 1).de 0 = Int.ofNat 5 ∧
      ∃ i1 ∈ wCtx.ode.transp 0, ∃ e1n : ℕ, w3.elast i1 = Int.ofNat e1n ∧
        within2 wCtx (1/2) 1 (w3.sa (w3.es e1n)) (w3.sb (w3.es e1n)) = true ∧
        1 ≠ w3.es e1n ∧ w3.ed e1n ≤ 0 ∧ 0 < w3.ed (e1n + 1) ∧
        ∃ n, n < wCtx.method.nsize ∧
          within wCtx (w3.sa (w3.es e1n) +
            (w3.sb (w3.es e1n) - w3.sa (w3.es e1n)) * wCtx.method.npoint n)
            (1/2) 1 = true) := by
  have hel : ∀ i, w3.elast i = -1 ∨ 0 ≤ w3.elast i := by
    intro i
    by_cases h : i = 1 <;> simp [w3, wSlab, h]
  have hch : (create_d wCtx w3 0 5 1 (1/2) 1).de 0 ≠ w3.de 0 := by
    norm_num [create_d, transpStep, depWrite, depStep, findSlot, within,
      within2, w3, wSlab, wCtx, wOde, wMethod, wPart, List.range_succ,
      List.range'_succ, Function.update]
  exact ⟨hel, hch, create_d_writes_guarded wCtx w3 0 5 1 (1/2) 1 0 hel hch⟩

/-! ### From `build` to the lockstep simulation -/

/-- `allocData` is the dry pass from `dryStart` followed by the arena
sizing. -/
theorem allocData_eq (C : Ctx) (fuel : ℕ) (st : Slab) (a b : R) :
    allocData C fuel st a b =
      postAlloc (computeDataSize C fuel (dryStart C st a) a b 0).2 := rfl

/-- `build` runs `createTimeSlab` from `buildStart` and stamps the slab
interval. -/
theorem build_eq (C : Ctx) (fuel : ℕ) (st : Slab) (a b : R) :
    build C fuel st a b =
      ((createTimeSlab C fuel (buildStart C fuel st a b) a b 0).1,
        { (createTimeSlab C fuel (buildStart C fuel st a b) a b 0).2 with
          ta := a,
          tb := (createTimeSlab C fuel (buildStart C fuel st a b) a b 0).1 }) :=
  rfl

/-- The arena sizing zeroes the four `next` counters and keeps the
recorded totals, the completion flag and `elast`. -/
theorem postAlloc_fields (d : Slab) :
    (postAlloc d).sNext = 0 ∧ (postAlloc d).eNext = 0 ∧
    (postAlloc d).jNext = 0 ∧ (postAlloc d).dNext = 0 ∧
    (postAlloc d).ns = d.ns ∧ (postAlloc d).ne = d.ne ∧
    (postAlloc d).nj = d.nj ∧ (postAlloc d).nd = d.nd ∧
    (postAlloc d).ok = d.ok ∧ (postAlloc d).elast = d.elast := by
  simp only [postAlloc, alloc_s, alloc_e, alloc_j, alloc_d]
  split <;> split <;> split <;> split <;>
    exact ⟨rfl, rfl, rfl, rfl, rfl, rfl, rfl, rfl, rfl, rfl⟩

/-- A fold whose step preserves the completion flag preserves it. -/
theorem foldl_ok (g : Slab → ℕ → Slab) (h : ∀ s n, (g s n).ok = s.ok) :
    ∀ (l : List ℕ) (s : Slab), (l.foldl g s).ok = s.ok := by
  intro l
  induction l with
  | nil => intro s; rfl
  | cons x xs ih => intro s; rw [List.foldl_cons, ih, h]

/-- `edLoopStep` preserves the completion flag. -/
theorem edLoopStep_ok (C : Ctx) (b0 : R) (st : Slab) (n : ℕ) :
    (edLoopStep C b0 st n).ok = st.ok := by
  unfold edLoopStep
  dsimp only
  split <;> split <;> rfl

/-- `headStep` preserves the completion flag. -/
theorem headStep_ok (C : Ctx) (pos : ℕ) (a0 b0 : R) (st : Slab) (n : ℕ) :
    (headStep C pos a0 b0 st n).ok = st.ok := rfl

/-- `uStep` preserves the completion flag. -/
theorem uStep_ok (C : Ctx) (b2 : R) (st : Slab) (n : ℕ) :
    (uStep C b2 st n).ok = st.ok := rfl

/-- `ndStep` preserves the completion flag. -/
theorem ndStep_ok (C : Ctx) (st : Slab) (n : ℕ) :
    (ndStep C st n).ok = st.ok := rfl

/-- The head phase of the dry run preserves the completion flag. -/
theorem dryPhase_ok (C : Ctx) (b2 : R) (offset endp : ℕ) (std : Slab) :
    (dryPhase C b2 offset endp std).ok = std.ok := by
  rw [show dryPhase C b2 offset endp std =
      (List.range' offset (endp - offset)).foldl (ndStep C)
        { (List.range' offset (endp - offset)).foldl (uStep C b2) std with
          ns := ((List.range' offset (endp - offset)).foldl
            (uStep C b2) std).ns + 1,
          ne := ((List.range' offset (endp - offset)).foldl
            (uStep C b2) std).ne + (endp - offset),
          nj := ((List.range' offset (endp - offset)).foldl
            (uStep C b2) std).nj + C.method.nsize * (endp - offset) } from rfl]
  rw [foldl_ok (ndStep C) (ndStep_ok C)]
  show ((List.range' offset (endp - offset)).foldl (uStep C b2) std).ok = _
  rw [foldl_ok (uStep C b2) (uStep_ok C b2)]

/-- `create_s` preserves the completion flag. -/
theorem create_s_ok (C : Ctx) (st : Slab) (a0 b0 : R) (offset endp : ℕ) :
    (create_s C st a0 b0 offset endp).ok = st.ok := by
  rw [create_s_eq]
  rw [foldl_ok (edLoopStep C b0) (edLoopStep_ok C b0)]
  rw [foldl_ok (headStep C st.sNext a0 b0) (headStep_ok C st.sNext a0 b0)]

/-- When one sub-slab exhausts the partition, `createTimeSlab` performs
a single node and stops, and in particular keeps the completion flag. -/
theorem ctsOne_ok (C : Ctx) (f : ℕ) (st : Slab) (a b : R)
    (h : C.part.size ≤ (computeEndTime C st a b 0).2.1) :
    (createTimeSlab C (f + 1 + 1) st a b 0).2.ok = st.ok := by
  rw [createTimeSlab_succ, ctsLoop_succ, if_neg (by
    intro hcon
    have := hcon.2
    omega)]
  dsimp only
  rw [create_s_ok]
  rfl

/-- When one sub-slab exhausts the partition, `computeDataSize` performs
a single node and stops, and in particular keeps the completion flag. -/
theorem cdsOne_ok (C : Ctx) (f : ℕ) (st : Slab) (a b : R)
    (h : C.part.size ≤ (computeEndTime C st a b 0).2.1) :
    (computeDataSize C (f + 1 + 1) st a b 0).2.ok = st.ok := by
  rw [computeDataSize_succ2, cdsLoop_succ, if_neg (by
    intro hcon
    have := hcon.2
    omega)]
  dsimp only
  rw [dryPhase_ok]
  rfl

/-- `buildStart` spelled as a record update of the allocated state. -/
theorem buildStart_eq (C : Ctx) (fuel : ℕ) (st : Slab) (a b : R) :
    buildStart C fuel st a b =
      { allocData C fuel st a b with
        elast := fun i =>
          if i < C.ode.N then -1 else (allocData C fuel st a b).elast i,
        kmin := C.ode.endtime } := rfl

/-- Insensitivity of `reach` to the slab-interval stamp. -/
theorem reach_tatb (A : R) (st : Slab) (x y : R) (i : ℕ) :
    reach A { st with ta := x, tb := y } i = reach A st i := rfl

/-- The lockstep simulation applied to a whole `build`: the dry pass
started from `dryStart` ends up coupled with the built slab, the built
slab keeps the recorded totals, and on completion the element
invariants hold. -/
theorem build_lockstep (C : Ctx) (fuel : ℕ) (st : Slab) (a b : R)
    (S : Sane C) (heps : C.eps < b - a) :
    Cpl C a (computeDataSize C fuel (dryStart C st a) a b 0).2
      (build C fuel st a b).2 ∧
    (build C fuel st a b).2.ns =
      (computeDataSize C fuel (dryStart C st a) a b 0).2.ns ∧
    (build C fuel st a b).2.ne =
      (computeDataSize C fuel (dryStart C st a) a b 0).2.ne ∧
    (build C fuel st a b).2.nj =
      (computeDataSize C fuel (dryStart C st a) a b 0).2.nj ∧
    (build C fuel st a b).2.nd =
      (computeDataSize C fuel (dryStart C st a) a b 0).2.nd ∧
    ((build C fuel st a b).2.ok = true → InvE C (build C fuel st a b).2) := by
  obtain ⟨hA1, hA2, hA3, hA4, hA5, hA6, hA7, hA8, hA9, hA10⟩ :=
    postAlloc_fields (computeDataSize C fuel (dryStart C st a) a b 0).2
  have hBs : (buildStart C fuel st a b).sNext = 0 := by
    rw [buildStart_eq]
    dsimp only
    rw [allocData_eq]
    exact hA1
  have hBe : (buildStart C fuel st a b).eNext = 0 := by
    rw [buildStart_eq]
    dsimp only
    rw [allocData_eq]
    exact hA2
  have hBj : (buildStart C fuel st a b).jNext = 0 := by
    rw [buildStart_eq]
    dsimp only
    rw [allocData_eq]
    exact hA3
  have hBd : (buildStart C fuel st a b).dNext = 0 := by
    rw [buildStart_eq]
    dsimp only
    rw [allocData_eq]
    exact hA4
  have hBns : (buildStart C fuel st a b).ns =
      (computeDataSize C fuel (dryStart C st a) a b 0).2.ns := by
    rw [buildStart_eq]
    dsimp only
    rw [allocData_eq]
    exact hA5
  have hBne : (buildStart C fuel st a b).ne =
      (computeDataSize C fuel (dryStart C st a) a b 0).2.ne := by
    rw [buildStart_eq]
    dsimp only
    rw [allocData_eq]
    exact hA6
  have hBnj : (buildStart C fuel st a b).nj =
      (computeDataSize C fuel (dryStart C st a) a b 0).2.nj := by
    rw [buildStart_eq]
    dsimp only
    rw [allocData_eq]
    exact hA7
  have hBnd : (buildStart C fuel st a b).nd =
      (computeDataSize C fuel (dryStart C st a) a b 0).2.nd := by
    rw [buildStart_eq]
    dsimp only
    rw [allocData_eq]
    exact hA8
  have hBel : ∀ i, i < C.ode.N → (buildStart C fuel st a b).elast i = -1 := by
    intro i hi
    rw [buildStart_eq]
    dsimp only
    rw [if_pos hi]
  have hCpl0 : Cpl C a (dryStart C st a) (buildStart C fuel st a b) := by
    refine ⟨?_, ?_, ?_, ?_, ?_⟩
    · intro i hi
      show (if i < C.ode.N then a else st.u i) = _
      rw [if_pos hi]
      unfold reach
      rw [if_pos (hBel i hi)]
    · rw [hBs]
      rfl
    · rw [hBe]
      rfl
    · rw [hBj]
      rfl
    · rw [hBd]
      rfl
  have hL0 : InvL C (buildStart C fuel st a b) := by
    intro i hi
    left
    refine ⟨hBel i hi, ?_⟩
    intro e he
    rw [hBe] at he
    omega
  have hok0 : (buildStart C fuel st a b).ok = true →
      InvE C (buildStart C fuel st a b) ∧
      ReachAt C a a (buildStart C fuel st a b) 0 := by
    intro _
    constructor
    · intro e he
      rw [hBe] at he
      omega
    · intro n _ hn
      unfold reach
      rw [if_pos (hBel _ (S.hidx n hn))]
  obtain ⟨⟨d1, d2, d3, d4, d5, d6, d7, d8, d9, d10, d11, d12, d13, d14⟩,
      hlt, hle, hAe⟩ :=
    ((lockstep C a S) fuel).1 a b 0 (dryStart C st a)
      (buildStart C fuel st a b) hCpl0 hL0 (le_refl a) (by linarith)
      (by linarith [S.eps0]) (Or.inl heps) (Or.inl rfl) hok0
  rw [build_eq]
  dsimp only
  refine ⟨⟨?_, d2.2.1, d2.2.2.1, d2.2.2.2.1, d2.2.2.2.2⟩,
    d5.trans hBns, d6.trans hBne, d7.trans hBnj, d8.trans hBnd, ?_⟩
  · intro i hi
    rw [reach_tatb]
    exact d2.1 i hi
  · intro hok
    have hok2 : (createTimeSlab C fuel (buildStart C fuel st a b) a b 0).2.ok =
        true := hok
    exact (d14 hok2).1

/-- The single-component witness context satisfies the collaborator
assumptions. -/
theorem sane_c1 : Sane c1Ctx := by
  refine ⟨?_, ?_, ?_, ?_, ?_, ?_, ?_, ?_, ?_, ?_⟩
  · exact le_refl 0
  · exact fun o K h => h
  · exact fun o K h => h
  · exact fun o K => le_refl K
  · show (0:R) < 1
    norm_num
  · exact fun o K => le_refl 1
  · intro o K h
    show o ≤ 1
    have h1 : o < 1 := h
    omega
  · intro n h
    exact Nat.one_pos
  · intro n m hn hm h
    have h1 : n < 1 := hn
    have h2 : m < 1 := hm
    omega
  · intro i hi j hj
    exact absurd hj (List.not_mem_nil j)

/-- The witness build completes: its single sub-slab exhausts the
partition at once, so neither recursion consumes more than two fuel. -/
theorem c1_build_ok : (build c1Ctx 10 wSlab 0 1).2.ok = true := by
  rw [build_eq]
  dsimp only
  rw [show (10:ℕ) = 8 + 1 + 1 from rfl]
  rw [ctsOne_ok c1Ctx 8 (buildStart c1Ctx (8 + 1 + 1) wSlab 0 1) 0 1
    (le_refl 1)]
  rw [buildStart_eq]
  dsimp only
  rw [allocData_eq]
  rw [(postAlloc_fields
    (computeDataSize c1Ctx (8 + 1 + 1) (dryStart c1Ctx wSlab 0) 0 1
      0).2).2.2.2.2.2.2.2.2.1]
  rw [cdsOne_ok c1Ctx 8 (dryStart c1Ctx wSlab 0) 0 1 (le_refl 1)]
  rfl

/-- C1: assuming deterministic, regular collaborators (`Sane`) and a
slab interval wider than epsilon, the totals `ns, ne, nj, nd` computed
by the dry run `computeDataSize` from the initialized scratch state
equal the numbers of sub-slabs, elements, dofs and dependency slots
consumed by the subsequent `createTimeSlab` recursion of a completed
`build`: the built slab satisfies `size_s.next = ns`,
`size_e.next = ne`, `size_j.next = nj` and `size_d.next = nd`, despite
the differing dependency-counting conditions of the two passes. -/
theorem dry_creation_counts_agree (C : Ctx) (fuel : ℕ) (st : Slab)
    (a b : R) (S : Sane C) (heps : C.eps < b - a)
    (hok : (build C fuel st a b).2.ok = true) :
    (computeDataSize C fuel (dryStart C st a) a b 0).2.ns =
      (build C fuel st a b).2.sNext ∧
    (computeDataSize C fuel (dryStart C st a) a b 0).2.ne =
      (build C fuel st a b).2.eNext ∧
    (computeDataSize C fuel (dryStart C st a) a b 0).2.nj =
      (build C fuel st a b).2.jNext ∧
    (computeDataSize C fuel (dryStart C st a) a b 0).2.nd =
      (build C fuel st a b).2.dNext ∧
    (build C fuel st a b).2.ns = (build C fuel st a b).2.sNext ∧
    (build C fuel st a b).2.ne = (build C fuel st a b).2.eNext ∧
    (build C fuel st a b).2.nj = (build C fuel st a b).2.jNext ∧
    (build C fuel st a b).2.nd = (build C fuel st a b).2.dNext := by
  obtain ⟨hCpl, hns, hne, hnj, hnd, -⟩ := build_lockstep C fuel st a b S heps
  exact ⟨hCpl.2.1, hCpl.2.2.1, hCpl.2.2.2.1, hCpl.2.2.2.2,
    hns.trans hCpl.2.1, hne.trans hCpl.2.2.1, hnj.trans hCpl.2.2.2.1,
    hnd.trans hCpl.2.2.2.2⟩

/-- Concrete run of the counter agreement on the single-component
witness build over `[0, 1]`. -/
theorem dry_creation_counts_agree_witness :
    Sane c1Ctx ∧ c1Ctx.eps < 1 - 0 ∧
    (build c1Ctx 10 wSlab 0 1).2.ok = true ∧
    ((computeDataSize c1Ctx 10 (dryStart c1Ctx wSlab 0) 0 1 0).2.ns =
        (build c1Ctx 10 wSlab 0 1).2.sNext ∧
      (computeDataSize c1Ctx 10 (dryStart c1Ctx wSlab 0) 0 1 0).2.ne =
        (build c1Ctx 10 wSlab 0 1).2.eNext ∧
      (computeDataSize c1Ctx 10 (dryStart c1Ctx wSlab 0) 0 1 0).2.nj =
        (build c1Ctx 10 wSlab 0 1).2.jNext ∧
      (computeDataSize c1Ctx 10 (dryStart c1Ctx wSlab 0) 0 1 0).2.nd =
        (build c1Ctx 10 wSlab 0 1).2.dNext ∧
      (build c1Ctx 10 wSlab 0 1).2.ns = (build c1Ctx 10 wSlab 0 1).2.sNext ∧
      (build c1Ctx 10 wSlab 0 1).2.ne = (build c1Ctx 10 wSlab 0 1).2.eNext ∧
      (build c1Ctx 10 wSlab 0 1).2.nj = (build c1Ctx 10 wSlab 0 1).2.jNext ∧
      (build c1Ctx 10 wSlab 0 1).2.nd = (build c1Ctx 10 wSlab 0 1).2.dNext) := by
  have hS : Sane c1Ctx := sane_c1
  have hE : c1Ctx.eps < 1 - 0 := by
    show (0:R) < 1 - 0
    norm_num
  have hO : (build c1Ctx 10 wSlab 0 1).2.ok = true := c1_build_ok
  exact ⟨hS, hE, hO, dry_creation_counts_agree c1Ctx 10 wSlab 0 1 hS hE hO⟩

/-- C6: after a completed `build`, every created element `e` has its
component index in `[0, N)` and its sub-slab index in `[0, ns)`, its
predecessor link is `-1` or a strictly smaller element index, a non-`-1`
predecessor belongs to the same component and ends exactly where this
element's sub-slab begins, and the link is `-1` exactly when `e` is the
first element created for its component in this slab. -/
theorem build_element_invariants (C : Ctx) (fuel : ℕ) (st : Slab)
    (a b : R) (S : Sane C) (heps : C.eps < b - a)
    (hok : (build C fuel st a b).2.ok = true) :
    ∀ e, e < (build C fuel st a b).2.eNext →
      (build C fuel st a b).2.ei e < C.ode.N ∧
      (build C fuel st a b).2.es e < (build C fuel st a b).2.ns ∧
      ((build C fuel st a b).2.ee e = -1 ∨
        (0 ≤ (build C fuel st a b).2.ee e ∧
          (build C fuel st a b).2.ee e < (e : Int))) ∧
      ((build C fuel st a b).2.ee e ≠ -1 →
        (build C fuel st a b).2.ei ((build C fuel st a b).2.ee e).toNat =
          (build C fuel st a b).2.ei e ∧
        (build C fuel st a b).2.sb
            ((build C fuel st a b).2.es
              ((build C fuel st a b).2.ee e).toNat) =
          (build C fuel st a b).2.sa ((build C fuel st a b).2.es e)) ∧
      ((build C fuel st a b).2.ee e = -1 ↔
        ∀ e2, e2 < e →
          (build C fuel st a b).2.ei e2 ≠ (build C fuel st a b).2.ei e) := by
  obtain ⟨hCpl, hns, -, -, -, hInv⟩ := build_lockstep C fuel st a b S heps
  have hsn : (build C fuel st a b).2.sNext = (build C fuel st a b).2.ns := by
    rw [hns]
    exact hCpl.2.1.symm
  intro e he
  obtain ⟨k1, k2, k3, k4, k5⟩ := hInv hok e he
  rw [hsn] at k2
  exact ⟨k1, k2, k3, k4, k5⟩

/-- Concrete run of the element invariants on the single-component
witness build over `[0, 1]`. -/
theorem build_element_invariants_witness :
    Sane c1Ctx ∧ c1Ctx.eps < 1 - 0 ∧
    (build c1Ctx 10 wSlab 0 1).2.ok = true ∧
    (∀ e, e < (build c1Ctx 10 wSlab 0 1).2.eNext →
      (build c1Ctx 10 wSlab 0 1).2.ei e < c1Ctx.ode.N ∧
      (build c1Ctx 10 wSlab 0 1).2.es e < (build c1Ctx 10 wSlab 0 1).2.ns ∧
      ((build c1Ctx 10 wSlab 0 1).2.ee e = -1 ∨
        (0 ≤ (build c1Ctx 10 wSlab 0 1).2.ee e ∧
          (build c1Ctx 10 wSlab 0 1).2.ee e < (e : Int))) ∧
      ((build c1Ctx 10 wSlab 0 1).2.ee e ≠ -1 →
        (build c1Ctx 10 wSlab 0 1).2.ei
            ((build c1Ctx 10 wSlab 0 1).2.ee e).toNat =
          (build c1Ctx 10 wSlab 0 1).2.ei e ∧
        (build c1Ctx 10 wSlab 0 1).2.sb
            ((build c1Ctx 10 wSlab 0 1).2.es
              ((build c1Ctx 10 wSlab 0 1).2.ee e).toNat) =
          (build c1Ctx 10 wSlab 0 1).2.sa
            ((build c1Ctx 10 wSlab 0 1).2.es e)) ∧
      ((build c1Ctx 10 wSlab 0 1).2.ee e = -1 ↔
        ∀ e2, e2 < e →
          (build c1Ctx 10 wSlab 0 1).2.ei e2 ≠
            (build c1Ctx 10 wSlab 0 1).2.ei e)) := by
  have hS : Sane c1Ctx := sane_c1
  have hE : c1Ctx.eps < 1 - 0 := by
    show (0:R) < 1 - 0
    norm_num
  have hO : (build c1Ctx 10 wSlab 0 1).2.ok = true := c1_build_ok
  exact ⟨hS, hE, hO, build_element_invariants c1Ctx 10 wSlab 0 1 hS hE hO⟩

/-! ### Sampling correctness -/

/-- `coverTime` moves only `elast` and `emax`. -/
theorem coverTime_fields (C : Ctx) (st : Slab) (t : R) :
    (coverTime C st t).es = st.es ∧ (coverTime C st t).sa = st.sa ∧
    (coverTime C st t).sb = st.sb ∧ (coverTime C st t).ee = st.ee ∧
    (coverTime C st t).jx = st.jx ∧ (coverTime C st t).u0 = st.u0 ∧
    (coverTime C st t).ei = st.ei ∧ (coverTime C st t).ne = st.ne := by
  unfold coverTime
  cases coverViolation C st t <;>
    exact ⟨rfl, rfl, rfl, rfl, rfl, rfl, rfl, rfl⟩

/-- The value returned by `usample` once the covered element is known. -/
theorem usample_formula (C : Ctx) (st : Slab) (i en : ℕ) (t : R)
    (hel : st.elast i = Int.ofNat en) :
    usample C st i t =
      C.method.ueval
        (if st.ee en ≠ -1 then
          st.jx ((st.ee en).toNat * C.method.nsize + C.method.nsize - 1)
        else st.u0 i)
        (fun n => st.jx (en * C.method.nsize + n))
        ((t - st.sa (st.es en)) / (st.sb (st.es en) - st.sa (st.es en))) := by
  unfold usample
  rw [hel]
  rfl

/-- `takeWhile` of an arithmetic range is the range of the longest
satisfying prefix. -/
theorem takeWhile_spec (p : ℕ → Bool) :
    ∀ n s, ∃ k, k ≤ n ∧ (List.range' s n).takeWhile p = List.range' s k ∧
      (∀ j, j < k → p (s + j) = true) ∧ (k < n → p (s + k) = false) := by
  intro n
  induction n with
  | zero =>
    intro s
    exact ⟨0, le_refl 0, rfl, fun j hj => absurd hj (Nat.not_lt_zero j),
      fun h => absurd h (Nat.lt_irrefl 0)⟩
  | succ m ih =>
    intro s
    rw [List.range'_succ]
    by_cases hp : p s = true
    · obtain ⟨k, hk1, hk2, hk3, hk4⟩ := ih (s + 1)
      refine ⟨k + 1, by omega, ?_, ?_, ?_⟩
      · rw [List.takeWhile_cons_of_pos hp, hk2, List.range'_succ]
      · intro j hj
        cases j with
        | zero => simpa using hp
        | succ j2 =>
          have hj3 := hk3 j2 (by omega)
          rw [show s + (j2 + 1) = s + 1 + j2 from by omega]
          exact hj3
      · intro h
        have hj4 := hk4 (by omega)
        rw [show s + (k + 1) = s + 1 + k from by omega]
        exact hj4
    · refine ⟨0, by omega, ?_, ?_, ?_⟩
      · rw [List.takeWhile_cons_of_neg (by simpa using hp)]
        rfl
      · intro j hj
        omega
      · intro h
        rw [Nat.add_zero]
        simpa using hp

/-- The last write wins in the covering fold of `coverTime`. -/
theorem fold_update_range (f : ℕ → ℕ) (i E : ℕ) :
    ∀ (k : ℕ) (el : ℕ → Int), E < k → f E = i →
      (∀ e, E < e → e < k → f e ≠ i) →
      ((List.range' 0 k).foldl
        (fun el2 e => Function.update el2 (f e) (Int.ofNat e)) el) i =
        Int.ofNat E := by
  intro k
  induction k with
  | zero =>
    intro el h
    omega
  | succ m ih =>
    intro el hE hf hno
    rw [show List.range' 0 (m + 1) = List.range' 0 m ++ [m] from by
      simpa using (List.range'_concat 0 m :
        List.range' 0 (m + 1) 1 = List.range' 0 m 1 ++ [0 + 1 * m])]
    rw [List.foldl_append]
    dsimp only [List.foldl]
    by_cases hEm : E = m
    · subst hEm
      rw [hf, Function.update_same]
    · have hEl : E < m := by omega
      rw [Function.update_noteq
        (Ne.symm (hno m hEl (by omega)))]
      exact ih el hEl hf (fun e h1 h2 => hno e h1 (by omega))

/-- Tiles of one component are separated: an earlier element of the
same component ends no later than a later one begins. -/
theorem tile_sep (C : Ctx) (st : Slab) (W : Sampleable C st) :
    ∀ e2, e2 < st.ne → ∀ e1, e1 < e2 → st.ei e1 = st.ei e2 →
      st.sb (st.es e1) ≤ st.sa (st.es e2) := by
  intro e2
  induction e2 using Nat.strong_induction_on with
  | _ e2 ih =>
    intro h2 e1 h12 hsame
    by_cases hee : st.ee e2 = -1
    · exact absurd hsame ((W.hfirst e2 h2 hee).2 e1 h12)
    · obtain ⟨hp1, hp2, hp3, hp4⟩ := W.hlink e2 h2 hee
      have h1p : e1 ≤ (st.ee e2).toNat := by
        by_contra hcon
        exact hp4 e1 (by omega) h12 hsame
      rcases eq_or_lt_of_le h1p with heq | hlt
      · exact le_of_eq (by rw [heq]; exact hp3)
      · have hBp := ih (st.ee e2).toNat hp1 (by omega) e1 hlt
          (hsame.trans hp2.symm)
        have hApBp := W.hwid (st.ee e2).toNat (by omega)
        have he0 := W.eps0
        linarith

/-- Walking the predecessor chain downward finds a tile whose
epsilon-shifted interval contains `t`. -/
theorem tile_exists (C : Ctx) (st : Slab) (W : Sampleable C st) (t : R)
    (ht1 : st.ta + C.eps < t) :
    ∀ e, e < st.ne → t ≤ st.sb (st.es e) + C.eps →
      ∃ E, E ≤ e ∧ st.ei E = st.ei e ∧
        st.sa (st.es E) + C.eps < t ∧ t ≤ st.sb (st.es E) + C.eps := by
  intro e
  induction e using Nat.strong_induction_on with
  | _ e ih =>
    intro he hub
    by_cases hA : st.sa (st.es e) + C.eps < t
    · exact ⟨e, le_refl e, rfl, hA, hub⟩
    · push_neg at hA
      by_cases hee : st.ee e = -1
      · have hta := (W.hfirst e he hee).1
        rw [hta] at hA
        linarith
      · obtain ⟨hp1, hp2, hp3, hp4⟩ := W.hlink e he hee
        obtain ⟨E, hE1, hE2, hE3, hE4⟩ := ih (st.ee e).toNat hp1 (by omega)
          (by rw [hp3]; exact hA)
        exact ⟨E, by omega, hE2.trans hp2, hE3, hE4⟩

/-- C4: on a well-formed slab, for every component `i` and every sample
time `t` in the slab interval (more than epsilon past `_a` and clear of
the epsilon-shifted tile boundaries), covering `t` points `elast[i]` at
the unique element of component `i` whose sub-slab interval contains
`t`, and `usample(i, t)` then returns
`Method.ueval(x0, jx + e*nsize, (t - sa[es[e]]) / (sb[es[e]] - sa[es[e]]))`
with `x0` the last dof of the predecessor element when `ee[e] != -1`
and `u0[i]` otherwise. -/
theorem usample_cover (C : Ctx) (st : Slab) (t : R) (i : ℕ)
    (W : Sampleable C st) (hi : i < C.ode.N)
    (ht1 : st.ta + C.eps < t) (ht2 : t ≤ st.tb)
    (hclear : ∀ e, e < st.ne → st.sa (st.es e) + C.eps ≠ t) :
    ∃ en, en < st.ne ∧ (coverTime C st t).elast i = Int.ofNat en ∧
      st.ei en = i ∧
      within C t (st.sa (st.es en)) (st.sb (st.es en)) = true ∧
      (∀ e2, e2 < st.ne → st.ei e2 = i →
        within C t (st.sa (st.es e2)) (st.sb (st.es e2)) = true → e2 = en) ∧
      usample C (coverTime C st t) i t =
        C.method.ueval
          (if st.ee en ≠ -1 then
            st.jx ((st.ee en).toNat * C.method.nsize + C.method.nsize - 1)
          else st.u0 i)
          (fun n => st.jx (en * C.method.nsize + n))
          ((t - st.sa (st.es en)) /
            (st.sb (st.es en) - st.sa (st.es en))) := by
  obtain ⟨lst, hlst1, hlst2, hlst3, hlst4, hlst5⟩ := W.hlast i hi
  have hub : t ≤ st.sb (st.es lst) + C.eps := by
    rw [hlst4]
    have he0 := W.eps0
    linarith
  obtain ⟨E, hE1, hE2, hE3, hE4⟩ := tile_exists C st W t ht1 lst hlst1 hub
  have hEi : st.ei E = i := hE2.trans hlst3
  have hEne : E < st.ne := by omega
  have huniq : ∀ e2, e2 < st.ne → st.ei e2 = i →
      within C t (st.sa (st.es e2)) (st.sb (st.es e2)) = true → e2 = E := by
    intro e2 h2 hei2 hw
    have hw2 : st.sa (st.es e2) + C.eps < t ∧
        t ≤ st.sb (st.es e2) + C.eps := by
      simpa [within] using hw
    rcases Nat.lt_trichotomy e2 E with hlt | heq | hgt
    · have hsep := tile_sep C st W E hEne e2 hlt (hei2.trans hEi.symm)
      linarith [hw2.2, hE3]
    · exact heq
    · have hsep := tile_sep C st W e2 h2 E hgt (hEi.trans hei2.symm)
      linarith [hw2.1, hE4]
  have hwE : within C t (st.sa (st.es E)) (st.sb (st.es E)) = true := by
    simp only [within, Bool.and_eq_true, decide_eq_true_eq]
    exact ⟨hE3, hE4⟩
  have hel2 : (coverTime C st t).elast i = Int.ofNat E := by
    cases hcv : coverViolation C st t with
    | none =>
      have hct : coverTime C st t = st := by
        unfold coverTime
        rw [hcv]
      have hcvF := hcv
      unfold coverViolation at hcvF
      have hq := (List.find?_eq_none.mp hcvF) i (List.mem_range.mpr hi)
      simp only [Bool.or_eq_true, decide_eq_true_eq, not_or] at hq
      rw [hlst2, toNatOfNat] at hq
      have hA : st.sa (st.es lst) + C.eps < t :=
        lt_of_le_of_ne (le_of_not_lt hq.1.2) (hclear lst hlst1)
      have hB : t ≤ st.sb (st.es lst) + C.eps := le_of_not_lt hq.2
      have hEl : lst = E := huniq lst hlst1 hlst3 (by
        simp only [within, Bool.and_eq_true, decide_eq_true_eq]
        exact ⟨hA, hB⟩)
      rw [hct, hlst2, hEl]
    | some i0 =>
      have hcvF := hcv
      unfold coverViolation at hcvF
      have hi0 : i0 < C.ode.N :=
        List.mem_range.mp (List.mem_of_find?_eq_some hcvF)
      have hp := List.find?_some hcvF
      simp only [Bool.or_eq_true, decide_eq_true_eq] at hp
      obtain ⟨l0, hl1, hl2, hl3, hl4, hl5⟩ := W.hlast i0 hi0
      have hne1 : ¬ (st.elast i0 = -1) := by
        rw [hl2, Int.ofNat_eq_natCast]
        omega
      have hne3 : ¬ (st.sb (st.es (st.elast i0).toNat) + C.eps < t) := by
        rw [hl2, toNatOfNat, hl4]
        have he0 := W.eps0
        linarith
      have hlt0 : t < st.sa (st.es (st.elast i0).toNat) + C.eps := by
        rcases hp with (h | h) | h
        · exact absurd h hne1
        · exact h
        · exact absurd h hne3
      obtain ⟨k, hk1, hk2, hk3, hk4⟩ := takeWhile_spec
        (fun e => !(decide (t < st.sa (st.es e) + C.eps) &&
          decide (st.ta < st.sa (st.es e) - C.eps))) st.ne 0
      simp only [Nat.zero_add] at hk3 hk4
      have hEk : E < k := by
        by_contra hcon
        push_neg at hcon
        have hkne : k < st.ne := by omega
        have hstop := hk4 hkne
        simp only [Bool.not_eq_false', Bool.and_eq_true,
          decide_eq_true_eq] at hstop
        have hmo := W.hmono k E hcon hEne
        linarith [hstop.1, hE3]
      have hno : ∀ e, E < e → e < k → st.ei e ≠ i := by
        intro e h1 h2 hcon
        have hene : e < st.ne := by omega
        have hsep := tile_sep C st W e hene E h1 (hEi.trans hcon.symm)
        have hwd := W.hwid E hEne
        have htaE := W.hta E hEne
        have h1' : t < st.sa (st.es e) + C.eps :=
          lt_of_le_of_ne (by linarith [hE4]) (Ne.symm (hclear e hene))
        have h2' : st.ta < st.sa (st.es e) - C.eps := by linarith
        have hpe := hk3 e h2
        simp [h1', h2'] at hpe
      unfold coverTime
      rw [hcv]
      dsimp only
      rw [if_pos (Or.inr hlt0)]
      rw [ite_self, ite_self, Nat.sub_zero, hk2]
      exact fold_update_range st.ei i E k st.elast hEk hEi hno
  have hfld := coverTime_fields C st t
  refine ⟨E, hEne, hel2, hEi, hwE, huniq, ?_⟩
  rw [usample_formula C (coverTime C st t) i E t hel2]
  rw [hfld.1, hfld.2.1, hfld.2.2.1, hfld.2.2.2.1, hfld.2.2.2.2.1,
    hfld.2.2.2.2.2.1]

/-- The two-element witness slab is well-formed for sampling. -/
theorem samp_w4 : Sampleable c1Ctx w4 := by
  refine ⟨?_, ?_, ?_, ?_, ?_, ?_, ?_⟩
  · exact le_refl 0
  · intro i hi
    have hi2 : i < 1 := hi
    interval_cases i
    refine ⟨1, ?_, rfl, rfl, ?_, ?_⟩
    · show (1:ℕ) < 2
      omega
    · show (1:R) = 1
      rfl
    · intro e2 h1 h2
      have h3 : e2 < 2 := h2
      omega
  · intro e1 e2 h12 h2
    have h3 : e2 < 2 := h2
    interval_cases e2
    · interval_cases e1
      · exact le_refl _
    · interval_cases e1
      · show (0:R) ≤ 1/2
        norm_num
      · exact le_refl _
  · intro e he
    have h2 : e < 2 := he
    interval_cases e
    · show (0:R) + 0 < 1/2
      norm_num
    · show (1/2:R) + 0 < 1
      norm_num
  · intro e he
    have h2 : e < 2 := he
    interval_cases e
    · exact le_refl 0
    · show (0:R) ≤ 1/2
      norm_num
  · intro e he hee
    have h2 : e < 2 := he
    interval_cases e
    · exact ⟨rfl, fun e2 h1 => by omega⟩
    · exact absurd hee (by decide)
  · intro e he hee
    have h2 : e < 2 := he
    interval_cases e
    · exact absurd rfl hee
    · refine ⟨?_, rfl, ?_, ?_⟩
      · show (0:ℕ) < 1
        omega
      · show (1/2:R) = 1/2
        rfl
      · intro e2 h1 h2
        omega

/-- Concrete run of the sampling correctness on the two-element witness
slab at `t = 1/4`. -/
theorem usample_cover_witness :
    Sampleable c1Ctx w4 ∧ (0:ℕ) < c1Ctx.ode.N ∧
    w4.ta + c1Ctx.eps < 1/4 ∧ (1/4 : R) ≤ w4.tb ∧
    (∀ e, e < w4.ne → w4.sa (w4.es e) + c1Ctx.eps ≠ 1/4) ∧
    (∃ en, en < w4.ne ∧ (coverTime c1Ctx w4 (1/4)).elast 0 = Int.ofNat en ∧
      w4.ei en = 0 ∧
      within c1Ctx (1/4) (w4.sa (w4.es en)) (w4.sb (w4.es en)) = true ∧
      (∀ e2, e2 < w4.ne → w4.ei e2 = 0 →
        within c1Ctx (1/4) (w4.sa (w4.es e2)) (w4.sb (w4.es e2)) = true →
          e2 = en) ∧
      usample c1Ctx (coverTime c1Ctx w4 (1/4)) 0 (1/4) =
        c1Ctx.method.ueval
          (if w4.ee en ≠ -1 then
            w4.jx ((w4.ee en).toNat * c1Ctx.method.nsize +
              c1Ctx.method.nsize - 1)
          else w4.u0 0)
          (fun n => w4.jx (en * c1Ctx.method.nsize + n))
          ((1/4 - w4.sa (w4.es en)) /
            (w4.sb (w4.es en) - w4.sa (w4.es en)))) := by
  have hW : Sampleable c1Ctx w4 := samp_w4
  have h1 : (0:ℕ) < c1Ctx.ode.N := Nat.one_pos
  have h2 : w4.ta + c1Ctx.eps < 1/4 := by
    show (0:R) + 0 < 1/4
    norm_num
  have h3 : (1/4 : R) ≤ w4.tb := by
    show (1/4:R) ≤ 1
    norm_num
  have h4 : ∀ e, e < w4.ne → w4.sa (w4.es e) + c1Ctx.eps ≠ (1/4:R) := by
    intro e he
    have he2 : e < 2 := he
    interval_cases e <;> norm_num [w4, wSlab, c1Ctx]
  exact ⟨hW, h1, h2, h3, h4,
    usample_cover c1Ctx w4 (1/4) 0 hW h1 h2 h3 h4⟩

/-! ### Counting lemmas for the dependency-fill analysis -/

/-- Additive folds shift with the accumulator. -/
theorem foldl_add_acc (g : ℕ → ℕ) : ∀ (l : List ℕ) (s : ℕ),
    l.foldl (fun s2 i => s2 + g i) s = s + l.foldl (fun s2 i => s2 + g i) 0 := by
  intro l
  induction l with
  | nil => intro s; simp
  | cons x xs ih =>
    intro s
    rw [List.foldl_cons, List.foldl_cons, ih (s + g x), ih (0 + g x)]
    omega

/-- `sumL` over a cons. -/
theorem sumL_cons (g : ℕ → ℕ) (x : ℕ) (xs : List ℕ) :
    sumL (x :: xs) g = g x + sumL xs g := by
  unfold sumL
  rw [List.foldl_cons, foldl_add_acc g xs (0 + g x)]
  omega

/-- `sumL` respects pointwise equality on the list. -/
theorem sumL_congr (g h : ℕ → ℕ) : ∀ l : List ℕ,
    (∀ i ∈ l, g i = h i) → sumL l g = sumL l h := by
  intro l
  induction l with
  | nil => intro hp; rfl
  | cons x xs ih =>
    intro hp
    rw [sumL_cons, sumL_cons, hp x (List.mem_cons_self x xs),
      ih (fun i hi => hp i (List.mem_cons_of_mem x hi))]

/-- `sumL` is monotone pointwise. -/
theorem sumL_le (g h : ℕ → ℕ) : ∀ l : List ℕ,
    (∀ i ∈ l, g i ≤ h i) → sumL l g ≤ sumL l h := by
  intro l
  induction l with
  | nil => intro hp; exact le_refl 0
  | cons x xs ih =>
    intro hp
    rw [sumL_cons, sumL_cons]
    have h1 := hp x (List.mem_cons_self x xs)
    have h2 := ih (fun i hi => hp i (List.mem_cons_of_mem x hi))
    omega

/-- `sumL` of a pointwise-zero function. -/
theorem sumL_zero (g : ℕ → ℕ) : ∀ l : List ℕ,
    (∀ i ∈ l, g i = 0) → sumL l g = 0 := by
  intro l
  induction l with
  | nil => intro hp; rfl
  | cons x xs ih =>
    intro hp
    rw [sumL_cons, hp x (List.mem_cons_self x xs),
      ih (fun i hi => hp i (List.mem_cons_of_mem x hi))]

/-- Changing one entry of a duplicate-free sum: additive form. -/
theorem sumL_update (g h : ℕ → ℕ) (x : ℕ) : ∀ l : List ℕ,
    l.Nodup → x ∈ l → (∀ i ∈ l, i ≠ x → g i = h i) →
    sumL l g + h x = sumL l h + g x := by
  intro l
  induction l with
  | nil => intro _ hx; exact absurd hx (List.not_mem_nil x)
  | cons y ys ih =>
    intro hnd hx hp
    rw [sumL_cons, sumL_cons]
    by_cases hyx : y = x
    · subst hyx
      have hys : ∀ i ∈ ys, g i = h i := by
        intro i hi
        refine hp i (List.mem_cons_of_mem y hi) ?_
        intro hcon
        subst hcon
        exact (List.nodup_cons.mp hnd).1 hi
      rw [sumL_congr g h ys hys]
      omega
    · have hx2 : x ∈ ys := by
        rcases List.mem_cons.mp hx with h | h
        · exact absurd h.symm hyx
        · exact h
      have := ih (List.nodup_cons.mp hnd).2 hx2
        (fun i hi hne => hp i (List.mem_cons_of_mem y hi) hne)
      have hgy := hp y (List.mem_cons_self y ys) hyx
      omega

/-- `countP` is monotone in the predicate along the list. -/
theorem cp_le (p q : ℕ → Bool) : ∀ l : List ℕ,
    (∀ x ∈ l, p x = true → q x = true) → l.countP p ≤ l.countP q := by
  intro l
  induction l with
  | nil => intro hp; exact le_refl 0
  | cons x xs ih =>
    intro hp
    rw [List.countP_cons, List.countP_cons]
    have h1 := ih (fun y hy => hp y (List.mem_cons_of_mem x hy))
    by_cases hx : p x = true
    · rw [if_pos hx, if_pos (hp x (List.mem_cons_self x xs) hx)]
      omega
    · rw [if_neg hx]
      split <;> omega

/-- `countP` splits along a disjoint pointwise decomposition. -/
theorem cp_split (p q w : ℕ → Bool) : ∀ l : List ℕ,
    (∀ x ∈ l, p x = (q x || w x)) →
    (∀ x ∈ l, ¬(q x = true ∧ w x = true)) →
    l.countP p = l.countP q + l.countP w := by
  intro l
  induction l with
  | nil => intro _ _; rfl
  | cons x xs ih =>
    intro hp hd
    rw [List.countP_cons, List.countP_cons, List.countP_cons,
      ih (fun y hy => hp y (List.mem_cons_of_mem x hy))
        (fun y hy => hd y (List.mem_cons_of_mem x hy)),
      hp x (List.mem_cons_self x xs)]
    have h2 := hd x (List.mem_cons_self x xs)
    cases hq : q x <;> cases hw : w x
    · simp [hq, hw]
    · simp [hq, hw]
      omega
    · simp [hq, hw]
      omega
    · exact absurd ⟨hq, hw⟩ h2

/-- `countP` of a pointwise-false predicate. -/
theorem cp_zero (p : ℕ → Bool) : ∀ l : List ℕ,
    (∀ x ∈ l, p x = false) → l.countP p = 0 := by
  intro l
  induction l with
  | nil => intro _; rfl
  | cons x xs ih =>
    intro hp
    rw [List.countP_cons, hp x (List.mem_cons_self x xs),
      ih (fun y hy => hp y (List.mem_cons_of_mem x hy))]
    simp

/-- `countP` of a pointwise-true predicate. -/
theorem cp_full (p : ℕ → Bool) : ∀ l : List ℕ,
    (∀ x ∈ l, p x = true) → l.countP p = l.length := by
  intro l
  induction l with
  | nil => intro _; rfl
  | cons x xs ih =>
    intro hp
    rw [List.countP_cons, if_pos (hp x (List.mem_cons_self x xs)),
      ih (fun y hy => hp y (List.mem_cons_of_mem x hy)), List.length_cons]

/-- `within` under exact arithmetic. -/
theorem within_true_iff (C : Ctx) (heps : C.eps = 0) (t a b : R) :
    within C t a b = true ↔ (a < t ∧ t ≤ b) := by
  simp [within, heps]

/-- Expected hits never exceed the number of nodal points. -/
theorem fh_le_nsize (C : Ctx) (a1 k1 r : R) :
    futureHits C a1 k1 r ≤ C.method.nsize := by
  unfold futureHits
  calc (List.range C.method.nsize).countP _ ≤
      (List.range C.method.nsize).length := List.countP_le_length _
    _ = C.method.nsize := List.length_range _

/-- Expected hits are antitone in the coverage. -/
theorem fh_mono (C : Ctx) (a1 k1 r r' : R) (h : r ≤ r') :
    futureHits C a1 k1 r' ≤ futureHits C a1 k1 r := by
  unfold futureHits
  refine cp_le _ _ _ ?_
  intro n _ hp
  rw [decide_eq_true_eq] at hp ⊢
  linarith

/-- No hits are expected once the coverage passes every nodal point. -/
theorem fh_zero (C : Ctx) (a1 k1 r : R)
    (h : ∀ n, n < C.method.nsize → a1 + k1 * C.method.npoint n ≤ r) :
    futureHits C a1 k1 r = 0 := by
  unfold futureHits
  refine cp_zero _ _ ?_
  intro n hn
  rw [decide_eq_false_iff_not, not_lt]
  exact h n (List.mem_range.mp hn)

/-- No hits are expected once the coverage reaches the element end. -/
theorem fh_zero_of_end (C : Ctx) (D : DepSane C) (a1 k1 r : R)
    (hk : 0 ≤ k1) (h : a1 + k1 ≤ r) : futureHits C a1 k1 r = 0 := by
  refine fh_zero C a1 k1 r ?_
  intro n hn
  have h2 := D.hnp2 n hn
  have : k1 * C.method.npoint n ≤ k1 * 1 :=
    mul_le_mul_of_nonneg_left h2 hk
  linarith

/-- All hits are expected while the coverage has not passed the element
start. -/
theorem fh_full (C : Ctx) (D : DepSane C) (a1 k1 r : R)
    (hk : 0 < k1) (h : r ≤ a1) : futureHits C a1 k1 r = C.method.nsize := by
  unfold futureHits
  have hpt : ∀ n ∈ List.range C.method.nsize,
      (fun n => decide (r < a1 + k1 * C.method.npoint n)) n = true := by
    intro n hn
    rw [decide_eq_true_eq]
    have h1 := D.hnp1 n (List.mem_range.mp hn)
    have : 0 < k1 * C.method.npoint n := mul_pos hk h1
    linarith
  rw [cp_full _ _ hpt, List.length_range]

/-- Advancing the coverage splits the expected hits into the hits of the
covered stretch and the remaining expectation. -/
theorem fh_split (C : Ctx) (D : DepSane C) (a1 k1 r r' : R) (h : r ≤ r') :
    futureHits C a1 k1 r = futureHits C a1 k1 r' + nodalHits C a1 k1 r r' := by
  unfold futureHits nodalHits
  refine cp_split _ _ _ _ ?_ ?_
  · intro n _
    simp only [within, D.heps0, add_zero]
    by_cases h1 : r' < a1 + k1 * C.method.npoint n
    · have h3 : r < a1 + k1 * C.method.npoint n := lt_of_le_of_lt h h1
      simp [h1, h3]
    · by_cases h2 : r < a1 + k1 * C.method.npoint n
      · have h3 : a1 + k1 * C.method.npoint n ≤ r' := le_of_not_lt h1
        simp [h1, h2, h3]
      · simp [h1, h2]
  · intro n _
    simp only [within, D.heps0, add_zero, Bool.and_eq_true, decide_eq_true_eq]
    intro hcon
    linarith [hcon.1, hcon.2.2]

/-- `remHits` only depends on the element data and the reaches of the
dependencies. -/
theorem remHits_congr (C : Ctx) (A : R) (st st2 : Slab) (e1 : ℕ)
    (h1 : st2.ei e1 = st.ei e1) (h2 : st2.es e1 = st.es e1)
    (h3 : st2.sa (st.es e1) = st.sa (st.es e1))
    (h4 : st2.sb (st.es e1) = st.sb (st.es e1))
    (h5 : ∀ i0 ∈ C.ode.deps (st.ei e1), reach A st2 i0 = reach A st i0) :
    remHits C A st2 e1 = remHits C A st e1 := by
  unfold remHits
  rw [h1, h2, h3, h4]
  exact sumL_congr _ _ _ (fun i0 hi0 => by rw [h5 i0 hi0])

/-- The head phase of the dry run grows `ne` by the number of heads. -/
theorem dryPhase_ne (C : Ctx) (b2 : R) (offset endp : ℕ) (std : Slab) :
    (dryPhase C b2 offset endp std).ne = std.ne + (endp - offset) := by
  rw [show dryPhase C b2 offset endp std =
      (List.range' offset (endp - offset)).foldl (ndStep C)
        { (List.range' offset (endp - offset)).foldl (uStep C b2) std with
          ns := ((List.range' offset (endp - offset)).foldl
            (uStep C b2) std).ns + 1,
          ne := ((List.range' offset (endp - offset)).foldl
            (uStep C b2) std).ne + (endp - offset),
          nj := ((List.range' offset (endp - offset)).foldl
            (uStep C b2) std).nj + C.method.nsize * (endp - offset) } from rfl]
  rw [(ndFold_spec C (List.range' offset (endp - offset)) _).1]
  dsimp only
  rw [(uFold_spec C b2 (List.range' offset (endp - offset)) std).1]

/-- The dry counters never decrease along the recursion. -/
theorem dry_mono (C : Ctx) : ∀ fuel : ℕ,
    (∀ (st : Slab) (a b : R) (offset : ℕ),
      st.ne ≤ (computeDataSize C fuel st a b offset).2.ne) ∧
    (∀ (st : Slab) (t b : R) (endp : ℕ),
      st.ne ≤ (cdsLoop C fuel st t b endp).2.ne) := by
  intro fuel
  induction fuel with
  | zero =>
    constructor
    · intro st a b offset
      rw [computeDataSize_zero]
    · intro st t b endp
      rw [cdsLoop_zero]
      split <;> exact le_refl st.ne
  | succ f ih =>
    constructor
    · intro st a b offset
      rw [computeDataSize_succ2]
      dsimp only
      refine le_trans ?_ (ih.2 _ _ _ _)
      rw [dryPhase_ne]
      have h2 : (computeEndTime C st a b offset).2.2.ne = st.ne := rfl
      omega
    · intro st t b endp
      rw [cdsLoop_succ]
      split
      · exact le_trans (ih.1 st t b endp) (ih.2 _ _ _ _)
      · exact le_refl st.ne

/-- One term of a duplicate-free sum is bounded by the sum. -/
theorem sumL_term_le (g : ℕ → ℕ) (x : ℕ) : ∀ l : List ℕ,
    x ∈ l → g x ≤ sumL l g := by
  intro l
  induction l with
  | nil => intro hx; exact absurd hx (List.not_mem_nil x)
  | cons y ys ih =>
    intro hx
    rw [sumL_cons]
    rcases List.mem_cons.mp hx with h | h
    · subst h
      omega
    · have := ih h
      omega

/-- `find?` over a range returns the first satisfying entry. -/
theorem find_first (p : ℕ → Bool) : ∀ (len lo m : ℕ), lo ≤ m → m < lo + len →
    (∀ d, lo ≤ d → d < m → p d = false) → p m = true →
    (List.range' lo len).find? p = some m := by
  intro len
  induction len with
  | zero =>
    intro lo m h1 h2
    omega
  | succ k ih =>
    intro lo m h1 h2 hf hm
    rw [List.range'_succ]
    by_cases hlom : lo = m
    · subst hlom
      rw [List.find?_cons_of_pos _ hm]
    · have hplo : p lo = false := hf lo (le_refl lo) (by omega)
      rw [List.find?_cons_of_neg _ (by rw [hplo]; exact Bool.false_ne_true)]
      exact ih (lo + 1) m (by omega) (by omega)
        (fun d hd1 hd2 => hf d (by omega) hd2) hm

/-- `find?` over a range of failing entries returns nothing. -/
theorem find_none (p : ℕ → Bool) : ∀ (len lo : ℕ),
    (∀ d, lo ≤ d → d < lo + len → p d = false) →
    (List.range' lo len).find? p = none := by
  intro len
  induction len with
  | zero => intro lo _; rfl
  | succ k ih =>
    intro lo hf
    rw [List.range'_succ]
    rw [List.find?_cons_of_neg _ (by
      rw [hf lo (le_refl lo) (by omega)]
      exact Bool.false_ne_true)]
    exact ih (lo + 1) (fun d hd1 hd2 => hf d (by omega) (by omega))

/-- On a prefix-filled range, `findSlot` returns exactly the first free
slot, or nothing when the range is full. -/
theorem findSlot_split (de : ℕ → Int) (lo hi m : ℕ)
    (h1 : lo ≤ m) (h2 : m ≤ hi)
    (hfill : ∀ d, lo ≤ d → d < m → de d ≠ -1)
    (hfree : ∀ d, m ≤ d → d < hi → de d = -1) :
    findSlot de lo hi = if m < hi then some m else none := by
  unfold findSlot
  by_cases hm : m < hi
  · rw [if_pos hm]
    refine find_first _ (hi - lo) lo m h1 (by omega) ?_ ?_
    · intro d hd1 hd2
      rw [decide_eq_false_iff_not]
      exact hfill d hd1 hd2
    · rw [decide_eq_true_eq]
      exact hfree m (le_refl m) hm
  · rw [if_neg hm]
    refine find_none _ (hi - lo) lo ?_
    intro d hd1 hd2
    rw [decide_eq_false_iff_not]
    exact hfill d hd1 (by omega)

/-- `depWrite` does not touch slots outside the target range. -/
theorem depWrite_outside (C : Ctx) (st : Slab) (e0 e1 : ℕ) (a0 b0 a1 k1 : R)
    (de : ℕ → Int) (d : ℕ) (h : d < st.ed e1 ∨ st.ed (e1 + 1) ≤ d) :
    depWrite C st e0 e1 a0 b0 a1 k1 de d = de d := by
  by_cases hc : depWrite C st e0 e1 a0 b0 a1 k1 de d = de d
  · exact hc
  · obtain ⟨_, hlo, hhi, -⟩ := depFold_spec C st e0 e1 a0 b0 a1 k1
      (List.range C.method.nsize) de d hc
    omega

/-- The nodal loop fills exactly the contained nodal points, extending
the written prefix of the target range and touching nothing else. -/
theorem depWrite_fill (C : Ctx) (st : Slab) (e0 e1 : ℕ) (a0 b0 a1 k1 : R) :
    ∀ (l : List ℕ) (de : ℕ → Int) (m : ℕ),
      st.ed e1 ≤ m →
      m + l.countP (fun n => within C (a1 + k1 * C.method.npoint n) a0 b0) ≤
        st.ed (e1 + 1) →
      (∀ d, st.ed e1 ≤ d → d < m → de d ≠ -1) →
      (∀ d, m ≤ d → d < st.ed (e1 + 1) → de d = -1) →
      (∀ d, st.ed e1 ≤ d →
        d < m + l.countP
          (fun n => within C (a1 + k1 * C.method.npoint n) a0 b0) →
        (l.foldl (depStep C st e0 e1 a0 b0 a1 k1) de) d ≠ -1) ∧
      (∀ d, m + l.countP
          (fun n => within C (a1 + k1 * C.method.npoint n) a0 b0) ≤ d →
        d < st.ed (e1 + 1) →
        (l.foldl (depStep C st e0 e1 a0 b0 a1 k1) de) d = -1) ∧
      (∀ d, d < st.ed e1 ∨ st.ed (e1 + 1) ≤ d →
        (l.foldl (depStep C st e0 e1 a0 b0 a1 k1) de) d = de d) := by
  intro l
  induction l with
  | nil =>
    intro de m hm1 hm2 hfill hfree
    rw [List.countP_nil] at hm2 ⊢
    exact ⟨fun d hd1 hd2 => hfill d hd1 (by omega),
      fun d hd1 hd2 => hfree d (by omega) hd2,
      fun d _ => rfl⟩
  | cons n ns ih =>
    intro de m hm1 hm2 hfill hfree
    rw [List.countP_cons] at hm2 ⊢
    rw [List.foldl_cons]
    by_cases hw : within C (a1 + k1 * C.method.npoint n) a0 b0 = true
    · rw [if_pos hw] at hm2 ⊢
      have hmhi : m < st.ed (e1 + 1) := by omega
      have hstep : depStep C st e0 e1 a0 b0 a1 k1 de n =
          Function.update de m (Int.ofNat e0) := by
        unfold depStep
        rw [if_pos hw, findSlot_split de (st.ed e1) (st.ed (e1 + 1)) m hm1
          (by omega) hfill hfree, if_pos hmhi]
      rw [hstep]
      have hfill2 : ∀ d, st.ed e1 ≤ d → d < m + 1 →
          Function.update de m (Int.ofNat e0) d ≠ -1 := by
        intro d hd1 hd2
        by_cases hdm : d = m
        · subst hdm
          rw [Function.update_same]
          rw [Int.ofNat_eq_natCast]
          omega
        · rw [Function.update_noteq hdm]
          exact hfill d hd1 (by omega)
      have hfree2 : ∀ d, m + 1 ≤ d → d < st.ed (e1 + 1) →
          Function.update de m (Int.ofNat e0) d = -1 := by
        intro d hd1 hd2
        rw [Function.update_noteq (by omega)]
        exact hfree d (by omega) hd2
      obtain ⟨c1, c2, c3⟩ := ih (Function.update de m (Int.ofNat e0)) (m + 1)
        (by omega) (by omega) hfill2 hfree2
      refine ⟨fun d hd1 hd2 => c1 d hd1 (by omega),
        fun d hd1 hd2 => c2 d (by omega) hd2, ?_⟩
      intro d hd
      rw [c3 d hd, Function.update_noteq (by omega)]
    · rw [if_neg hw] at hm2 ⊢
      have hstep : depStep C st e0 e1 a0 b0 a1 k1 de n = de := by
        unfold depStep
        rw [if_neg hw]
      rw [hstep]
      exact ih de m hm1 (by omega) hfill hfree

/-- `transpStep` ignores the state fields that `create_e` has modified
when it reaches `create_d`. -/
theorem transpStep_state_congr (C : Ctx) (st st2 : Slab) (e0 s0 : ℕ)
    (a0 b0 : R) (i1 : ℕ)
    (h1 : st2.elast i1 = st.elast i1) (h2 : st2.ed = st.ed)
    (h3 : st2.sa = st.sa) (h4 : st2.sb = st.sb)
    (h5 : st.elast i1 ≠ -1 →
      st2.es (st.elast i1).toNat = st.es (st.elast i1).toNat) :
    ∀ de, transpStep C st2 e0 s0 a0 b0 de i1 =
      transpStep C st e0 s0 a0 b0 de i1 := by
  intro de
  unfold transpStep
  rw [h1]
  by_cases hne : st.elast i1 = -1
  · rw [if_pos hne, if_pos hne]
  · rw [if_neg hne, if_neg hne, h5 hne, h3, h4]
    have hdw : ∀ (e1 : ℕ) (a1 k1 : R) (de2 : ℕ → Int),
        depWrite C st2 e0 e1 a0 b0 a1 k1 de2 =
          depWrite C st e0 e1 a0 b0 a1 k1 de2 := by
      intro e1 a1 k1 de2
      unfold depWrite
      apply List.foldl_ext
      intro acc n _
      unfold depStep
      rw [h2]
    by_cases hg : (within2 C a0 b0 (st.sa (st.es (st.elast i1).toNat))
        (st.sb (st.es (st.elast i1).toNat)) &&
        decide (s0 ≠ st.es (st.elast i1).toNat)) = true
    · rw [if_pos hg, if_pos hg, hdw]
    · rw [if_neg hg, if_neg hg]

/-- The `de` array produced by `create_e`, written as a fold of
`transpStep` over the intermediate state. -/
theorem create_e_de_raw (C : Ctx) (st : Slab) (i s : ℕ) (a b : R) :
    (create_e C st i s a b).de =
      (C.ode.transp i).foldl
        (transpStep C
          (create_j C
            { st with
              eNext := st.eNext + 1,
              ei := Function.update st.ei st.eNext i,
              es := Function.update st.es st.eNext s,
              ee := Function.update st.ee st.eNext (st.elast i) }
            i)
          st.eNext s a b) st.de := rfl

/-- The `de` array produced by `create_e`, as a fold of `transpStep`
over the original state: the modified fields are not read. -/
theorem create_e_de_eq (C : Ctx) (st : Slab) (i s : ℕ) (a b : R)
    (hv : ∀ i1 ∈ C.ode.transp i, st.elast i1 = -1 ∨
      ∃ e1n, e1n < st.eNext ∧ st.elast i1 = Int.ofNat e1n) :
    (create_e C st i s a b).de =
      (C.ode.transp i).foldl (transpStep C st st.eNext s a b) st.de := by
  rw [create_e_de_raw]
  apply List.foldl_ext
  intro acc i1 hi1
  refine transpStep_state_congr C st
    (create_j C
      { st with
        eNext := st.eNext + 1,
        ei := Function.update st.ei st.eNext i,
        es := Function.update st.es st.eNext s,
        ee := Function.update st.ee st.eNext (st.elast i) }
      i)
    st.eNext s a b i1 rfl rfl rfl rfl ?_ acc
  intro hne
  obtain ⟨e1n, he1, he2⟩ := (hv i1 hi1).resolve_left hne
  rw [he2, toNatOfNat]
  show Function.update st.es st.eNext s e1n = st.es e1n
  rw [Function.update_noteq (by omega)]

/-- A `transpStep` whose target range misses `[lo, hi)` cannot change
slots there. -/
theorem transpStep_nonint (C : Ctx) (st : Slab) (e0 s0 : ℕ) (a0 b0 : R)
    (i1 lo hi : ℕ)
    (hel : st.elast i1 = -1 ∨ ∃ e1n, st.elast i1 = Int.ofNat e1n)
    (h : ∀ e1n : ℕ, st.elast i1 = Int.ofNat e1n →
      within2 C a0 b0 (st.sa (st.es e1n)) (st.sb (st.es e1n)) = true →
      s0 ≠ st.es e1n →
      st.ed (e1n + 1) ≤ lo ∨ hi ≤ st.ed e1n) :
    ∀ (de2 : ℕ → Int) (d : ℕ), lo ≤ d → d < hi →
      transpStep C st e0 s0 a0 b0 de2 i1 d = de2 d := by
  intro de2 d hd1 hd2
  unfold transpStep
  by_cases hne : st.elast i1 = -1
  · rw [if_pos hne]
  · rw [if_neg hne]
    obtain ⟨e1n, he⟩ := hel.resolve_left hne
    have ht : (st.elast i1).toNat = e1n := by rw [he, toNatOfNat]
    by_cases hg : (within2 C a0 b0 (st.sa (st.es (st.elast i1).toNat))
        (st.sb (st.es (st.elast i1).toNat)) &&
        decide (s0 ≠ st.es (st.elast i1).toNat)) = true
    · rw [if_pos hg]
      rw [Bool.and_eq_true, decide_eq_true_eq, ht] at hg
      rw [ht]
      refine depWrite_outside C st e0 e1n a0 b0 _ _ de2 d ?_
      rcases h e1n he hg.1 hg.2 with hc | hc
      · omega
      · omega
    · rw [if_neg hg]

/-- A fold of non-interfering `transpStep`s leaves `[lo, hi)` alone. -/
theorem transpFold_skip (C : Ctx) (st : Slab) (e0 s0 : ℕ) (a0 b0 : R)
    (lo hi : ℕ) :
    ∀ (l : List ℕ) (de : ℕ → Int),
      (∀ i1 ∈ l, ∀ (de2 : ℕ → Int) (d : ℕ), lo ≤ d → d < hi →
        transpStep C st e0 s0 a0 b0 de2 i1 d = de2 d) →
      ∀ d, lo ≤ d → d < hi →
        (l.foldl (transpStep C st e0 s0 a0 b0) de) d = de d := by
  intro l
  induction l with
  | nil => intro de _ d _ _; rfl
  | cons x xs ih =>
    intro de hn d hd1 hd2
    rw [List.foldl_cons]
    rw [ih _ (fun i1 hi1 => hn i1 (List.mem_cons_of_mem x hi1)) d hd1 hd2]
    exact hn x (List.mem_cons_self x xs) de d hd1 hd2

/-- A fold of `transpStep`s with exactly one firing entry advances the
written prefix of the target range by the firing entry's hit count. -/
theorem transpFold_fire (C : Ctx) (st : Slab) (e0 s0 : ℕ) (a0 b0 : R)
    (e1 i1f delta : ℕ) :
    ∀ (l : List ℕ) (de : ℕ → Int) (m : ℕ),
      l.Nodup → i1f ∈ l →
      (∀ i1 ∈ l, i1 ≠ i1f → ∀ (de2 : ℕ → Int) (d : ℕ),
        st.ed e1 ≤ d → d < st.ed (e1 + 1) →
        transpStep C st e0 s0 a0 b0 de2 i1 d = de2 d) →
      (∀ (de2 : ℕ → Int) (m2 : ℕ), st.ed e1 ≤ m2 →
        m2 + delta ≤ st.ed (e1 + 1) →
        (∀ d, st.ed e1 ≤ d → d < m2 → de2 d ≠ -1) →
        (∀ d, m2 ≤ d → d < st.ed (e1 + 1) → de2 d = -1) →
        (∀ d, st.ed e1 ≤ d → d < m2 + delta →
          transpStep C st e0 s0 a0 b0 de2 i1f d ≠ -1) ∧
        (∀ d, m2 + delta ≤ d → d < st.ed (e1 + 1) →
          transpStep C st e0 s0 a0 b0 de2 i1f d = -1)) →
      st.ed e1 ≤ m → m + delta ≤ st.ed (e1 + 1) →
      (∀ d, st.ed e1 ≤ d → d < m → de d ≠ -1) →
      (∀ d, m ≤ d → d < st.ed (e1 + 1) → de d = -1) →
      (∀ d, st.ed e1 ≤ d → d < m + delta →
        (l.foldl (transpStep C st e0 s0 a0 b0) de) d ≠ -1) ∧
      (∀ d, m + delta ≤ d → d < st.ed (e1 + 1) →
        (l.foldl (transpStep C st e0 s0 a0 b0) de) d = -1) := by
  intro l
  induction l with
  | nil =>
    intro de m _ hmem
    exact absurd hmem (List.not_mem_nil i1f)
  | cons x xs ih =>
    intro de m hnd hmem hnon hfire hm1 hm2 hfill hfree
    rw [List.foldl_cons]
    by_cases hx : x = i1f
    · subst hx
      have hxs : x ∉ xs := (List.nodup_cons.mp hnd).1
      obtain ⟨s1, s2⟩ := hfire de m hm1 hm2 hfill hfree
      have hskip : ∀ d, st.ed e1 ≤ d → d < st.ed (e1 + 1) →
          (xs.foldl (transpStep C st e0 s0 a0 b0)
            (transpStep C st e0 s0 a0 b0 de x)) d =
          transpStep C st e0 s0 a0 b0 de x d := by
        refine transpFold_skip C st e0 s0 a0 b0 (st.ed e1) (st.ed (e1 + 1))
          xs _ ?_
        intro i1 hi1
        refine hnon i1 (List.mem_cons_of_mem x hi1) ?_
        intro hcon
        subst hcon
        exact hxs hi1
      constructor
      · intro d hd1 hd2
        rw [hskip d hd1 (by omega)]
        exact s1 d hd1 hd2
      · intro d hd1 hd2
        rw [hskip d (by omega) hd2]
        exact s2 d hd1 hd2
    · have hmem2 : i1f ∈ xs := by
        rcases List.mem_cons.mp hmem with h | h
        · exact absurd h.symm hx
        · exact h
      have hstep : ∀ d, st.ed e1 ≤ d → d < st.ed (e1 + 1) →
          transpStep C st e0 s0 a0 b0 de x d = de d :=
        hnon x (List.mem_cons_self x xs) hx de
      refine ih _ m (List.nodup_cons.mp hnd).2 hmem2
        (fun i1 hi1 => hnon i1 (List.mem_cons_of_mem x hi1)) hfire hm1 hm2
        ?_ ?_
      · intro d hd1 hd2
        rw [hstep d hd1 (by omega)]
        exact hfill d hd1 hd2
      · intro d hd1 hd2
        rw [hstep d (by omega) hd2]
        exact hfree d hd1 hd2

/-- Core transfer: creating an element for an uncovered head preserves
the dependency-range invariant of the previously established elements,
advancing each live containing target by exactly the hits of the new
element's tile. -/
theorem create_e_DeInv (C : Ctx) (A : R) (S : Sane C) (D : DepSane C)
    (st : Slab) (i0c pos : ℕ) (a0 b0 : R) (mOld : ℕ)
    (hiN : i0c < C.ode.N)
    (hsa : st.sa pos = a0) (hsb : st.sb pos = b0)
    (hab : a0 < b0)
    (hL : InvL C st) (hE : InvE C st)
    (hmOld : mOld ≤ st.eNext)
    (hcap : st.eNext + 1 ≤ st.ne)
    (hreach0 : reach A st i0c = a0)
    (hOldEs : ∀ e, e < mOld → st.es e ≠ pos)
    (hNewEs : ∀ e, mOld ≤ e → e < st.eNext → st.es e = pos)
    (hDe : DeInvUpTo C A st mOld)
    (hSup : Superseded C A st)
    (htri : ∀ i, i < C.ode.N →
      reach A st i ≤ a0 ∨
      (∃ en, en < st.eNext ∧ st.elast i = Int.ofNat en ∧
        st.sa (st.es en) ≤ a0 ∧ b0 ≤ st.sb (st.es en) ∧ st.es en ≠ pos) ∨
      (∃ en, en < st.eNext ∧ st.elast i = Int.ofNat en ∧ st.es en = pos)) :
    DeInvUpTo C A (create_e C st i0c pos a0 b0) mOld := by
  obtain ⟨hDeE, hPair⟩ := hDe
  have helv : ∀ i1, i1 < C.ode.N → st.elast i1 = -1 ∨
      ∃ e1n, e1n < st.eNext ∧ st.elast i1 = Int.ofNat e1n := by
    intro i1 h
    rcases hL i1 h with ⟨h1, -⟩ | ⟨e1n, p1, p2, -⟩
    · exact Or.inl h1
    · exact Or.inr ⟨e1n, p2, p1⟩
  have hvT : ∀ i1 ∈ C.ode.transp i0c, st.elast i1 = -1 ∨
      ∃ e1n, e1n < st.eNext ∧ st.elast i1 = Int.ofNat e1n :=
    fun i1 hi1 => helv i1 (D.htrn i0c hiN i1 hi1)
  have hdeF := create_e_de_eq C st i0c pos a0 b0 hvT
  have hsa2 : (create_e C st i0c pos a0 b0).sa = st.sa := create_e_sa _ _ _ _ _ _
  have hsb2 : (create_e C st i0c pos a0 b0).sb = st.sb := create_e_sb _ _ _ _ _ _
  have hed2 : (create_e C st i0c pos a0 b0).ed = st.ed := create_e_ed _ _ _ _ _ _
  have hdN2 : (create_e C st i0c pos a0 b0).dNext = st.dNext :=
    create_e_dNext _ _ _ _ _ _
  have hne2 : (create_e C st i0c pos a0 b0).ne = st.ne := create_e_ne _ _ _ _ _ _
  have hrs : reach A (create_e C st i0c pos a0 b0) i0c = b0 := by
    rw [create_e_reach_self]
    exact hsb
  have hrc : ∀ i0, i0 < C.ode.N → i0 ≠ i0c →
      reach A (create_e C st i0c pos a0 b0) i0 = reach A st i0 :=
    fun i0 h hne => create_e_reach_other C A st i0c pos a0 b0 i0 hne h hL
  have htarget : ∀ i1' ∈ C.ode.transp i0c, ∀ e1n : ℕ,
      st.elast i1' = Int.ofNat e1n → pos ≠ st.es e1n →
      e1n < mOld ∧ st.ei e1n = i1' := by
    intro i1' hi1' e1n he hs
    have hN : i1' < C.ode.N := D.htrn i0c hiN i1' hi1'
    rcases hL i1' hN with ⟨h1, -⟩ | ⟨eL', p1, p2, p3, -⟩
    · rw [h1] at he
      exact absurd he.symm (by rw [Int.ofNat_eq_natCast]; omega)
    · have heq : eL' = e1n := by
        rw [p1] at he
        exact Int.ofNat.inj he
      subst heq
      refine ⟨?_, p3⟩
      by_contra hcon
      exact hs (hNewEs eL' (by omega) p2).symm
  constructor
  case right =>
    intro e1 e2 h12 h2
    have h1' : rangeHi (create_e C st i0c pos a0 b0) e1 = rangeHi st e1 := by
      unfold rangeHi
      rw [hne2, hed2, hdN2]
    have h2' : (create_e C st i0c pos a0 b0).ed e2 = st.ed e2 := by
      rw [hed2]
    rw [h1', h2']
    exact hPair e1 e2 h12 h2
  case left =>
    intro e1 he1
    have he1e : e1 < st.eNext := by omega
    have hi1N : st.ei e1 < C.ode.N := (hE e1 he1e).1
    obtain ⟨w1, w2, w3, w4, w5, w6⟩ := hDeE e1 he1
    have hne1 : e1 + 1 < st.ne := by omega
    have hRHo : rangeHi st e1 = st.ed (e1 + 1) := by
      unfold rangeHi
      rw [if_pos hne1]
    have hRHn : rangeHi (create_e C st i0c pos a0 b0) e1 = st.ed (e1 + 1) := by
      unfold rangeHi
      rw [hne2, hed2, if_pos hne1]
    rw [hRHo] at w2 w3 w4 w5 w6
    have hei2 : (create_e C st i0c pos a0 b0).ei e1 = st.ei e1 := by
      rw [create_e_ei, Function.update_noteq (Nat.ne_of_lt he1e)]
    have hes2 : (create_e C st i0c pos a0 b0).es e1 = st.es e1 := by
      rw [create_e_es, Function.update_noteq (Nat.ne_of_lt he1e)]
    have hdepsN : ∀ i0 ∈ C.ode.deps (st.ei e1), i0 < C.ode.N :=
      S.hdep (st.ei e1) hi1N
    have hdisj : ∀ e1n, e1n < mOld → e1n ≠ e1 →
        st.ed (e1n + 1) ≤ st.ed e1 ∨ st.ed (e1 + 1) ≤ st.ed e1n := by
      intro e1n h1 h2
      rcases Nat.lt_or_ge e1n e1 with h | h
      · left
        have hp := hPair e1n e1 h he1
        rw [show rangeHi st e1n = st.ed (e1n + 1) from by
          unfold rangeHi
          rw [if_pos (by omega)]] at hp
        exact hp
      · right
        have hp := hPair e1 e1n (by omega) h1
        rw [hRHo] at hp
        exact hp
    have hskipIf : (∀ i1' ∈ C.ode.transp i0c, ∀ e1n : ℕ,
        st.elast i1' = Int.ofNat e1n →
        within2 C a0 b0 (st.sa (st.es e1n)) (st.sb (st.es e1n)) = true →
        pos ≠ st.es e1n → e1n ≠ e1) →
        ∀ d, st.ed e1 ≤ d → d < st.ed (e1 + 1) →
          (create_e C st i0c pos a0 b0).de d = st.de d := by
      intro hno d hd1 hd2
      rw [hdeF]
      refine transpFold_skip C st st.eNext pos a0 b0 (st.ed e1)
        (st.ed (e1 + 1)) _ st.de ?_ d hd1 hd2
      intro i1' hi1'
      refine transpStep_nonint C st st.eNext pos a0 b0 i1' _ _ ?_ ?_
      · rcases hvT i1' hi1' with h | ⟨e1n, _, h⟩
        · exact Or.inl h
        · exact Or.inr ⟨e1n, h⟩
      · intro e1n he hw hs
        obtain ⟨hmo, -⟩ := htarget i1' hi1' e1n he hs
        exact hdisj e1n hmo (hno i1' hi1' e1n he hw hs)
    have hremEq : (∀ i0 ∈ C.ode.deps (st.ei e1),
        futureHits C (st.sa (st.es e1)) (st.sb (st.es e1) - st.sa (st.es e1))
          (reach A (create_e C st i0c pos a0 b0) i0) =
        futureHits C (st.sa (st.es e1)) (st.sb (st.es e1) - st.sa (st.es e1))
          (reach A st i0)) →
        remHits C A (create_e C st i0c pos a0 b0) e1 = remHits C A st e1 := by
      intro hpt
      unfold remHits
      rw [hei2, hes2, hsa2, hsb2]
      exact sumL_congr _ _ _ hpt
    have hbuild : remHits C A (create_e C st i0c pos a0 b0) e1 =
          remHits C A st e1 →
        (∀ d, st.ed e1 ≤ d → d < st.ed (e1 + 1) →
          (create_e C st i0c pos a0 b0).de d = st.de d) →
        DeInvE C A (create_e C st i0c pos a0 b0) e1 := by
      intro hrem hun
      refine ⟨?_, ?_, ?_, ?_, ?_, ?_⟩
      · rw [hes2, hsa2, hsb2]
        exact w1
      · rw [hRHn, hed2]
        exact w2
      · rw [hRHn, hdN2]
        exact w3
      · rw [hRHn, hed2, hrem]
        exact w4
      · intro d hd1 hd2
        rw [hed2] at hd1
        rw [hRHn, hrem] at hd2
        rw [hun d hd1 (by omega)]
        exact w5 d hd1 hd2
      · intro d hd1 hd2
        rw [hRHn, hrem] at hd1
        rw [hRHn] at hd2
        rw [hun d (by omega) hd2]
        exact w6 d hd1 hd2
    by_cases hd : i0c ∈ C.ode.deps (st.ei e1)
    · have hT : st.ei e1 ∈ C.ode.transp i0c :=
        (D.hdual i0c (st.ei e1) hiN hi1N).mpr hd
      rcases hL (st.ei e1) hi1N with ⟨hnone, hno⟩ | ⟨eL, pL1, pL2, pL3, pL4, pL5⟩
      · exact absurd rfl (hno e1 he1e)
      by_cases hlive : eL = e1
      · have hlive2 : e1 = eL := hlive.symm
        subst hlive2
        rcases htri (st.ei e1) hi1N with hc1 | ⟨en, q1, q2, q3, q4, q5⟩ |
            ⟨en, q1, q2, q3⟩
        · have hri1 : reach A st (st.ei e1) = st.sb (st.es e1) := by
            unfold reach
            rw [pL1, if_neg (by rw [Int.ofNat_eq_natCast]; omega), toNatOfNat]
          rw [hri1] at hc1
          refine hbuild (hremEq ?_) (hskipIf ?_)
          · intro i0 hi0
            by_cases hi0c : i0 = i0c
            · subst hi0c
              rw [hrs, hreach0]
              have hz1 : futureHits C (st.sa (st.es e1))
                  (st.sb (st.es e1) - st.sa (st.es e1)) b0 = 0 :=
                fh_zero_of_end C D _ _ _ (by linarith) (by linarith)
              have hz2 : futureHits C (st.sa (st.es e1))
                  (st.sb (st.es e1) - st.sa (st.es e1)) a0 = 0 :=
                fh_zero_of_end C D _ _ _ (by linarith) (by linarith)
              rw [hz1, hz2]
            · exact congrArg _ (hrc i0 (hdepsN i0 hi0) hi0c)
          · intro i1' hi1' e1n he hw hs hcon
            subst hcon
            have hw2 : st.sa (st.es e1n) ≤ a0 ∧ b0 ≤ st.sb (st.es e1n) := by
              simpa [within2, D.heps0] using hw
            linarith [hw2.2]
        · have hen : en = e1 := by
            rw [pL1] at q2
            exact Int.ofNat.inj q2.symm
          subst hen
          have hterm : futureHits C (st.sa (st.es en))
              (st.sb (st.es en) - st.sa (st.es en)) (reach A st i0c) =
              futureHits C (st.sa (st.es en))
                (st.sb (st.es en) - st.sa (st.es en)) b0 +
              nodalHits C (st.sa (st.es en))
                (st.sb (st.es en) - st.sa (st.es en)) a0 b0 := by
            rw [hreach0]
            exact fh_split C D _ _ a0 b0 (le_of_lt hab)
          have htermle : futureHits C (st.sa (st.es en))
              (st.sb (st.es en) - st.sa (st.es en)) (reach A st i0c) ≤
              remHits C A st en := by
            unfold remHits
            exact sumL_term_le
              (fun i0 => futureHits C (st.sa (st.es en))
                (st.sb (st.es en) - st.sa (st.es en)) (reach A st i0))
              i0c (C.ode.deps (st.ei en)) hd
          have hw2 : within2 C a0 b0 (st.sa (st.es en)) (st.sb (st.es en)) =
              true := by
            simp only [within2, D.heps0, add_zero, sub_zero, Bool.and_eq_true,
              decide_eq_true_eq]
            exact ⟨q3, q4⟩
          have hg : (within2 C a0 b0 (st.sa (st.es en)) (st.sb (st.es en)) &&
              decide (pos ≠ st.es en)) = true := by
            rw [Bool.and_eq_true, decide_eq_true_eq]
            exact ⟨hw2, Ne.symm q5⟩
          have hstepEq : ∀ de2 : ℕ → Int,
              transpStep C st st.eNext pos a0 b0 de2 (st.ei en) =
              depWrite C st st.eNext en a0 b0 (st.sa (st.es en))
                (st.sb (st.es en) - st.sa (st.es en)) de2 := by
            intro de2
            unfold transpStep
            rw [if_neg (by
              rw [pL1, Int.ofNat_eq_natCast]
              omega)]
            have htn : (st.elast (st.ei en)).toNat = en := by
              rw [pL1, toNatOfNat]
            rw [htn, if_pos hg]
          have hfire : ∀ (de2 : ℕ → Int) (m2 : ℕ), st.ed en ≤ m2 →
              m2 + nodalHits C (st.sa (st.es en))
                (st.sb (st.es en) - st.sa (st.es en)) a0 b0 ≤
                st.ed (en + 1) →
              (∀ d, st.ed en ≤ d → d < m2 → de2 d ≠ -1) →
              (∀ d, m2 ≤ d → d < st.ed (en + 1) → de2 d = -1) →
              (∀ d, st.ed en ≤ d → d < m2 + nodalHits C (st.sa (st.es en))
                  (st.sb (st.es en) - st.sa (st.es en)) a0 b0 →
                transpStep C st st.eNext pos a0 b0 de2 (st.ei en) d ≠ -1) ∧
              (∀ d, m2 + nodalHits C (st.sa (st.es en))
                  (st.sb (st.es en) - st.sa (st.es en)) a0 b0 ≤ d →
                d < st.ed (en + 1) →
                transpStep C st st.eNext pos a0 b0 de2 (st.ei en) d = -1) := by
            intro de2 m2 ha hb hf1 hf2
            obtain ⟨c1, c2, c3⟩ := depWrite_fill C st st.eNext en a0 b0
              (st.sa (st.es en)) (st.sb (st.es en) - st.sa (st.es en))
              (List.range C.method.nsize) de2 m2 ha hb hf1 hf2
            constructor
            · intro d hd1 hd2
              rw [hstepEq de2]
              exact c1 d hd1 hd2
            · intro d hd1 hd2
              rw [hstepEq de2]
              exact c2 d hd1 hd2
          have hremNew : remHits C A (create_e C st i0c pos a0 b0) en +
              nodalHits C (st.sa (st.es en))
                (st.sb (st.es en) - st.sa (st.es en)) a0 b0 =
              remHits C A st en := by
            have hupd := sumL_update
              (fun i0 => futureHits C (st.sa (st.es en))
                (st.sb (st.es en) - st.sa (st.es en))
                (reach A (create_e C st i0c pos a0 b0) i0))
              (fun i0 => futureHits C (st.sa (st.es en))
                (st.sb (st.es en) - st.sa (st.es en)) (reach A st i0))
              i0c (C.ode.deps (st.ei en)) (D.hndd (st.ei en) hi1N) hd
              (fun i0 hi0 hne =>
                congrArg _ (hrc i0 (hdepsN i0 hi0) hne))
            have hnewterm : futureHits C (st.sa (st.es en))
                (st.sb (st.es en) - st.sa (st.es en))
                (reach A (create_e C st i0c pos a0 b0) i0c) =
                futureHits C (st.sa (st.es en))
                  (st.sb (st.es en) - st.sa (st.es en)) b0 := by
              rw [hrs]
            have hrw : remHits C A (create_e C st i0c pos a0 b0) en =
                sumL (C.ode.deps (st.ei en))
                  (fun i0 => futureHits C (st.sa (st.es en))
                    (st.sb (st.es en) - st.sa (st.es en))
                    (reach A (create_e C st i0c pos a0 b0) i0)) := by
              unfold remHits
              rw [hei2, hes2, hsa2, hsb2]
            have hrw2 : remHits C A st en =
                sumL (C.ode.deps (st.ei en))
                  (fun i0 => futureHits C (st.sa (st.es en))
                    (st.sb (st.es en) - st.sa (st.es en))
                    (reach A st i0)) := rfl
            rw [hrw, hrw2]
            rw [hrw2] at htermle
            simp only [hnewterm] at hupd
            omega
          refine ⟨?_, ?_, ?_, ?_, ?_, ?_⟩
          · rw [hes2, hsa2, hsb2]
            exact w1
          · rw [hRHn, hed2]
            exact w2
          · rw [hRHn, hdN2]
            exact w3
          · rw [hRHn, hed2]
            omega
          · intro d hd1 hd2
            rw [hed2] at hd1
            rw [hRHn] at hd2
            rw [hdeF]
            obtain ⟨f1, f2⟩ := transpFold_fire C st st.eNext pos a0 b0 en
              (st.ei en)
              (nodalHits C (st.sa (st.es en))
                (st.sb (st.es en) - st.sa (st.es en)) a0 b0)
              (C.ode.transp i0c) st.de
              (st.ed (en + 1) - remHits C A st en)
              (D.hndt i0c hiN) hT
              (fun i1' hi1' hne3 => by
                refine transpStep_nonint C st st.eNext pos a0 b0 i1' _ _ ?_ ?_
                · rcases hvT i1' hi1' with h | ⟨e1n, _, h⟩
                  · exact Or.inl h
                  · exact Or.inr ⟨e1n, h⟩
                · intro e1n he hw hs
                  obtain ⟨hmo, hcomp⟩ := htarget i1' hi1' e1n he hs
                  refine hdisj e1n hmo ?_
                  intro hcon
                  subst hcon
                  exact hne3 hcomp.symm)
              hfire (by omega) (by omega) w5 w6
            exact f1 d hd1 (by omega)
          · intro d hd1 hd2
            rw [hRHn] at hd1 hd2
            rw [hdeF]
            obtain ⟨f1, f2⟩ := transpFold_fire C st st.eNext pos a0 b0 en
              (st.ei en)
              (nodalHits C (st.sa (st.es en))
                (st.sb (st.es en) - st.sa (st.es en)) a0 b0)
              (C.ode.transp i0c) st.de
              (st.ed (en + 1) - remHits C A st en)
              (D.hndt i0c hiN) hT
              (fun i1' hi1' hne3 => by
                refine transpStep_nonint C st st.eNext pos a0 b0 i1' _ _ ?_ ?_
                · rcases hvT i1' hi1' with h | ⟨e1n, _, h⟩
                  · exact Or.inl h
                  · exact Or.inr ⟨e1n, h⟩
                · intro e1n he hw hs
                  obtain ⟨hmo, hcomp⟩ := htarget i1' hi1' e1n he hs
                  refine hdisj e1n hmo ?_
                  intro hcon
                  subst hcon
                  exact hne3 hcomp.symm)
              hfire (by omega) (by omega) w5 w6
            exact f2 d (by omega) hd2
        · have hen : en = e1 := by
            rw [pL1] at q2
            exact Int.ofNat.inj q2.symm
          exact absurd (hen ▸ q3) (hOldEs e1 he1)
      · have hnelast : st.elast (st.ei e1) ≠ Int.ofNat e1 := by
          rw [pL1]
          intro hcon
          exact hlive (Int.ofNat.inj hcon)
        have hsupE := hSup e1 he1e hnelast
        have hb1a0 : st.sb (st.es e1) ≤ a0 := by
          have hh := hsupE i0c hd
          rw [hreach0] at hh
          exact hh
        refine hbuild (hremEq ?_) (hskipIf ?_)
        · intro i0 hi0
          by_cases hi0c : i0 = i0c
          · subst hi0c
            rw [hrs, hreach0]
            have hz1 : futureHits C (st.sa (st.es e1))
                (st.sb (st.es e1) - st.sa (st.es e1)) b0 = 0 :=
              fh_zero_of_end C D _ _ _ (by linarith) (by linarith)
            have hz2 : futureHits C (st.sa (st.es e1))
                (st.sb (st.es e1) - st.sa (st.es e1)) a0 = 0 :=
              fh_zero_of_end C D _ _ _ (by linarith) (by linarith)
            rw [hz1, hz2]
          · exact congrArg _ (hrc i0 (hdepsN i0 hi0) hi0c)
        · intro i1' hi1' e1n he hw hs hcon
          subst hcon
          obtain ⟨-, hcomp⟩ := htarget i1' hi1' e1n he hs
          rw [← hcomp] at he
          exact hnelast he
    · refine hbuild (hremEq ?_) (hskipIf ?_)
      · intro i0 hi0
        have hne3 : i0 ≠ i0c := fun hcon => hd (hcon ▸ hi0)
        exact congrArg _ (hrc i0 (hdepsN i0 hi0) hne3)
      · intro i1' hi1' e1n he hw hs hcon
        subst hcon
        obtain ⟨-, hcomp⟩ := htarget i1' hi1' e1n he hs
        refine hd ?_
        rw [hcomp]
        exact (D.hdual i0c i1' hiN (D.htrn i0c hiN i1' hi1')).mp hi1'

/-- Creating an element for an uncovered head preserves the superseded
accounting: the newly superseded predecessor ends exactly at the new
tile's start, which no component's coverage precedes. -/
theorem create_e_Superseded (C : Ctx) (A : R) (S : Sane C)
    (st : Slab) (i0c pos : ℕ) (a0 b0 : R)
    (hiN : i0c < C.ode.N)
    (hab : a0 ≤ b0)
    (hsb : st.sb pos = b0)
    (hL : InvL C st) (hE : InvE C st)
    (hreach0 : reach A st i0c = a0)
    (hstart : ∀ i, i < C.ode.N → a0 ≤ reach A st i)
    (hSup : Superseded C A st) :
    Superseded C A (create_e C st i0c pos a0 b0) := by
  have hradv : ∀ i, i < C.ode.N →
      reach A st i ≤ reach A (create_e C st i0c pos a0 b0) i := by
    intro i hi
    by_cases hic : i = i0c
    · subst hic
      rw [create_e_reach_self, hsb, hreach0]
      exact hab
    · rw [create_e_reach_other C A st i0c pos a0 b0 i hic hi hL]
  intro e1 he1 hne i0 hi0
  rw [create_e_eNext] at he1
  by_cases heN : e1 = st.eNext
  · subst heN
    refine absurd ?_ hne
    rw [create_e_ei, Function.update_same, create_e_elast,
      Function.update_same]
  · have he1e : e1 < st.eNext := by omega
    have hei2 : (create_e C st i0c pos a0 b0).ei e1 = st.ei e1 := by
      rw [create_e_ei, Function.update_noteq heN]
    have hes2 : (create_e C st i0c pos a0 b0).es e1 = st.es e1 := by
      rw [create_e_es, Function.update_noteq heN]
    have hi1N : st.ei e1 < C.ode.N := (hE e1 he1e).1
    rw [hei2] at hi0
    have hi0N : i0 < C.ode.N := S.hdep (st.ei e1) hi1N i0 hi0
    rw [create_e_sb, hes2]
    by_cases hc : st.elast (st.ei e1) = Int.ofNat e1
    · by_cases hcomp : st.ei e1 = i0c
      · have hrl : reach A st (st.ei e1) = st.sb (st.es e1) := by
          unfold reach
          rw [hc, if_neg (by rw [Int.ofNat_eq_natCast]; omega), toNatOfNat]
        have hsbe : st.sb (st.es e1) = a0 := by
          rw [← hrl, hcomp, hreach0]
        rw [hsbe]
        exact le_trans (hstart i0 hi0N) (hradv i0 hi0N)
      · refine absurd ?_ hne
        rw [hei2, create_e_elast, Function.update_noteq hcomp, hc]
    · exact le_trans (hSup e1 he1e hc i0 hi0) (hradv i0 hi0N)

/-- Creating an element cannot write dependency slots at or past
`size_d.next`: all firing targets have ranges strictly below it. -/
theorem create_e_FreeTail (C : Ctx) (A : R) (D : DepSane C)
    (st : Slab) (i0c pos : ℕ) (a0 b0 : R) (mOld : ℕ)
    (hiN : i0c < C.ode.N)
    (hL : InvL C st)
    (hmOld : mOld ≤ st.eNext)
    (hcap : st.eNext + 1 ≤ st.ne)
    (hNewEs : ∀ e, mOld ≤ e → e < st.eNext → st.es e = pos)
    (hDe : DeInvUpTo C A st mOld)
    (hFree : ∀ d, st.dNext ≤ d → st.de d = -1) :
    ∀ d, st.dNext ≤ d → (create_e C st i0c pos a0 b0).de d = -1 := by
  obtain ⟨hDeE, hPair⟩ := hDe
  have hvT : ∀ i1 ∈ C.ode.transp i0c, st.elast i1 = -1 ∨
      ∃ e1n, e1n < st.eNext ∧ st.elast i1 = Int.ofNat e1n := by
    intro i1 hi1
    rcases hL i1 (D.htrn i0c hiN i1 hi1) with ⟨h1, -⟩ | ⟨e1n, p1, p2, -⟩
    · exact Or.inl h1
    · exact Or.inr ⟨e1n, p2, p1⟩
  have hdeF := create_e_de_eq C st i0c pos a0 b0 hvT
  have htarget : ∀ i1' ∈ C.ode.transp i0c, ∀ e1n : ℕ,
      st.elast i1' = Int.ofNat e1n → pos ≠ st.es e1n → e1n < mOld := by
    intro i1' hi1' e1n he hs
    rcases hL i1' (D.htrn i0c hiN i1' hi1') with ⟨h1, -⟩ | ⟨eL', p1, p2, -⟩
    · rw [h1] at he
      exact absurd he.symm (by rw [Int.ofNat_eq_natCast]; omega)
    · have heq : eL' = e1n := by
        rw [p1] at he
        exact Int.ofNat.inj he
      subst heq
      by_contra hcon
      exact hs (hNewEs eL' (by omega) p2).symm
  intro d hd
  rw [hdeF]
  have hskip : ((C.ode.transp i0c).foldl
      (transpStep C st st.eNext pos a0 b0) st.de) d = st.de d := by
    refine transpFold_skip C st st.eNext pos a0 b0 d (d + 1) _ st.de ?_ d
      (le_refl d) (by omega)
    intro i1' hi1'
    refine transpStep_nonint C st st.eNext pos a0 b0 i1' _ _ ?_ ?_
    · rcases hvT i1' hi1' with h | ⟨e1n, _, h⟩
      · exact Or.inl h
      · exact Or.inr ⟨e1n, h⟩
    · intro e1n he hw hs
      have hmo := htarget i1' hi1' e1n he hs
      left
      obtain ⟨-, -, w3, -⟩ := hDeE e1n hmo
      have hRH : rangeHi st e1n = st.ed (e1n + 1) := by
        unfold rangeHi
        rw [if_pos (by omega)]
      omega
  rw [hskip]
  exact hFree d hd

/-- The head loop of `create_s` preserves the dependency bookkeeping:
folding `create_e` over distinct uncovered heads keeps the range
invariant of the old elements, the superseded accounting, the free tail,
the sub-slab marking of old versus new elements, and the coverage
trichotomy. -/
theorem headFold_d (C : Ctx) (A : R) (S : Sane C) (D : DepSane C)
    (pos : ℕ) (a0 b0 : R) :
    ∀ (l : List ℕ) (st : Slab) (mOld : ℕ),
      l.Nodup → (∀ n ∈ l, n < C.part.size) →
      pos < st.sNext → st.sa pos = a0 → st.sb pos = b0 → a0 < b0 →
      InvL C st → InvE C st →
      st.eNext + l.length ≤ st.ne →
      (∀ n ∈ l, reach A st (C.part.index n) = a0) →
      (∀ i, i < C.ode.N → a0 ≤ reach A st i) →
      TriInv C A st pos a0 b0 →
      mOld ≤ st.eNext →
      (∀ e, e < mOld → st.es e ≠ pos) →
      (∀ e, mOld ≤ e → e < st.eNext → st.es e = pos) →
      DeInvUpTo C A st mOld →
      Superseded C A st →
      (∀ d, st.dNext ≤ d → st.de d = -1) →
      DeInvUpTo C A (l.foldl (headStep C pos a0 b0) st) mOld ∧
      Superseded C A (l.foldl (headStep C pos a0 b0) st) ∧
      (∀ d, (l.foldl (headStep C pos a0 b0) st).dNext ≤ d →
        (l.foldl (headStep C pos a0 b0) st).de d = -1) ∧
      (∀ e, e < mOld → (l.foldl (headStep C pos a0 b0) st).es e ≠ pos) ∧
      (∀ e, mOld ≤ e → e < (l.foldl (headStep C pos a0 b0) st).eNext →
        (l.foldl (headStep C pos a0 b0) st).es e = pos) ∧
      TriInv C A (l.foldl (headStep C pos a0 b0) st) pos a0 b0 ∧
      (∀ i, i < C.ode.N →
        a0 ≤ reach A (l.foldl (headStep C pos a0 b0) st) i) := by
  intro l
  induction l with
  | nil =>
    intro st mOld hnd hsz hpos hsa hsb hab hL hE hcap hheads hstart htri hm
      hOld hNew hDe hSup hFree
    exact ⟨hDe, hSup, hFree, hOld, hNew, htri, hstart⟩
  | cons n l ih =>
    intro st mOld hnd hsz hpos hsa hsb hab hL hE hcap hheads hstart htri hm
      hOld hNew hDe hSup hFree
    rw [List.foldl_cons]
    have hnN : C.part.index n < C.ode.N :=
      S.hidx n (hsz n (List.mem_cons_self n l))
    have hstep : headStep C pos a0 b0 st n =
        create_e C st (C.part.index n) pos a0 b0 := rfl
    rw [hstep]
    have hreach0 : reach A st (C.part.index n) = a0 :=
      hheads n (List.mem_cons_self n l)
    have hcap1 : st.eNext + 1 ≤ st.ne := by
      rw [List.length_cons] at hcap
      omega
    have hdistinct : ∀ m ∈ l, C.part.index m ≠ C.part.index n := by
      intro m hm hcon
      have := S.hinj m n (hsz m (List.mem_cons_of_mem n hm))
        (hsz n (List.mem_cons_self n l)) hcon
      subst this
      exact (List.nodup_cons.mp hnd).1 hm
    have hre2 : st.elast (C.part.index n) ≠ -1 →
        st.sb (st.es (st.elast (C.part.index n)).toNat) = st.sa pos := by
      intro hne
      have h := hreach0
      unfold reach at h
      rw [if_neg hne] at h
      rw [h, hsa]
    have hL2 : InvL C (create_e C st (C.part.index n) pos a0 b0) :=
      create_e_InvL C st (C.part.index n) pos a0 b0 hnN hpos hL
    have hE2 : InvE C (create_e C st (C.part.index n) pos a0 b0) :=
      create_e_InvE C st (C.part.index n) pos a0 b0 hnN hpos hre2 hL hE
    have hDe2 := create_e_DeInv C A S D st (C.part.index n) pos a0 b0 mOld
      hnN hsa hsb hab hL hE hm hcap1 hreach0 hOld hNew hDe hSup htri
    have hSup2 := create_e_Superseded C A S st (C.part.index n) pos a0 b0
      hnN (le_of_lt hab) hsb hL hE hreach0 hstart hSup
    have hFree2 : ∀ d, (create_e C st (C.part.index n) pos a0 b0).dNext ≤ d →
        (create_e C st (C.part.index n) pos a0 b0).de d = -1 := by
      intro d hd
      rw [create_e_dNext] at hd
      exact create_e_FreeTail C A D st (C.part.index n) pos a0 b0 mOld hnN
        hL hm hcap1 hNew hDe hFree d hd
    have hheads2 : ∀ m ∈ l,
        reach A (create_e C st (C.part.index n) pos a0 b0)
          (C.part.index m) = a0 := by
      intro m hm
      rw [create_e_reach_other C A st (C.part.index n) pos a0 b0
        (C.part.index m) (hdistinct m hm)
        (S.hidx m (hsz m (List.mem_cons_of_mem n hm))) hL]
      exact hheads m (List.mem_cons_of_mem n hm)
    have hstart2 : ∀ i, i < C.ode.N →
        a0 ≤ reach A (create_e C st (C.part.index n) pos a0 b0) i := by
      intro i hi
      by_cases hic : i = C.part.index n
      · subst hic
        rw [create_e_reach_self, hsb]
        exact le_of_lt hab
      · rw [create_e_reach_other C A st (C.part.index n) pos a0 b0 i hic hi hL]
        exact hstart i hi
    have htri2 : TriInv C A (create_e C st (C.part.index n) pos a0 b0)
        pos a0 b0 := by
      intro i hi
      by_cases hic : i = C.part.index n
      · subst hic
        right
        right
        refine ⟨st.eNext, ?_, ?_, ?_⟩
        · rw [create_e_eNext]
          omega
        · rw [create_e_elast, Function.update_same]
        · rw [create_e_es, Function.update_same]
      · rcases htri i hi with h1 | ⟨en, q1, q2, q3, q4, q5⟩ | ⟨en, q1, q2, q3⟩
        · left
          rw [create_e_reach_other C A st (C.part.index n) pos a0 b0 i hic
            hi hL]
          exact h1
        · right
          left
          refine ⟨en, ?_, ?_, ?_, ?_, ?_⟩
          · rw [create_e_eNext]
            omega
          · rw [create_e_elast, Function.update_noteq hic]
            exact q2
          · rw [create_e_sa, create_e_es,
              Function.update_noteq (Nat.ne_of_lt q1)]
            exact q3
          · rw [create_e_sb, create_e_es,
              Function.update_noteq (Nat.ne_of_lt q1)]
            exact q4
          · rw [create_e_es, Function.update_noteq (Nat.ne_of_lt q1)]
            exact q5
        · right
          right
          refine ⟨en, ?_, ?_, ?_⟩
          · rw [create_e_eNext]
            omega
          · rw [create_e_elast, Function.update_noteq hic]
            exact q2
          · rw [create_e_es, Function.update_noteq (Nat.ne_of_lt q1)]
            exact q3
    have hOld2 : ∀ e, e < mOld →
        (create_e C st (C.part.index n) pos a0 b0).es e ≠ pos := by
      intro e he
      rw [create_e_es, Function.update_noteq (by omega : e ≠ st.eNext)]
      exact hOld e he
    have hNew2 : ∀ e, mOld ≤ e →
        e < (create_e C st (C.part.index n) pos a0 b0).eNext →
        (create_e C st (C.part.index n) pos a0 b0).es e = pos := by
      intro e h1 h2
      rw [create_e_eNext] at h2
      rw [create_e_es]
      by_cases heq : e = st.eNext
      · subst heq
        rw [Function.update_same]
      · rw [Function.update_noteq heq]
        exact hNew e h1 (by omega)
    exact ih (create_e C st (C.part.index n) pos a0 b0) mOld
      (List.nodup_cons.mp hnd).2
      (fun m hm => hsz m (List.mem_cons_of_mem n hm))
      (by rw [create_e_sNext]; exact hpos)
      (by rw [create_e_sa]; exact hsa)
      (by rw [create_e_sb]; exact hsb)
      hab hL2 hE2
      (by
        rw [create_e_eNext, create_e_ne]
        rw [List.length_cons] at hcap
        omega)
      hheads2 hstart2 htri2
      (by rw [create_e_eNext]; omega)
      hOld2 hNew2 hDe2 hSup2 hFree2

/-- The `ed` loop never touches the dependency array. -/
theorem edLoopStep_de (C : Ctx) (b0 : R) (st : Slab) (n : ℕ) :
    (edLoopStep C b0 st n).de = st.de := by
  unfold edLoopStep
  dsimp only
  split <;> split <;> rfl

/-- The `ed` writes of one `ed`-loop step, for a head whose element is
known: other positions are untouched, a first element writes the range
base `0`, and a non-final element records the advanced counter at the
next position. -/
theorem edLoopStep_ed (C : Ctx) (b0 : R) (st : Slab) (n e : ℕ)
    (hel : st.elast (C.part.index n) = Int.ofNat e) :
    (∀ p, (e = 0 → p ≠ 0) → p ≠ e + 1 →
      (edLoopStep C b0 st n).ed p = st.ed p) ∧
    (e = 0 → (edLoopStep C b0 st n).ed 0 = 0) ∧
    (e + 1 < st.ne → (edLoopStep C b0 st n).ed (e + 1) =
      st.dNext + countDepCreate C st (C.part.index n) b0) := by
  have ht : (Int.ofNat e + 1).toNat = e + 1 := by
    rw [Int.ofNat_eq_natCast]
    omega
  unfold edLoopStep
  dsimp only
  rw [hel]
  by_cases h0 : e = 0
  · rw [if_pos (show Int.ofNat e = 0 from by rw [Int.ofNat_eq_natCast]; omega)]
    by_cases h1 : e + 1 < st.ne
    · rw [if_pos (show Int.ofNat e < (st.ne : Int) - 1 from by
        rw [Int.ofNat_eq_natCast]; omega)]
      dsimp only
      rw [ht]
      refine ⟨?_, ?_, ?_⟩
      · intro p hp0 hp1
        rw [Function.update_noteq hp1, Function.update_noteq (hp0 h0)]
      · intro _
        rw [Function.update_noteq (by omega), Function.update_same]
      · intro _
        rw [Function.update_same]
    · rw [if_neg (show ¬(Int.ofNat e < (st.ne : Int) - 1) from by
        rw [Int.ofNat_eq_natCast]; omega)]
      dsimp only
      refine ⟨?_, ?_, ?_⟩
      · intro p hp0 _
        rw [Function.update_noteq (hp0 h0)]
      · intro _
        rw [Function.update_same]
      · intro hcon
        exact absurd hcon h1
  · rw [if_neg (show ¬(Int.ofNat e = 0) from by
      rw [Int.ofNat_eq_natCast]; omega)]
    by_cases h1 : e + 1 < st.ne
    · rw [if_pos (show Int.ofNat e < (st.ne : Int) - 1 from by
        rw [Int.ofNat_eq_natCast]; omega)]
      dsimp only
      rw [ht]
      refine ⟨?_, ?_, ?_⟩
      · intro p _ hp1
        rw [Function.update_noteq hp1]
      · intro hcon
        exact absurd hcon h0
      · intro _
        rw [Function.update_same]
    · rw [if_neg (show ¬(Int.ofNat e < (st.ne : Int) - 1) from by
        rw [Int.ofNat_eq_natCast]; omega)]
      dsimp only
      refine ⟨fun p _ _ => rfl, fun hcon => absurd hcon h0,
        fun hcon => absurd hcon h1⟩

/-- One `ed`-loop step sizes the range of a newly created element: the
range starts at the primed counter, spans exactly the creation-time
dependency count, which equals the element's expected hits, and is
entirely free; old ranges and the free tail are untouched and the primer
moves to the next element. -/
theorem edLoopStep_d (C : Ctx) (A : R) (st : Slab) (n e pos : ℕ)
    (a0 b0 : R)
    (hel : st.elast (C.part.index n) = Int.ofNat e)
    (hes : st.es e = pos)
    (hsa : st.sa pos = a0) (hsb : st.sb pos = b0) (hab : a0 < b0)
    (hcnt : remHits C A st e = countDepCreate C st (C.part.index n) b0)
    (he : e < st.eNext) (hcap : st.eNext ≤ st.ne)
    (hDe : DeInvUpTo C A st e)
    (hFree : ∀ d, st.dNext ≤ d → st.de d = -1)
    (hpr1 : 0 < e → st.ed e = st.dNext)
    (hpr0 : e = 0 → st.dNext = 0) :
    DeInvUpTo C A (edLoopStep C b0 st n) (e + 1) ∧
    (∀ d, (edLoopStep C b0 st n).dNext ≤ d →
      (edLoopStep C b0 st n).de d = -1) ∧
    (e + 1 < st.ne → (edLoopStep C b0 st n).ed (e + 1) =
      (edLoopStep C b0 st n).dNext) := by
  obtain ⟨hDeE, hPair⟩ := hDe
  obtain ⟨f1, f2, f3, f4, f5, f6, f7, f8, f9, f10, f11, f12, f13, f14, f15,
    f16, f17⟩ := edLoopStep_fields C b0 st n
  obtain ⟨c2, c3, c4⟩ := edLoopStep_ed C b0 st n e hel
  have hde2 := edLoopStep_de C b0 st n
  have hrc : ∀ i0, reach A (edLoopStep C b0 st n) i0 = reach A st i0 :=
    fun i0 => reach_congr A st (edLoopStep C b0 st n) i0 f10 f8 f6
  have hrem : ∀ e1, (edLoopStep C b0 st n).ei e1 = st.ei e1 →
      remHits C A (edLoopStep C b0 st n) e1 = remHits C A st e1 := by
    intro e1 h1
    refine remHits_congr C A st (edLoopStep C b0 st n) e1 h1 ?_ ?_ ?_ ?_
    · rw [f8]
    · rw [f5]
    · rw [f6]
    · intro i0 _
      exact hrc i0
  have hedlo : (edLoopStep C b0 st n).ed e = st.dNext := by
    by_cases h0 : e = 0
    · subst h0
      rw [c3 rfl, hpr0 rfl]
    · rw [c2 e (fun hcon => absurd hcon h0) (by omega)]
      exact hpr1 (by omega)
  have hedold : ∀ p, p ≤ e → 0 < p → (edLoopStep C b0 st n).ed p = st.ed p := by
    intro p h1 h2
    exact c2 p (fun h0 => by omega) (by omega)
  have hRHe : rangeHi (edLoopStep C b0 st n) e =
      st.dNext + countDepCreate C st (C.part.index n) b0 := by
    unfold rangeHi
    rw [f12]
    by_cases h1 : e + 1 < st.ne
    · rw [if_pos h1, c4 h1]
    · rw [if_neg h1, f1]
  have hRHold : ∀ e1, e1 < e → rangeHi (edLoopStep C b0 st n) e1 =
      rangeHi st e1 ∧ rangeHi st e1 = st.ed (e1 + 1) := by
    intro e1 h1
    have h2 : e1 + 1 < st.ne := by omega
    unfold rangeHi
    rw [f12, if_pos h2, if_pos h2]
    exact ⟨hedold (e1 + 1) (by omega) (by omega), rfl⟩
  refine ⟨⟨?_, ?_⟩, ?_, ?_⟩
  · intro e1 he1
    by_cases hcase : e1 = e
    · subst hcase
      refine ⟨?_, ?_, ?_, ?_, ?_, ?_⟩
      · rw [f8, f5, f6, hes, hsa, hsb]
        exact hab
      · rw [hRHe, hedlo]
        omega
      · rw [hRHe, f1]
      · rw [hRHe, hedlo, hrem e1 (by rw [f7]), hcnt]
        omega
      · intro d hd1 hd2
        rw [hRHe, hrem e1 (by rw [f7]), hcnt] at hd2
        rw [hedlo] at hd1
        omega
      · intro d hd1 hd2
        rw [hRHe] at hd2
        rw [hRHe, hrem e1 (by rw [f7]), hcnt] at hd1
        rw [hde2]
        exact hFree d (by omega)
    · have h1 : e1 < e := by omega
      obtain ⟨w1, w2, w3, w4, w5, w6⟩ := hDeE e1 h1
      obtain ⟨r1, r2⟩ := hRHold e1 h1
      rw [r2] at w2 w3 w4 w5 w6
      have hed1 : (edLoopStep C b0 st n).ed e1 = st.ed e1 := by
        by_cases h0 : e1 = 0
        · subst h0
          rw [c2 0 (fun hcon => by omega) (by omega)]
        · exact hedold e1 (by omega) (by omega)
      refine ⟨?_, ?_, ?_, ?_, ?_, ?_⟩
      · rw [f8, f5, f6]
        exact w1
      · rw [r1, r2, hed1]
        exact w2
      · rw [r1, r2, f1]
        omega
      · rw [r1, r2, hed1, hrem e1 (by rw [f7])]
        exact w4
      · intro d hd1 hd2
        rw [hed1] at hd1
        rw [r1, r2, hrem e1 (by rw [f7])] at hd2
        rw [hde2]
        exact w5 d hd1 hd2
      · intro d hd1 hd2
        rw [r1, r2, hrem e1 (by rw [f7])] at hd1
        rw [r1, r2] at hd2
        rw [hde2]
        exact w6 d hd1 hd2
  · intro e1 e2 h12 h2
    by_cases hcase : e2 = e
    · subst hcase
      obtain ⟨r1, r2⟩ := hRHold e1 h12
      rw [r1, r2, hedlo]
      obtain ⟨-, -, w3, -⟩ := hDeE e1 h12
      rw [r2] at w3
      exact w3
    · have h2e : e2 < e := by omega
      obtain ⟨r1, r2⟩ := hRHold e1 (by omega)
      rw [r1, r2]
      have hed2 : (edLoopStep C b0 st n).ed e2 = st.ed e2 := by
        exact hedold e2 (by omega) (by omega)
      rw [hed2]
      have hp := hPair e1 e2 h12 h2e
      rw [show rangeHi st e1 = st.ed (e1 + 1) from r2] at hp
      exact hp
  · intro d hd
    rw [f1] at hd
    rw [hde2]
    exact hFree d (by omega)
  · intro h1
    rw [c4 h1, f1]

/-- The head loop numbers its elements consecutively: the `j`-th head of
the list receives element `eNext + j`, in the current sub-slab, and its
component's `elast` points there afterwards. -/
theorem headFold_pos (C : Ctx) (A : R) (S : Sane C) (pos : ℕ) (a0 b0 : R) :
    ∀ (l : List ℕ) (st : Slab),
      l.Nodup → (∀ n ∈ l, n < C.part.size) →
      pos < st.sNext → st.sb pos = b0 → InvL C st →
      ∀ j : ℕ, ∀ hj : j < l.length,
        (l.foldl (headStep C pos a0 b0) st).elast
          (C.part.index (l.get ⟨j, hj⟩)) = Int.ofNat (st.eNext + j) ∧
        (l.foldl (headStep C pos a0 b0) st).ei (st.eNext + j) =
          C.part.index (l.get ⟨j, hj⟩) ∧
        (l.foldl (headStep C pos a0 b0) st).es (st.eNext + j) = pos := by
  intro l
  induction l with
  | nil =>
    intro st _ _ _ _ _ j hj
    exact absurd hj (Nat.not_lt_zero j)
  | cons n l ih =>
    intro st hnd hsz hpos hsb hL j hj
    rw [List.foldl_cons]
    have hstep : headStep C pos a0 b0 st n =
        create_e C st (C.part.index n) pos a0 b0 := rfl
    have hnN : C.part.index n < C.ode.N :=
      S.hidx n (hsz n (List.mem_cons_self n l))
    have hL2 : InvL C (headStep C pos a0 b0 st n) := by
      rw [hstep]
      exact create_e_InvL C st (C.part.index n) pos a0 b0 hnN hpos hL
    have hpos2 : pos < (headStep C pos a0 b0 st n).sNext := by
      rw [hstep, create_e_sNext]
      exact hpos
    have hsb2 : (headStep C pos a0 b0 st n).sb pos = b0 := by
      rw [hstep, create_e_sb]
      exact hsb
    cases j with
    | zero =>
      obtain ⟨g1, g2, g3, g4, g5, g6, g7, g8, g9, g10, g11, g12, g13, g14,
        g15, g16, g17, g18, g19, g20⟩ :=
        headFold_spec C A S pos a0 b0 l (headStep C pos a0 b0 st n)
          (List.nodup_cons.mp hnd).2
          (fun m hm => hsz m (List.mem_cons_of_mem n hm)) hpos2 hsb2 hL2
      have hdistinct : ∀ m ∈ l, C.part.index m ≠ C.part.index n := by
        intro m hm hcon
        have := S.hinj m n (hsz m (List.mem_cons_of_mem n hm))
          (hsz n (List.mem_cons_self n l)) hcon
        subst this
        exact (List.nodup_cons.mp hnd).1 hm
      obtain ⟨k1, k2, k3⟩ := g15 st.eNext
        (by rw [hstep, create_e_eNext]; omega)
      refine ⟨?_, ?_, ?_⟩
      · show (l.foldl (headStep C pos a0 b0) (headStep C pos a0 b0 st n)).elast
          (C.part.index n) = Int.ofNat st.eNext
        rw [g16 (C.part.index n) hdistinct, hstep, create_e_elast,
          Function.update_same]
      · show (l.foldl (headStep C pos a0 b0) (headStep C pos a0 b0 st n)).ei
          st.eNext = C.part.index n
        rw [k1, hstep, create_e_ei, Function.update_same]
      · show (l.foldl (headStep C pos a0 b0) (headStep C pos a0 b0 st n)).es
          st.eNext = pos
        rw [k2, hstep, create_e_es, Function.update_same]
    | succ k =>
      have hk : k < l.length := by
        rw [List.length_cons] at hj
        omega
      obtain ⟨c1, c2, c3⟩ := ih (headStep C pos a0 b0 st n)
        (List.nodup_cons.mp hnd).2
        (fun m hm => hsz m (List.mem_cons_of_mem n hm)) hpos2 hsb2 hL2 k hk
      have harith : st.eNext + (k + 1) =
          (headStep C pos a0 b0 st n).eNext + k := by
        rw [hstep, create_e_eNext]
        omega
      refine ⟨?_, ?_, ?_⟩
      · rw [harith]
        exact c1
      · rw [harith]
        exact c2
      · rw [harith]
        exact c3

/-- The creation-time dependency count as a sum of its per-dependency
terms. -/
theorem countDepCreate_sumL (C : Ctx) (st : Slab) (i0 : ℕ) (b0 : R) :
    countDepCreate C st i0 b0 = sumL (C.ode.deps i0) (cdcTerm C st b0) := by
  unfold countDepCreate sumL
  apply List.foldl_ext
  intro acc i1 _
  show (if st.elast i1 = -1 then acc + C.method.nsize
    else if st.sb (st.es (st.elast i1).toNat) < b0 - C.eps then
      acc + C.method.nsize
    else acc) = acc + cdcTerm C st b0 i1
  unfold cdcTerm
  by_cases h1 : st.elast i1 = -1
  · rw [if_pos h1, if_pos h1]
  · rw [if_neg h1, if_neg h1]
    by_cases h2 : st.sb (st.es (st.elast i1).toNat) < b0 - C.eps
    · rw [if_pos h2, if_pos h2]
    · rw [if_neg h2, if_neg h2]
      omega

/-- After the head loop, the creation-time dependency count of a new
element's component equals the hits the element still expects: every
dependency is then either unstarted or covered to one side of the new
tile, and the two counting rules agree side by side. -/
theorem remHits_eq_countDep (C : Ctx) (A : R) (D : DepSane C) (stf : Slab)
    (e i0 : ℕ) (a0 b0 : R)
    (hA : A ≤ a0) (hab : a0 < b0)
    (hei : stf.ei e = i0)
    (ha : stf.sa (stf.es e) = a0) (hb : stf.sb (stf.es e) = b0)
    (hshape : ∀ i1 ∈ C.ode.deps i0, stf.elast i1 = -1 ∨
      ∃ en, stf.elast i1 = Int.ofNat en ∧
        (stf.sb (stf.es en) ≤ a0 ∨ b0 ≤ stf.sb (stf.es en))) :
    remHits C A stf e = countDepCreate C stf i0 b0 := by
  rw [countDepCreate_sumL]
  unfold remHits
  simp only [hei, ha, hb]
  refine sumL_congr _ _ _ ?_
  intro i1 hi1
  rcases hshape i1 hi1 with h1 | ⟨en, h2, h3⟩
  · unfold cdcTerm
    rw [if_pos h1]
    have hr : reach A stf i1 = A := by
      unfold reach
      rw [if_pos h1]
    rw [hr]
    exact fh_full C D a0 (b0 - a0) A (by linarith) (by linarith)
  · unfold cdcTerm
    rw [if_neg (by rw [h2, Int.ofNat_eq_natCast]; omega)]
    have htn : (stf.elast i1).toNat = en := by
      rw [h2, toNatOfNat]
    rw [htn]
    have hr : reach A stf i1 = stf.sb (stf.es en) := by
      unfold reach
      rw [h2, if_neg (by rw [Int.ofNat_eq_natCast]; omega), toNatOfNat]
    rw [hr]
    rcases h3 with h3 | h3
    · rw [if_pos (by rw [D.heps0]; linarith)]
      exact fh_full C D a0 (b0 - a0) _ (by linarith) (by linarith)
    · rw [if_neg (by rw [D.heps0, sub_zero]; exact not_lt.mpr h3)]
      exact fh_zero_of_end C D a0 (b0 - a0) _ (by linarith) (by linarith)

/-- The `ed` loop of `create_s` establishes the range invariant of the
new elements: walking the heads in creation order, each iteration sizes
one element's range to exactly its expected hits, keeping old ranges,
the free tail and the primer intact. -/
theorem edFold_d (C : Ctx) (A : R) (pos : ℕ) (a0 b0 : R) :
    ∀ (l : List ℕ) (st : Slab) (e : ℕ),
      (∀ j : ℕ, ∀ hj : j < l.length,
        st.elast (C.part.index (l.get ⟨j, hj⟩)) = Int.ofNat (e + j) ∧
        st.es (e + j) = pos ∧
        remHits C A st (e + j) =
          countDepCreate C st (C.part.index (l.get ⟨j, hj⟩)) b0) →
      st.sa pos = a0 → st.sb pos = b0 → a0 < b0 →
      e + l.length = st.eNext → st.eNext ≤ st.ne →
      DeInvUpTo C A st e →
      (∀ d, st.dNext ≤ d → st.de d = -1) →
      (0 < e → e < st.ne → st.ed e = st.dNext) →
      (e = 0 → st.dNext = 0) →
      DeInvUpTo C A (l.foldl (edLoopStep C b0) st) (e + l.length) ∧
      (∀ d, (l.foldl (edLoopStep C b0) st).dNext ≤ d →
        (l.foldl (edLoopStep C b0) st).de d = -1) ∧
      (0 < e + l.length → e + l.length < st.ne →
        (l.foldl (edLoopStep C b0) st).ed (e + l.length) =
          (l.foldl (edLoopStep C b0) st).dNext) ∧
      (e + l.length = 0 → (l.foldl (edLoopStep C b0) st).dNext = 0) := by
  intro l
  induction l with
  | nil =>
    intro st e hposf hsa hsb hab hlen hcap hDe hFree hpr1 hpr0
    exact ⟨hDe, hFree, hpr1, hpr0⟩
  | cons n l ih =>
    intro st e hposf hsa hsb hab hlen hcap hDe hFree hpr1 hpr0
    rw [List.foldl_cons]
    have hlen1 : e < st.eNext := by
      rw [List.length_cons] at hlen
      omega
    obtain ⟨q1, q2, q3⟩ := hposf 0 (by rw [List.length_cons]; omega)
    obtain ⟨hD1, hF1, hP1⟩ := edLoopStep_d C A st n e pos a0 b0 q1 q2 hsa hsb
      hab q3 hlen1 hcap hDe hFree (fun h0 => hpr1 h0 (by omega)) hpr0
    obtain ⟨f1, f2, f3, f4, f5, f6, f7, f8, f9, f10, f11, f12, f13, f14, f15,
      f16, f17⟩ := edLoopStep_fields C b0 st n
    have hposf2 : ∀ j : ℕ, ∀ hj : j < l.length,
        (edLoopStep C b0 st n).elast (C.part.index (l.get ⟨j, hj⟩)) =
          Int.ofNat (e + 1 + j) ∧
        (edLoopStep C b0 st n).es (e + 1 + j) = pos ∧
        remHits C A (edLoopStep C b0 st n) (e + 1 + j) =
          countDepCreate C (edLoopStep C b0 st n)
            (C.part.index (l.get ⟨j, hj⟩)) b0 := by
      intro j hj
      have hj2 : j + 1 < (n :: l).length := by
        rw [List.length_cons]
        omega
      obtain ⟨w1, w2, w3⟩ := hposf (j + 1) hj2
      have harith : e + (j + 1) = e + 1 + j := by omega
      rw [harith] at w1 w2 w3
      refine ⟨?_, ?_, ?_⟩
      · rw [f10]
        exact w1
      · rw [f8]
        exact w2
      · have hremEq : remHits C A (edLoopStep C b0 st n) (e + 1 + j) =
            remHits C A st (e + 1 + j) := by
          refine remHits_congr C A st (edLoopStep C b0 st n) (e + 1 + j)
            (by rw [f7]) (by rw [f8]) (by rw [f5]) (by rw [f6]) ?_
          intro i0 _
          exact reach_congr A st (edLoopStep C b0 st n) i0 f10 f8 f6
        have hcd : countDepCreate C (edLoopStep C b0 st n)
            (C.part.index (l.get ⟨j, hj⟩)) b0 =
            countDepCreate C st (C.part.index (l.get ⟨j, hj⟩)) b0 :=
          countDepCreate_congr C (edLoopStep C b0 st n) st
            (C.part.index (l.get ⟨j, hj⟩)) b0 f10 f8 f6
        rw [hremEq, hcd]
        exact w3
    obtain ⟨d1, d2, d3, d4⟩ := ih (edLoopStep C b0 st n) (e + 1) hposf2
      (by rw [f5]; exact hsa)
      (by rw [f6]; exact hsb)
      hab
      (by
        rw [f2]
        rw [List.length_cons] at hlen
        omega)
      (by rw [f2, f12]; exact hcap)
      hD1 hF1
      (by
        intro h0 hne
        rw [f12] at hne
        exact hP1 hne)
      (fun h0 => absurd h0 (by omega))
    have harith2 : e + (n :: l).length = e + 1 + l.length := by
      rw [List.length_cons]
      omega
    refine ⟨?_, d2, ?_, ?_⟩
    · rw [harith2]
      exact d1
    · intro h1 h2
      rw [harith2] at h1 h2 ⊢
      rw [← f12] at h2
      exact d3 h1 h2
    · intro h0
      rw [harith2] at h0
      exact d4 h0

/-- `Superseded` only depends on the element table, `elast`, `sb`, `es`
and the reaches. -/
theorem Superseded_congr (C : Ctx) (A : R) (st st2 : Slab)
    (h1 : st2.eNext = st.eNext) (h2 : st2.elast = st.elast)
    (h3 : st2.ei = st.ei) (h4 : st2.es = st.es) (h5 : st2.sb = st.sb)
    (h : Superseded C A st) : Superseded C A st2 := by
  intro e1 he1 hne i0 hi0
  rw [h1] at he1
  rw [h2, h3] at hne
  rw [h3] at hi0
  rw [h5, h4, reach_congr A st st2 i0 h2 h4 h5]
  exact h e1 he1 hne i0 hi0

/-- Appending a fresh sub-slab preserves the per-element range
invariant: no existing element lives in the fresh sub-slab. -/
theorem append_DeInv (C : Ctx) (A : R) (S : Sane C) (stc : Slab)
    (a0 b0 : R) (m : ℕ) (hm : m ≤ stc.eNext)
    (hL : InvL C stc) (hE : InvE C stc)
    (h : DeInvUpTo C A stc m) :
    DeInvUpTo C A
      { stc with
        sNext := stc.sNext + 1,
        sa := Function.update stc.sa stc.sNext a0,
        sb := Function.update stc.sb stc.sNext b0 } m := by
  obtain ⟨hDeE, hPair⟩ := h
  constructor
  · intro e1 he1
    obtain ⟨w1, w2, w3, w4, w5, w6⟩ := hDeE e1 he1
    have hes : stc.es e1 < stc.sNext := (hE e1 (by omega)).2.1
    have hsa1 : Function.update stc.sa stc.sNext a0 (stc.es e1) =
        stc.sa (stc.es e1) := Function.update_noteq (Nat.ne_of_lt hes) a0 stc.sa
    have hsb1 : Function.update stc.sb stc.sNext b0 (stc.es e1) =
        stc.sb (stc.es e1) := Function.update_noteq (Nat.ne_of_lt hes) b0 stc.sb
    have hrem : remHits C A
        { stc with
          sNext := stc.sNext + 1,
          sa := Function.update stc.sa stc.sNext a0,
          sb := Function.update stc.sb stc.sNext b0 } e1 =
        remHits C A stc e1 := by
      refine remHits_congr C A stc _ e1 rfl rfl hsa1 hsb1 ?_
      intro i0 hi0
      exact append_reach C A stc a0 b0 i0
        (S.hdep (stc.ei e1) (hE e1 (by omega)).1 i0 hi0) hL
    refine ⟨?_, w2, w3, ?_, ?_, ?_⟩
    · show Function.update stc.sa stc.sNext a0 (stc.es e1) <
        Function.update stc.sb stc.sNext b0 (stc.es e1)
      rw [hsa1, hsb1]
      exact w1
    · rw [hrem]
      exact w4
    · intro d hd1 hd2
      rw [hrem] at hd2
      exact w5 d hd1 hd2
    · intro d hd1 hd2
      rw [hrem] at hd1
      exact w6 d hd1 hd2
  · exact hPair

/-- Appending a fresh sub-slab preserves the superseded accounting. -/
theorem append_Superseded (C : Ctx) (A : R) (S : Sane C) (stc : Slab)
    (a0 b0 : R) (hL : InvL C stc) (hE : InvE C stc)
    (h : Superseded C A stc) :
    Superseded C A
      { stc with
        sNext := stc.sNext + 1,
        sa := Function.update stc.sa stc.sNext a0,
        sb := Function.update stc.sb stc.sNext b0 } := by
  intro e1 he1 hne i0 hi0
  have hes : stc.es e1 < stc.sNext := (hE e1 he1).2.1
  show Function.update stc.sb stc.sNext b0 (stc.es e1) ≤ _
  rw [Function.update_noteq (Nat.ne_of_lt hes) b0 stc.sb]
  rw [append_reach C A stc a0 b0 i0
    (S.hdep (stc.ei e1) (hE e1 he1).1 i0 hi0) hL]
  exact h e1 he1 hne i0 hi0

/-- One sub-slab phase carries the dependency bookkeeping: after
`create_s` the range invariant covers all elements (the new ranges sized
by the creation-time counts, which equal the expected hits), the free
tail and the prefix-sum primer stand at the advanced counter, and the
superseded accounting still holds. -/
theorem phase_d (C : Ctx) (A : R) (S : Sane C) (D : DepSane C)
    (a b b2 : R) (offset endp : ℕ) (stc : Slab)
    (hL : InvL C stc) (hE : InvE C stc)
    (hRa : ReachAt C A a stc offset)
    (hA : A ≤ a) (hb2a : a < b2) (hb2le : b2 ≤ b)
    (hendp : endp ≤ C.part.size)
    (hcap : stc.eNext + (endp - offset) ≤ stc.ne)
    (hD : Dpack C A a b stc offset) :
    DeInv C A (create_s C stc a b2 offset endp) ∧
    Superseded C A (create_s C stc a b2 offset endp) ∧
    (∀ d, (create_s C stc a b2 offset endp).dNext ≤ d →
      (create_s C stc a b2 offset endp).de d = -1) ∧
    ((0 < (create_s C stc a b2 offset endp).eNext ∧
        (create_s C stc a b2 offset endp).eNext <
          (create_s C stc a b2 offset endp).ne) →
      (create_s C stc a b2 offset endp).ed
        (create_s C stc a b2 offset endp).eNext =
        (create_s C stc a b2 offset endp).dNext) ∧
    ((create_s C stc a b2 offset endp).eNext = 0 →
      (create_s C stc a b2 offset endp).dNext = 0) ∧
    (∀ i, i < C.ode.N →
      b2 ≤ reach A (create_s C stc a b2 offset endp) i →
      (create_s C stc a b2 offset endp).elast i ≠ -1 ∧
      (create_s C stc a b2 offset endp).sa
        ((create_s C stc a b2 offset endp).es
          ((create_s C stc a b2 offset endp).elast i).toNat) ≤ a) ∧
    (create_s C stc a b2 offset endp).eNext =
      stc.eNext + (endp - offset) := by
  obtain ⟨P1, P2, P3, P4, P5, P6, P7⟩ := hD
  rw [create_s_eq]
  have hmemL : ∀ n ∈ List.range' offset (endp - offset),
      offset ≤ n ∧ n < endp := by
    intro n hn
    rw [List.mem_range'_1] at hn
    omega
  have hszL : ∀ n ∈ List.range' offset (endp - offset), n < C.part.size := by
    intro n hn
    have := hmemL n hn
    omega
  have hndL : (List.range' offset (endp - offset)).Nodup :=
    List.nodup_range' offset (endp - offset)
  have hlenL : (List.range' offset (endp - offset)).length = endp - offset :=
    by simp
  have hLA : InvL C
      { stc with
        sNext := stc.sNext + 1,
        sa := Function.update stc.sa stc.sNext a,
        sb := Function.update stc.sb stc.sNext b2 } :=
    append_InvL C stc a b2 hL
  have hEA : InvE C
      { stc with
        sNext := stc.sNext + 1,
        sa := Function.update stc.sa stc.sNext a,
        sb := Function.update stc.sb stc.sNext b2 } :=
    append_InvE C stc a b2 hE
  have hreach1 : ∀ i, i < C.ode.N →
      reach A
        { stc with
          sNext := stc.sNext + 1,
          sa := Function.update stc.sa stc.sNext a,
          sb := Function.update stc.sb stc.sNext b2 } i = reach A stc i :=
    fun i hi => append_reach C A stc a b2 i hi hL
  have hcov : ∀ i, i < C.ode.N → (b ≤ reach A stc i ∧
      ∃ en, en < stc.eNext ∧ stc.elast i = Int.ofNat en ∧
        stc.sa (stc.es en) ≤ a ∧ stc.es en < stc.sNext ∧
        reach A stc i = stc.sb (stc.es en)) ∨ reach A stc i = a := by
    intro i hi
    obtain ⟨n, hn1, hn2⟩ := D.hsurj i hi
    by_cases hno : n < offset
    · left
      have hbr : b ≤ reach A stc i := by
        rw [← hn2]
        exact P1 n hno hn1
      refine ⟨hbr, ?_⟩
      obtain ⟨hne1, hsa2⟩ := P2 i hi hbr
      rcases hL i hi with ⟨h1, -⟩ | ⟨en, p1, p2, p3, p4, -⟩
      · exact absurd h1 hne1
      · refine ⟨en, p2, p1, ?_, p4, ?_⟩
        · rw [p1, toNatOfNat] at hsa2
          exact hsa2
        · unfold reach
          rw [p1, if_neg (by rw [Int.ofNat_eq_natCast]; omega), toNatOfNat]
    · right
      rw [← hn2]
      exact hRa n (by omega) hn1
  have htri1 : TriInv C A
      { stc with
        sNext := stc.sNext + 1,
        sa := Function.update stc.sa stc.sNext a,
        sb := Function.update stc.sb stc.sNext b2 }
      stc.sNext a b2 := by
    intro i hi
    rcases hcov i hi with ⟨hbr, en, hen, p1, hsa2, hsn, hre⟩ | hra
    · right
      left
      refine ⟨en, hen, p1, ?_, ?_, ?_⟩
      · show Function.update stc.sa stc.sNext a (stc.es en) ≤ a
        rw [Function.update_noteq (Nat.ne_of_lt hsn)]
        exact hsa2
      · show b2 ≤ Function.update stc.sb stc.sNext b2 (stc.es en)
        rw [Function.update_noteq (Nat.ne_of_lt hsn)]
        rw [← hre]
        linarith
      · exact Nat.ne_of_lt hsn
    · left
      rw [hreach1 i hi, hra]
  have hstart1 : ∀ i, i < C.ode.N → a ≤ reach A
      { stc with
        sNext := stc.sNext + 1,
        sa := Function.update stc.sa stc.sNext a,
        sb := Function.update stc.sb stc.sNext b2 } i := by
    intro i hi
    rw [hreach1 i hi]
    rcases hcov i hi with ⟨hbr, -⟩ | hra
    · linarith
    · exact le_of_eq hra.symm
  have hheads1 : ∀ n ∈ List.range' offset (endp - offset),
      reach A
        { stc with
          sNext := stc.sNext + 1,
          sa := Function.update stc.sa stc.sNext a,
          sb := Function.update stc.sb stc.sNext b2 }
        (C.part.index n) = a := by
    intro n hn
    rw [hreach1 (C.part.index n) (S.hidx n (hszL n hn))]
    exact hRa n (hmemL n hn).1 (hszL n hn)
  have hOld1 : ∀ e, e < stc.eNext → stc.es e ≠ stc.sNext :=
    fun e he => Nat.ne_of_lt (hE e he).2.1
  obtain ⟨hDe2, hSup2, hFree2, hOld2, hNew2, htri2, hstart2⟩ :=
    headFold_d C A S D stc.sNext a b2 (List.range' offset (endp - offset))
      { stc with
        sNext := stc.sNext + 1,
        sa := Function.update stc.sa stc.sNext a,
        sb := Function.update stc.sb stc.sNext b2 }
      stc.eNext
      hndL hszL (Nat.lt_succ_self stc.sNext)
      (Function.update_same stc.sNext a stc.sa)
      (Function.update_same stc.sNext b2 stc.sb)
      hb2a hLA hEA
      (by
        show stc.eNext +
          (List.range' offset (endp - offset)).length ≤ stc.ne
        rw [hlenL]
        exact hcap)
      hheads1 hstart1 htri1 (le_refl stc.eNext) hOld1
      (by
        intro e h1 h2
        have h2b : e < stc.eNext := h2
        omega)
      (append_DeInv C A S stc a b2 stc.eNext (le_refl _) hL hE P6)
      (append_Superseded C A S stc a b2 hL hE P7)
      P3
  obtain ⟨g1, g2, g3, g4, g5, g6, g7, g8, g9, g10, g11, g12, g13, g14, g15,
    g16, g17, g18, g19, g20⟩ :=
    headFold_spec C A S stc.sNext a b2 (List.range' offset (endp - offset))
      { stc with
        sNext := stc.sNext + 1,
        sa := Function.update stc.sa stc.sNext a,
        sb := Function.update stc.sb stc.sNext b2 }
      hndL hszL (Nat.lt_succ_self stc.sNext)
      (Function.update_same stc.sNext b2 stc.sb) hLA
  have hposL := headFold_pos C A S stc.sNext a b2
    (List.range' offset (endp - offset))
    { stc with
      sNext := stc.sNext + 1,
      sa := Function.update stc.sa stc.sNext a,
      sb := Function.update stc.sb stc.sNext b2 }
    hndL hszL (Nat.lt_succ_self stc.sNext)
    (Function.update_same stc.sNext b2 stc.sb) hLA
  have hposf : ∀ j : ℕ,
      ∀ hj : j < (List.range' offset (endp - offset)).length,
      ((List.range' offset (endp - offset)).foldl
        (headStep C stc.sNext a b2)
        { stc with
          sNext := stc.sNext + 1,
          sa := Function.update stc.sa stc.sNext a,
          sb := Function.update stc.sb stc.sNext b2 }).elast
        (C.part.index ((List.range' offset (endp - offset)).get ⟨j, hj⟩)) =
        Int.ofNat (stc.eNext + j) ∧
      ((List.range' offset (endp - offset)).foldl
        (headStep C stc.sNext a b2)
        { stc with
          sNext := stc.sNext + 1,
          sa := Function.update stc.sa stc.sNext a,
          sb := Function.update stc.sb stc.sNext b2 }).es
        (stc.eNext + j) = stc.sNext ∧
      remHits C A
        ((List.range' offset (endp - offset)).foldl
          (headStep C stc.sNext a b2)
          { stc with
            sNext := stc.sNext + 1,
            sa := Function.update stc.sa stc.sNext a,
            sb := Function.update stc.sb stc.sNext b2 })
        (stc.eNext + j) =
        countDepCreate C
          ((List.range' offset (endp - offset)).foldl
            (headStep C stc.sNext a b2)
            { stc with
              sNext := stc.sNext + 1,
              sa := Function.update stc.sa stc.sNext a,
              sb := Function.update stc.sb stc.sNext b2 })
          (C.part.index ((List.range' offset (endp - offset)).get ⟨j, hj⟩))
          b2 := by
    intro j hj
    obtain ⟨c1, c2, c3⟩ := hposL j hj
    refine ⟨c1, c3, ?_⟩
    have hjm : (List.range' offset (endp - offset)).get ⟨j, hj⟩ ∈
        List.range' offset (endp - offset) := List.get_mem _ _ _
    have hiN : C.part.index
        ((List.range' offset (endp - offset)).get ⟨j, hj⟩) < C.ode.N :=
      S.hidx _ (hszL _ hjm)
    refine remHits_eq_countDep C A D _ (stc.eNext + j) _ a b2 hA hb2a c2
      ?_ ?_ ?_
    · rw [c3, g5]
      exact Function.update_same stc.sNext a stc.sa
    · rw [c3, g6]
      exact Function.update_same stc.sNext b2 stc.sb
    · intro i1 hi1
      have hi1N : i1 < C.ode.N := S.hdep _ hiN i1 hi1
      rcases g19 i1 hi1N with ⟨h1, -⟩ | ⟨en, p1, p2, -⟩
      · exact Or.inl h1
      · right
        refine ⟨en, p1, ?_⟩
        rcases htri2 i1 hi1N with hc1 | ⟨en2, r1, r2, r3, r4, r5⟩ |
            ⟨en2, r1, r2, r3⟩
        · left
          have hre : reach A
              ((List.range' offset (endp - offset)).foldl
                (headStep C stc.sNext a b2)
                { stc with
                  sNext := stc.sNext + 1,
                  sa := Function.update stc.sa stc.sNext a,
                  sb := Function.update stc.sb stc.sNext b2 }) i1 =
              ((List.range' offset (endp - offset)).foldl
                (headStep C stc.sNext a b2)
                { stc with
                  sNext := stc.sNext + 1,
                  sa := Function.update stc.sa stc.sNext a,
                  sb := Function.update stc.sb stc.sNext b2 }).sb
                (((List.range' offset (endp - offset)).foldl
                  (headStep C stc.sNext a b2)
                  { stc with
                    sNext := stc.sNext + 1,
                    sa := Function.update stc.sa stc.sNext a,
                    sb := Function.update stc.sb stc.sNext b2 }).es en) := by
            unfold reach
            rw [p1, if_neg (by rw [Int.ofNat_eq_natCast]; omega), toNatOfNat]
          rw [← hre]
          exact hc1
        · have hen : en2 = en := Int.ofNat.inj (r2.symm.trans p1)
          subst hen
          exact Or.inr r4
        · have hen : en2 = en := Int.ofNat.inj (r2.symm.trans p1)
          subst hen
          right
          have hsbp : ((List.range' offset (endp - offset)).foldl
              (headStep C stc.sNext a b2)
              { stc with
                sNext := stc.sNext + 1,
                sa := Function.update stc.sa stc.sNext a,
                sb := Function.update stc.sb stc.sNext b2 }).sb
              (((List.range' offset (endp - offset)).foldl
                (headStep C stc.sNext a b2)
                { stc with
                  sNext := stc.sNext + 1,
                  sa := Function.update stc.sa stc.sNext a,
                  sb := Function.update stc.sb stc.sNext b2 }).es en2) =
              b2 := by
            rw [r3, g6]
            exact Function.update_same stc.sNext b2 stc.sb
          exact le_of_eq hsbp.symm
  obtain ⟨v1, v2, v3, v4, v5, v6, v7, v8, v9, v10, v11, v12, v13, v14, v15,
    v16, v17⟩ :=
    edFold_spec C b2 (List.range' offset (endp - offset))
      ((List.range' offset (endp - offset)).foldl (headStep C stc.sNext a b2)
        { stc with
          sNext := stc.sNext + 1,
          sa := Function.update stc.sa stc.sNext a,
          sb := Function.update stc.sb stc.sNext b2 })
  obtain ⟨hDe3, hFree3, hPr3, hP03⟩ :=
    edFold_d C A stc.sNext a b2 (List.range' offset (endp - offset))
      ((List.range' offset (endp - offset)).foldl (headStep C stc.sNext a b2)
        { stc with
          sNext := stc.sNext + 1,
          sa := Function.update stc.sa stc.sNext a,
          sb := Function.update stc.sb stc.sNext b2 })
      stc.eNext hposf
      (by
        rw [g5]
        exact Function.update_same stc.sNext a stc.sa)
      (by
        rw [g6]
        exact Function.update_same stc.sNext b2 stc.sb)
      hb2a
      (by rw [g1])
      (by
        rw [g1, g9]
        show stc.eNext +
          (List.range' offset (endp - offset)).length ≤ stc.ne
        rw [hlenL]
        exact hcap)
      hDe2 hFree2
      (by
        intro h1 h2
        rw [g9] at h2
        rw [g7, g4]
        exact P4 ⟨h1, h2⟩)
      (by
        intro h0
        rw [g4]
        exact P5 h0)
  have heN : ((List.range' offset (endp - offset)).foldl (edLoopStep C b2)
      ((List.range' offset (endp - offset)).foldl (headStep C stc.sNext a b2)
        { stc with
          sNext := stc.sNext + 1,
          sa := Function.update stc.sa stc.sNext a,
          sb := Function.update stc.sb stc.sNext b2 })).eNext =
      stc.eNext + (List.range' offset (endp - offset)).length := by
    rw [v2, g1]
  refine ⟨?_, ?_, hFree3, ?_, ?_, ?_, ?_⟩
  · show DeInvUpTo C A _ _
    rw [heN]
    exact hDe3
  · exact Superseded_congr C A _ _ v2 v10 v7 v8 v6 hSup2
  · intro ⟨h1, h2⟩
    rw [heN] at h1 ⊢
    rw [heN, v12] at h2
    exact hPr3 h1 h2
  · intro h0
    rw [heN] at h0
    exact hP03 h0
  · intro i hi hbr
    have hreq : reach A
        ((List.range' offset (endp - offset)).foldl (edLoopStep C b2)
          ((List.range' offset (endp - offset)).foldl
            (headStep C stc.sNext a b2)
            { stc with
              sNext := stc.sNext + 1,
              sa := Function.update stc.sa stc.sNext a,
              sb := Function.update stc.sb stc.sNext b2 })) i =
        reach A
          ((List.range' offset (endp - offset)).foldl
            (headStep C stc.sNext a b2)
            { stc with
              sNext := stc.sNext + 1,
              sa := Function.update stc.sa stc.sNext a,
              sb := Function.update stc.sb stc.sNext b2 }) i :=
      reach_congr A _ _ i v10 v8 v6
    rw [hreq] at hbr
    rcases htri2 i hi with hc1 | ⟨en, r1, r2, r3, r4, r5⟩ | ⟨en, r1, r2, r3⟩
    · exact absurd hbr (not_le.mpr (lt_of_le_of_lt hc1 hb2a))
    · constructor
      · rw [v10, r2, Int.ofNat_eq_natCast]
        omega
      · have htn : (((List.range' offset (endp - offset)).foldl
            (edLoopStep C b2)
            ((List.range' offset (endp - offset)).foldl
              (headStep C stc.sNext a b2)
              { stc with
                sNext := stc.sNext + 1,
                sa := Function.update stc.sa stc.sNext a,
                sb := Function.update stc.sb stc.sNext b2 })).elast i).toNat =
            en := by
          rw [v10, r2, toNatOfNat]
        rw [htn, v5, v8]
        exact r3
    · constructor
      · rw [v10, r2, Int.ofNat_eq_natCast]
        omega
      · have htn : (((List.range' offset (endp - offset)).foldl
            (edLoopStep C b2)
            ((List.range' offset (endp - offset)).foldl
              (headStep C stc.sNext a b2)
              { stc with
                sNext := stc.sNext + 1,
                sa := Function.update stc.sa stc.sNext a,
                sb := Function.update stc.sb stc.sNext b2 })).elast i).toNat =
            en := by
          rw [v10, r2, toNatOfNat]
        have hsa2 : ((List.range' offset (endp - offset)).foldl
            (headStep C stc.sNext a b2)
            { stc with
              sNext := stc.sNext + 1,
              sa := Function.update stc.sa stc.sNext a,
              sb := Function.update stc.sb stc.sNext b2 }).sa stc.sNext =
            a := by
          rw [g5]
          exact Function.update_same stc.sNext a stc.sa
        rw [htn, v5, v8, r3]
        exact le_of_eq hsa2
  · rw [heN, hlenL]

/-- The dependency bookkeeping is vacuous at exhausted fuel: the node
clears the completion flag. -/
theorem node_d_zero (C : Ctx) (A : R) : NodeD C A 0 := by
  intro a b offset std stc _ _ _ _ _ _ _ _ _ _ _ hokF
  rw [createTimeSlab_zero] at hokF
  simp at hokF

/-- The loop bookkeeping at exhausted fuel: either the guard fails and
the state is returned unchanged, or the flag is cleared. -/
theorem loop_d_zero (C : Ctx) (A : R) : LoopD C A 0 := by
  intro t b endp std stc _ _ _ _ _ _ _ _ _ hDp hokF
  rw [ctsLoop_zero] at hokF ⊢
  by_cases hg : t < b ∧ endp < C.part.size
  · rw [if_pos hg] at hokF
    simp at hokF
  · rw [if_neg hg] at hokF ⊢
    exact hDp hokF

/-- Node bookkeeping at positive fuel: the sub-slab phase sizes the new
ranges exactly and the tail loop carries the packet to the returned
time. -/
theorem node_d_succ (C : Ctx) (A : R) (S : Sane C) (D : DepSane C) (f : ℕ)
    (ihLP : LoopP C A f) (ihLD : LoopD C A f) : NodeD C A (f + 1) := by
  intro a b offset std stc hCpl hL h1 h2 h3 h4 hoffp hok hTot hcap hDp hokF
  obtain ⟨hb2a, hb2le, hb2A, hQ⟩ :=
    endTime_facts C S A a b (computeEndTime C stc a b offset).1 offset
      h1 h2 h3 h4 rfl
  have hendp : (computeEndTime C stc a b offset).2.1 ≤ C.part.size :=
    S.hend offset _
  have hooe : offset ≤ (computeEndTime C stc a b offset).2.1 := by
    rcases hoffp with h | h
    · omega
    · exact S.hoff offset _ h
  obtain ⟨p1, p2, p3, p4, p5, p6, p7, p8, p9, p10, p11, p12, p13, p14⟩ :=
    phase_spec C A S a (computeEndTime C stc a b offset).1 offset
      (computeEndTime C stc a b offset).2.1
      (computeEndTime C std a b offset).2.2
      (computeEndTime C stc a b offset).2.2
      hCpl hL hb2A hendp hooe
  have hokE : (create_s C (computeEndTime C stc a b offset).2.2 a
        (computeEndTime C stc a b offset).1 offset
        (computeEndTime C stc a b offset).2.1).ok = true →
      InvE C (create_s C (computeEndTime C stc a b offset).2.2 a
        (computeEndTime C stc a b offset).1 offset
        (computeEndTime C stc a b offset).2.1) ∧
      ReachAt C A a (create_s C (computeEndTime C stc a b offset).2.2 a
        (computeEndTime C stc a b offset).1 offset
        (computeEndTime C stc a b offset).2.1)
        (computeEndTime C stc a b offset).2.1 := by
    intro hOk
    have hOk2 : stc.ok = true := by
      rw [← show (computeEndTime C stc a b offset).2.2.ok = stc.ok from rfl]
      rw [← p3]
      exact hOk
    exact p14 (hok hOk2)
  obtain ⟨⟨l1, l2, l3, l4, l5, l6, l7, l8, l9, l10, l11, l12, l13, l14⟩,
    hlt2, hle2, hexit⟩ :=
    ihLP a (computeEndTime C stc a b offset).1
      (computeEndTime C stc a b offset).2.1
      (dryPhase C (computeEndTime C stc a b offset).1 offset
        (computeEndTime C stc a b offset).2.1
        (computeEndTime C std a b offset).2.2)
      (create_s C (computeEndTime C stc a b offset).2.2 a
        (computeEndTime C stc a b offset).1 offset
        (computeEndTime C stc a b offset).2.1)
      p1 p2 h1 (le_of_lt hb2a) hb2A hQ hokE
  have hokP : (ctsLoop C f
      (create_s C (computeEndTime C stc a b offset).2.2 a
        (computeEndTime C stc a b offset).1 offset
        (computeEndTime C stc a b offset).2.1)
      a (computeEndTime C stc a b offset).1
      (computeEndTime C stc a b offset).2.1).2.ok = true := hokF
  have hok2 : stc.ok = true := by
    have h := l4 hokP
    rw [p3] at h
    exact h
  obtain ⟨hE, hRa⟩ := hok hok2
  have hDpc := hDp hok2
  have hTot2 : (cdsLoop C f
      (dryPhase C (computeEndTime C stc a b offset).1 offset
        (computeEndTime C stc a b offset).2.1
        (computeEndTime C std a b offset).2.2)
      a (computeEndTime C stc a b offset).1
      (computeEndTime C stc a b offset).2.1).2.ne ≤ stc.ne := hTot
  have hgrow : std.ne + ((computeEndTime C stc a b offset).2.1 - offset) ≤
      (cdsLoop C f
        (dryPhase C (computeEndTime C stc a b offset).1 offset
          (computeEndTime C stc a b offset).2.1
          (computeEndTime C std a b offset).2.2)
        a (computeEndTime C stc a b offset).1
        (computeEndTime C stc a b offset).2.1).2.ne := by
    refine le_trans ?_ ((dry_mono C f).2 _ _ _ _)
    rw [dryPhase_ne]
    have hne0 : (computeEndTime C std a b offset).2.2.ne = std.ne := rfl
    omega
  have hphasecap : stc.eNext +
      ((computeEndTime C stc a b offset).2.1 - offset) ≤ stc.ne := by
    have h5 : std.ne = stc.eNext := hCpl.2.2.1
    omega
  obtain ⟨PD1, PD2, PD3, PD4, PD5, PD6, PD7⟩ :=
    phase_d C A S D a b (computeEndTime C stc a b offset).1 offset
      (computeEndTime C stc a b offset).2.1
      (computeEndTime C stc a b offset).2.2
      hL hE hRa h1 hb2a hb2le hendp hphasecap hDpc
  obtain ⟨P1, P2, -, -, -, -, -⟩ := hDpc
  have hDloop : (create_s C (computeEndTime C stc a b offset).2.2 a
        (computeEndTime C stc a b offset).1 offset
        (computeEndTime C stc a b offset).2.1).ok = true →
      Dpack C A a (computeEndTime C stc a b offset).1
        (create_s C (computeEndTime C stc a b offset).2.2 a
          (computeEndTime C stc a b offset).1 offset
          (computeEndTime C stc a b offset).2.1)
        (computeEndTime C stc a b offset).2.1 := by
    intro _
    refine ⟨?_, PD6, PD3, PD4, PD5, PD1, PD2⟩
    intro n hn1 hn2
    by_cases hno : n < offset
    · have hpres := p12 (C.part.index n) (S.hidx n hn2)
        (fun m hm1 hm2 hcon => by
          have := S.hinj m n hm2 hn2 hcon
          omega)
      rw [hpres.2]
      have hbr : b ≤ reach A stc (C.part.index n) := P1 n hno hn2
      have hconv : reach A (computeEndTime C stc a b offset).2.2
          (C.part.index n) = reach A stc (C.part.index n) := rfl
      rw [hconv]
      linarith
    · exact le_of_eq (p13 n (by omega) hn1).symm
  obtain ⟨LD1, LD2, LD3, LD4, LD5, LD6, LD7⟩ :=
    ihLD a (computeEndTime C stc a b offset).1
      (computeEndTime C stc a b offset).2.1
      (dryPhase C (computeEndTime C stc a b offset).1 offset
        (computeEndTime C stc a b offset).2.1
        (computeEndTime C std a b offset).2.2)
      (create_s C (computeEndTime C stc a b offset).2.2 a
        (computeEndTime C stc a b offset).1 offset
        (computeEndTime C stc a b offset).2.1)
      p1 p2 h1 (le_of_lt hb2a) hb2A hQ hokE
      (by rw [p5]; exact hTot2)
      (by
        rw [PD7, p5]
        exact hphasecap)
      hDloop hokP
  rw [createTimeSlab_succ]
  dsimp only
  refine ⟨?_, ?_, LD3, LD4, LD5, LD6, LD7⟩
  · intro n hn1 hn2
    have hninj : ∀ m, (computeEndTime C stc a b offset).2.1 ≤ m →
        m < C.part.size → C.part.index m ≠ C.part.index n := by
      intro m hm1 hm2 hcon
      have := S.hinj m n hm2 hn2 hcon
      omega
    obtain ⟨-, k2⟩ := l13 (C.part.index n) (S.hidx n hn2) hninj
    have hpres := p12 (C.part.index n) (S.hidx n hn2)
      (fun m hm1 hm2 hcon => by
        have := S.hinj m n hm2 hn2 hcon
        omega)
    rw [k2, hpres.2]
    have hbr : b ≤ reach A stc (C.part.index n) := P1 n hn1 hn2
    exact hbr
  · intro i hi hbr
    obtain ⟨k1, k2⟩ := LD2 i hi (le_trans hb2le hbr)
    exact ⟨k1, le_trans k2 hle2⟩

/-- Loop bookkeeping at positive fuel: one node then the remaining
iterations. -/
theorem loop_d_succ (C : Ctx) (A : R) (S : Sane C) (f : ℕ)
    (ihNP : NodeP C A f) (ihLP : LoopP C A f)
    (ihND : NodeD C A f) (ihLD : LoopD C A f) : LoopD C A (f + 1) := by
  intro t b endp std stc hCpl hL h1 h2 h3 h4 hok hTot hcap hDp hokF
  rw [ctsLoop_succ] at hokF ⊢
  rw [cdsLoop_succ] at hTot
  by_cases hg : t < b ∧ endp < C.part.size
  · rw [if_pos hg] at hokF hTot ⊢
    obtain ⟨⟨e1, e2, e3, e4, e5, e6, e7, e8, e9, e10, e11, e12, e13, e14⟩,
      hlt, hle, hAe⟩ :=
      ihNP t b endp std stc hCpl hL h1 h3 hg.1 h4 (Or.inr hg.2) hok
    obtain ⟨⟨f1, f2, f3, f4, f5, f6, f7, f8, f9, f10, f11, f12, f13, f14⟩,
      hlt2, hle2, hexit2⟩ :=
      ihLP (createTimeSlab C f stc t b endp).1 b endp
        (computeDataSize C f std t b endp).2
        (createTimeSlab C f stc t b endp).2
        e2 e3 (le_trans h1 (le_of_lt hlt)) hle h3 (Or.inr hAe) e14
    have hokN : (createTimeSlab C f stc t b endp).2.ok = true := f4 hokF
    have hnodeTot : (computeDataSize C f std t b endp).2.ne ≤ stc.ne :=
      le_trans ((dry_mono C f).2 (computeDataSize C f std t b endp).2
        (computeDataSize C f std t b endp).1 b endp) hTot
    have DN := ihND t b endp std stc hCpl hL h1 h3 hg.1 h4 (Or.inr hg.2) hok
      hnodeTot hcap hDp hokN
    have heNext2 : (createTimeSlab C f stc t b endp).2.eNext ≤
        (createTimeSlab C f stc t b endp).2.ne := by
      have h5 : (computeDataSize C f std t b endp).2.ne =
          (createTimeSlab C f stc t b endp).2.eNext := e2.2.2.1
      have h6 : (createTimeSlab C f stc t b endp).2.ne = stc.ne := e6
      omega
    rw [e1] at hTot
    have LDall := ihLD (createTimeSlab C f stc t b endp).1 b endp
      (computeDataSize C f std t b endp).2
      (createTimeSlab C f stc t b endp).2
      e2 e3 (le_trans h1 (le_of_lt hlt)) hle h3 (Or.inr hAe) e14
      (by rw [e6]; exact hTot)
      heNext2
      (fun _ => DN) hokF
    exact LDall
  · rw [if_neg hg] at hokF ⊢
    exact hDp hokF

/-- The dependency bookkeeping at every fuel. -/
theorem depstep (C : Ctx) (A : R) (S : Sane C) (D : DepSane C) :
    ∀ fuel : ℕ, NodeD C A fuel ∧ LoopD C A fuel := by
  intro fuel
  induction fuel with
  | zero => exact ⟨node_d_zero C A, loop_d_zero C A⟩
  | succ f ih =>
    exact ⟨node_d_succ C A S D f (lockstep C A S f).2 ih.2,
      loop_d_succ C A S f (lockstep C A S f).1 (lockstep C A S f).2
        ih.1 ih.2⟩

/-- The scratch-time step does not touch the dependency array. -/
theorem uStep_de (C : Ctx) (b2 : R) (st : Slab) (n : ℕ) :
    (uStep C b2 st n).de = st.de := rfl

/-- The dry-count step does not touch the dependency array. -/
theorem ndStep_de (C : Ctx) (st : Slab) (n : ℕ) :
    (ndStep C st n).de = st.de := rfl

/-- A fold whose step keeps the dependency array keeps it. -/
theorem foldl_de (g : Slab → ℕ → Slab) (h : ∀ s n, (g s n).de = s.de) :
    ∀ (l : List ℕ) (s : Slab), (l.foldl g s).de = s.de := by
  intro l
  induction l with
  | nil => intro s; rfl
  | cons x xs ih => intro s; rw [List.foldl_cons, ih, h]

/-- The dry head phase does not touch the dependency array. -/
theorem dryPhase_de (C : Ctx) (b2 : R) (offset endp : ℕ) (std : Slab) :
    (dryPhase C b2 offset endp std).de = std.de := by
  rw [show dryPhase C b2 offset endp std =
      (List.range' offset (endp - offset)).foldl (ndStep C)
        { (List.range' offset (endp - offset)).foldl (uStep C b2) std with
          ns := ((List.range' offset (endp - offset)).foldl
            (uStep C b2) std).ns + 1,
          ne := ((List.range' offset (endp - offset)).foldl
            (uStep C b2) std).ne + (endp - offset),
          nj := ((List.range' offset (endp - offset)).foldl
            (uStep C b2) std).nj + C.method.nsize * (endp - offset) } from rfl]
  rw [foldl_de (ndStep C) (ndStep_de C)]
  show ((List.range' offset (endp - offset)).foldl (uStep C b2) std).de = _
  rw [foldl_de (uStep C b2) (uStep_de C b2)]

/-- The whole dry run does not touch the dependency array. -/
theorem dry_de (C : Ctx) : ∀ fuel : ℕ,
    (∀ (st : Slab) (a b : R) (offset : ℕ),
      (computeDataSize C fuel st a b offset).2.de = st.de) ∧
    (∀ (st : Slab) (t b : R) (endp : ℕ),
      (cdsLoop C fuel st t b endp).2.de = st.de) := by
  intro fuel
  induction fuel with
  | zero =>
    constructor
    · intro st a b offset
      rw [computeDataSize_zero]
    · intro st t b endp
      rw [cdsLoop_zero]
      split <;> rfl
  | succ f ih =>
    constructor
    · intro st a b offset
      rw [computeDataSize_succ2]
      dsimp only
      rw [ih.2, dryPhase_de]
      rfl
    · intro st t b endp
      rw [cdsLoop_succ]
      split
      · rw [ih.2, ih.1]
      · rfl

/-- The arena sizing resets exactly the populated prefix of the
dependency array to the sentinel. -/
theorem postAlloc_de (d : Slab) (j : ℕ) :
    (postAlloc d).de j = if j < d.nd then -1 else d.de j := by
  simp only [postAlloc, alloc_s, alloc_e, alloc_j, alloc_d]
  split <;> split <;> split <;> split <;> rfl

/-- From a fresh arena, `buildStart` hands `createTimeSlab` an all-`-1`
dependency array. -/
theorem buildStart_de (C : Ctx) (fuel : ℕ) (st : Slab) (a b : R)
    (hde : ∀ d, st.de d = -1) :
    ∀ d, (buildStart C fuel st a b).de d = -1 := by
  intro d
  have h1 : (buildStart C fuel st a b).de =
      (allocData C fuel st a b).de := rfl
  rw [h1, allocData_eq, postAlloc_de]
  split
  · rfl
  · rw [(dry_de C fuel).1]
    exact hde d

/-- The single-component witness context satisfies the dependency-fill
assumptions. -/
theorem dep_sane_c1 : DepSane c1Ctx := by
  refine ⟨rfl, ?_, ?_, ?_, ?_, ?_, ?_, ?_, ?_⟩
  · exact Nat.one_pos
  · intro n h
    show (0:R) < 1
    norm_num
  · intro n h
    show (1:R) ≤ 1
    norm_num
  · intro i j hi hj
    constructor
    · intro h
      exact absurd h (List.not_mem_nil j)
    · intro h
      exact absurd h (List.not_mem_nil i)
  · intro i hi j hj
    exact absurd hj (List.not_mem_nil j)
  · intro i hi
    refine ⟨0, Nat.one_pos, ?_⟩
    have h2 : i = 0 := by
      have h1 : i < 1 := hi
      omega
    subst h2
    rfl
  · intro i hi
    exact List.nodup_nil
  · intro i hi
    exact List.nodup_nil

/-- The dependency-fill witness build completes. -/
theorem c2_build_ok : (build c1Ctx 10 c2Slab 0 1).2.ok = true := by
  rw [build_eq]
  dsimp only
  rw [show (10:ℕ) = 8 + 1 + 1 from rfl]
  rw [ctsOne_ok c1Ctx 8 (buildStart c1Ctx (8 + 1 + 1) c2Slab 0 1) 0 1
    (le_refl 1)]
  rw [buildStart_eq]
  dsimp only
  rw [allocData_eq]
  rw [(postAlloc_fields
    (computeDataSize c1Ctx (8 + 1 + 1) (dryStart c1Ctx c2Slab 0) 0 1
      0).2).2.2.2.2.2.2.2.2.1]
  rw [cdsOne_ok c1Ctx 8 (dryStart c1Ctx c2Slab 0) 0 1 (le_refl 1)]
  rfl

/-- C2: after a completed `build(a, b)` on a fresh dependency arena,
assuming regular collaborators (`Sane`), exact dependency bookkeeping
(`DepSane`) and a slab wider than epsilon, every element whose
dependency range `de[ed[e] .. ed[e+1])` was sized positive by the dry
run has no `-1` sentinel left anywhere in that range: every slot was
overwritten by `create_d` with a small-step element index. -/
theorem build_ranges_filled (C : Ctx) (fuel : ℕ) (st : Slab) (a b : R)
    (S : Sane C) (D : DepSane C) (heps : C.eps < b - a)
    (hde : ∀ d, st.de d = -1)
    (hok : (build C fuel st a b).2.ok = true) :
    ∀ e1, e1 + 1 < (build C fuel st a b).2.eNext →
      0 < (build C fuel st a b).2.ed (e1 + 1) -
        (build C fuel st a b).2.ed e1 →
      ∀ d, (build C fuel st a b).2.ed e1 ≤ d →
        d < (build C fuel st a b).2.ed (e1 + 1) →
        (build C fuel st a b).2.de d ≠ -1 := by
  obtain ⟨hA1, hA2, hA3, hA4, hA5, hA6, hA7, hA8, hA9, hA10⟩ :=
    postAlloc_fields (computeDataSize C fuel (dryStart C st a) a b 0).2
  have hBe : (buildStart C fuel st a b).eNext = 0 := by
    rw [buildStart_eq]
    dsimp only
    rw [allocData_eq]
    exact hA2
  have hBd : (buildStart C fuel st a b).dNext = 0 := by
    rw [buildStart_eq]
    dsimp only
    rw [allocData_eq]
    exact hA4
  have hBne : (buildStart C fuel st a b).ne =
      (computeDataSize C fuel (dryStart C st a) a b 0).2.ne := by
    rw [buildStart_eq]
    dsimp only
    rw [allocData_eq]
    exact hA6
  have hBel : ∀ i, i < C.ode.N → (buildStart C fuel st a b).elast i = -1 := by
    intro i hi
    rw [buildStart_eq]
    dsimp only
    rw [if_pos hi]
  have hCpl0 : Cpl C a (dryStart C st a) (buildStart C fuel st a b) := by
    refine ⟨?_, ?_, ?_, ?_, ?_⟩
    · intro i hi
      show (if i < C.ode.N then a else st.u i) = _
      rw [if_pos hi]
      unfold reach
      rw [if_pos (hBel i hi)]
    · rw [show (buildStart C fuel st a b).sNext = 0 from by
        rw [buildStart_eq]
        dsimp only
        rw [allocData_eq]
        exact hA1]
      rfl
    · rw [hBe]
      rfl
    · rw [show (buildStart C fuel st a b).jNext = 0 from by
        rw [buildStart_eq]
        dsimp only
        rw [allocData_eq]
        exact hA3]
      rfl
    · rw [hBd]
      rfl
  have hL0 : InvL C (buildStart C fuel st a b) := by
    intro i hi
    left
    refine ⟨hBel i hi, ?_⟩
    intro e he
    rw [hBe] at he
    omega
  have hok0 : (buildStart C fuel st a b).ok = true →
      InvE C (buildStart C fuel st a b) ∧
      ReachAt C a a (buildStart C fuel st a b) 0 := by
    intro _
    constructor
    · intro e he
      rw [hBe] at he
      exact absurd he (by omega)
    · intro n _ hn
      unfold reach
      rw [if_pos (hBel _ (S.hidx n hn))]
  have hok2 : (createTimeSlab C fuel (buildStart C fuel st a b) a b 0).2.ok =
      true := hok
  obtain ⟨⟨d1, d2, d3, d4, d5, d6, d7, d8, d9, d10, d11, d12, d13, d14⟩,
      hlt, hle, hAe⟩ :=
    ((lockstep C a S) fuel).1 a b 0 (dryStart C st a)
      (buildStart C fuel st a b) hCpl0 hL0 (le_refl a) (by linarith)
      (by linarith [S.eps0]) (Or.inl heps) (Or.inl rfl) hok0
  obtain ⟨hEf, hRf⟩ := d14 hok2
  have hDp0 : (buildStart C fuel st a b).ok = true →
      Dpack C a a b (buildStart C fuel st a b) 0 := by
    intro _
    refine ⟨?_, ?_, ?_, ?_, fun _ => hBd, ⟨?_, ?_⟩, ?_⟩
    · intro n hn _
      exact absurd hn (by omega)
    · intro i hi hbr
      have h : reach a (buildStart C fuel st a b) i = a := by
        unfold reach
        rw [if_pos (hBel i hi)]
      rw [h] at hbr
      have hab : a < b := by linarith [S.eps0]
      exact absurd hbr (not_le.mpr hab)
    · intro d hd
      exact buildStart_de C fuel st a b hde d
    · intro hcon
      rw [hBe] at hcon
      exact absurd hcon.1 (lt_irrefl 0)
    · intro e1 he1
      rw [hBe] at he1
      exact absurd he1 (by omega)
    · intro e1 e2 h12 h2
      rw [hBe] at h2
      exact absurd h2 (by omega)
    · intro e1 he1
      rw [hBe] at he1
      exact absurd he1 (by omega)
  have DN := (depstep C a S D fuel).1 a b 0 (dryStart C st a)
    (buildStart C fuel st a b) hCpl0 hL0 (le_refl a) (by linarith)
    (by linarith [S.eps0]) (Or.inl heps) (Or.inl rfl) hok0
    (le_of_eq hBne.symm)
    (by rw [hBe]; exact Nat.zero_le _)
    hDp0 hok2
  obtain ⟨-, -, -, -, -, hDeInv, hSup⟩ := DN
  intro e1 he1 hpos d hd1 hd2
  have he1b : e1 + 1 <
      (createTimeSlab C fuel (buildStart C fuel st a b) a b 0).2.eNext := he1
  have hd1b : (createTimeSlab C fuel (buildStart C fuel st a b) a b
      0).2.ed e1 ≤ d := hd1
  have hd2b : d < (createTimeSlab C fuel (buildStart C fuel st a b) a b
      0).2.ed (e1 + 1) := hd2
  have heq : (createTimeSlab C fuel (buildStart C fuel st a b) a b
      0).2.eNext =
      (createTimeSlab C fuel (buildStart C fuel st a b) a b 0).2.ne := by
    have k1 : (computeDataSize C fuel (dryStart C st a) a b 0).2.ne =
        (createTimeSlab C fuel (buildStart C fuel st a b) a b
          0).2.eNext := d2.2.2.1
    have k2 : (createTimeSlab C fuel (buildStart C fuel st a b) a b
        0).2.ne = (buildStart C fuel st a b).ne := d6
    rw [← k1, k2, hBne]
  obtain ⟨hDeE, -⟩ := hDeInv
  obtain ⟨w1, w2, w3, w4, w5, w6⟩ := hDeE e1 (by omega)
  have hRH : rangeHi
      (createTimeSlab C fuel (buildStart C fuel st a b) a b 0).2 e1 =
      (createTimeSlab C fuel (buildStart C fuel st a b) a b
        0).2.ed (e1 + 1) := by
    unfold rangeHi
    rw [if_pos (by omega)]
  have hi1N : (createTimeSlab C fuel (buildStart C fuel st a b) a b
      0).2.ei e1 < C.ode.N := (hEf e1 (by omega)).1
  have hrem : remHits C a
      (createTimeSlab C fuel (buildStart C fuel st a b) a b 0).2 e1 = 0 := by
    unfold remHits
    refine sumL_zero _ _ ?_
    intro i0 hi0
    have hi0N : i0 < C.ode.N := S.hdep _ hi1N i0 hi0
    have hre : reach a
        (createTimeSlab C fuel (buildStart C fuel st a b) a b 0).2 i0 =
        (createTimeSlab C fuel (buildStart C fuel st a b) a b 0).1 := by
      obtain ⟨n, hn1, hn2⟩ := D.hsurj i0 hi0N
      rw [← hn2]
      exact hRf n (Nat.zero_le n) hn1
    rw [hre]
    by_cases hlive : (createTimeSlab C fuel (buildStart C fuel st a b) a b
        0).2.elast
        ((createTimeSlab C fuel (buildStart C fuel st a b) a b 0).2.ei e1) =
        Int.ofNat e1
    · have hre2 : reach a
          (createTimeSlab C fuel (buildStart C fuel st a b) a b 0).2
          ((createTimeSlab C fuel (buildStart C fuel st a b) a b
            0).2.ei e1) =
          (createTimeSlab C fuel (buildStart C fuel st a b) a b 0).1 := by
        obtain ⟨n, hn1, hn2⟩ := D.hsurj _ hi1N
        rw [← hn2]
        exact hRf n (Nat.zero_le n) hn1
      have hsb1 : (createTimeSlab C fuel (buildStart C fuel st a b) a b
          0).2.sb
          ((createTimeSlab C fuel (buildStart C fuel st a b) a b
            0).2.es e1) =
          (createTimeSlab C fuel (buildStart C fuel st a b) a b 0).1 := by
        rw [← hre2]
        unfold reach
        rw [hlive, if_neg (by rw [Int.ofNat_eq_natCast]; omega), toNatOfNat]
      exact fh_zero_of_end C D _ _ _ (by linarith) (by linarith)
    · have hsup := hSup e1 (by omega) hlive i0 hi0
      rw [hre] at hsup
      exact fh_zero_of_end C D _ _ _ (by linarith) (by linarith)
  exact w5 d hd1b (by rw [hRH, hrem]; omega)

/-- Concrete run of the dependency fill on the single-component witness
build over `[0, 1]` from a fresh arena. -/
theorem build_ranges_filled_witness :
    Sane c1Ctx ∧ DepSane c1Ctx ∧ c1Ctx.eps < 1 - 0 ∧
    (∀ d, c2Slab.de d = -1) ∧
    (build c1Ctx 10 c2Slab 0 1).2.ok = true ∧
    (∀ e1, e1 + 1 < (build c1Ctx 10 c2Slab 0 1).2.eNext →
      0 < (build c1Ctx 10 c2Slab 0 1).2.ed (e1 + 1) -
        (build c1Ctx 10 c2Slab 0 1).2.ed e1 →
      ∀ d, (build c1Ctx 10 c2Slab 0 1).2.ed e1 ≤ d →
        d < (build c1Ctx 10 c2Slab 0 1).2.ed (e1 + 1) →
        (build c1Ctx 10 c2Slab 0 1).2.de d ≠ -1) := by
  have hS : Sane c1Ctx := sane_c1
  have hD : DepSane c1Ctx := dep_sane_c1
  have hE : c1Ctx.eps < 1 - 0 := by
    show (0:R) < 1 - 0
    norm_num
  have hF : ∀ d, c2Slab.de d = -1 := fun d => rfl
  have hO : (build c1Ctx 10 c2Slab 0 1).2.ok = true := c2_build_ok
  exact ⟨hS, hD, hE, hF, hO,
    build_ranges_filled c1Ctx 10 c2Slab 0 1 hS hD hE hF hO⟩

end MultiAdaptiveTS
